import Mathlib

/-!
Verification development for the pipes-puzzle CSP solver.

The TypeScript sources are shallowly embedded: JS arrays become lists,
mutation becomes explicit state passing, JS Map and Set (which iterate in
insertion order) become association lists and lists, numbers become Nat or
Int (the TS remainder operator on possibly negative operands is Int.tmod),
and thrown exceptions become an error constructor.  Recursive procedures
whose termination is not structural take an explicit fuel argument; fuel
exhaustion is a distinguished result, and sufficiency lemmas discharge it
where totality matters.
-/

set_option maxHeartbeats 1000000

namespace Pipes

/-- A quadruple indexed by the four directions Up=0, Right=1, Down=2, Left=3,
mirroring the length-4 JS arrays used throughout the source. -/
structure Dir4 (α : Type) where
  d0 : α
  d1 : α
  d2 : α
  d3 : α
  deriving DecidableEq, Repr

/-- Index access, defined on the index mod 4: the source only ever indexes
these arrays with literals 0..3 or with the expression (i+2) % 4. -/
def Dir4.get {α : Type} (x : Dir4 α) (i : Nat) : α :=
  match i % 4 with
  | 0 => x.d0
  | 1 => x.d1
  | 2 => x.d2
  | _ => x.d3

/-- Openings of a pipe: entry d is true iff the pipe opens on side d
(src/utils/csp/utils.ts, type Openings). -/
def PipeType := Dir4 Bool
  deriving DecidableEq, Repr

/-- Build a pipe from its four openings, in direction order. -/
def mkPipe (u r d l : Bool) : PipeType := ⟨u, r, d, l⟩

/-- An assignment is one pipe per cell, row major (utils.ts, type Assignment). -/
abbrev Assignment := List PipeType

/-- findAdj from src/utils/csp/utils.ts.  Returns the four neighbor indices,
with -1 as the boundary sentinel.  JS remainder on these operands is
truncated division remainder, i.e. Int.tmod. -/
def findAdj (center n : Int) : Dir4 Int :=
  let above := center - n
  let right := center + 1
  let below := center + n
  let left := center - 1
  let above := if above < 0 then -1 else above
  let right := if right.tmod n == 0 then -1 else right
  let below := if below ≥ n * n then -1 else below
  let left := if left.tmod n == n - 1 then -1 else left
  ⟨above, right, below, left⟩

/-- checkConnections from src/utils/csp/utils.ts: connections[i] is true iff
the center pipe opens on side i and the neighbor on side i exists and opens
back on side (i+2) % 4. -/
def checkConnections (center : PipeType) (adj : Dir4 (Option PipeType)) :
    Dir4 Bool :=
  let conn : Nat → Bool := fun i =>
    center.get i &&
      (match adj.get i with
       | none => false
       | some adjPipe => adjPipe.get ((i + 2) % 4))
  ⟨conn 0, conn 1, conn 2, conn 3⟩

/-- generateDomain from the combined constraint builder: the 14 base pipes in
source order, filtered by the four grid-edge flags. -/
def generateDomain (top right bottom left : Bool) : List PipeType :=
  let domain : List PipeType :=
    [ mkPipe true true true false,
      mkPipe true true false true,
      mkPipe true true false false,
      mkPipe true false true true,
      mkPipe true false true false,
      mkPipe true false false true,
      mkPipe true false false false,
      mkPipe false true true true,
      mkPipe false true true false,
      mkPipe false true false true,
      mkPipe false true false false,
      mkPipe false false true true,
      mkPipe false false true false,
      mkPipe false false false true ]
  let domain := if top then domain.filter (fun pipe => !pipe.get 0) else domain
  let domain := if bottom then domain.filter (fun pipe => !pipe.get 2) else domain
  let domain := if right then domain.filter (fun pipe => !pipe.get 1) else domain
  let domain := if left then domain.filter (fun pipe => !pipe.get 3) else domain
  domain

/-- The Variable class of src/utils/csp/csp.ts: location, full domain,
active domain and optional assignment.  The constructor copies the domain
into the active domain. -/
structure Variable where
  location : Nat
  domain : List PipeType
  activeDomain : List PipeType
  assignment : Option PipeType
  deriving DecidableEq, Repr

/-- Variable construction for an unassigned variable (the only form the
puzzle builder uses): activeDomain starts as a copy of domain. -/
def Variable.mk0 (location : Nat) (domain : List PipeType) : Variable :=
  ⟨location, domain, domain, none⟩

/-- Variable.getActiveDomain (returns a copy in JS; pure here). -/
def Variable.getActiveDomain (v : Variable) : List PipeType :=
  v.activeDomain

/-- Variable.getAssignment. -/
def Variable.getAssignment (v : Variable) : Option PipeType :=
  v.assignment

/-- Variable.prune: for each pipe in toRemove, remove the first matching
element of the active domain (findIndex + splice). -/
def Variable.prune (v : Variable) (toRemove : List PipeType) : Variable :=
  { v with activeDomain := toRemove.foldl (fun ad p => ad.erase p) v.activeDomain }

instance : Inhabited PipeType := ⟨mkPipe false false false false⟩

instance : Inhabited Variable := ⟨Variable.mk0 0 []⟩

/-- The mutable heap of variables, indexed by position in CSP.vars (which for
the pipes CSP equals the cell location). -/
abbrev CSPState := List Variable

/-- Read a variable from the state. -/
def getV (s : CSPState) (i : Nat) : Variable :=
  List.getD s i default

/-- Write a variable back to the state. -/
def setV (s : CSPState) (i : Nat) (v : Variable) : CSPState :=
  List.set s i v

/-- Apply Variable.prune to the variable at index i. -/
def pruneAt (s : CSPState) (i : Nat) (toRemove : List PipeType) : CSPState :=
  setV s i ((getV s i).prune toRemove)

/-- The map from variables to removed values that a pruner returns, as an
association list in JS Map insertion order; keys are variable indices. -/
abbrev PruneLog := List (Nat × List PipeType)

/-- The push-or-set idiom used to build the removal maps: if the key is
present, push the value onto its array, otherwise create the entry. -/
def logPush1 (m : PruneLog) (v : Nat) (p : PipeType) : PruneLog :=
  if (List.lookup v m).isSome then
    List.map (fun e => if e.1 = v then (e.1, e.2 ++ [p]) else e) m
  else m ++ [(v, [p])]

/-- Look up the accumulated removals for a variable (empty if absent). -/
def logGet (m : PruneLog) (v : Nat) : List PipeType :=
  (List.lookup v m).getD []

/-- validatorH from no_half_connections: the right opening of the left pipe
must equal the left opening of the right pipe. -/
def validatorH (pipes : List PipeType) : Bool :=
  let left := pipes.getD 0 default
  let right := pipes.getD 1 default
  left.get 1 == right.get 3

/-- validatorV from no_half_connections. -/
def validatorV (pipes : List PipeType) : Bool :=
  let above := pipes.getD 0 default
  let below := pipes.getD 1 default
  above.get 2 == below.get 0

/-- prunerH from no_half_connections, over scope indices (l, r): when exactly
one side is assigned, remove from the partner every pipe whose facing opening
disagrees; mutate, then return the removal map. -/
def prunerH (l r : Nat) (s : CSPState) : CSPState × PruneLog :=
  let left := getV s l
  let right := getV s r
  let toPrune : PruneLog :=
    match left.getAssignment, right.getAssignment with
    | some leftAssignment, none =>
        right.getActiveDomain.foldl
          (fun m pipeType =>
            if leftAssignment.get 1 != pipeType.get 3 then logPush1 m r pipeType
            else m) []
    | none, some rightAssignment =>
        left.getActiveDomain.foldl
          (fun m pipeType =>
            if rightAssignment.get 3 != pipeType.get 1 then logPush1 m l pipeType
            else m) []
    | _, _ => []
  let s := toPrune.foldl (fun st e => pruneAt st e.1 e.2) s
  (s, toPrune)

/-- prunerV from no_half_connections, over scope indices (t, b). -/
def prunerV (t b : Nat) (s : CSPState) : CSPState × PruneLog :=
  let top := getV s t
  let bottom := getV s b
  let toPrune : PruneLog :=
    match top.getAssignment, bottom.getAssignment with
    | some topAssignment, none =>
        bottom.getActiveDomain.foldl
          (fun m pipeType =>
            if topAssignment.get 2 != pipeType.get 0 then logPush1 m b pipeType
            else m) []
    | none, some bottomAssignment =>
        top.getActiveDomain.foldl
          (fun m pipeType =>
            if bottomAssignment.get 0 != pipeType.get 2 then logPush1 m t pipeType
            else m) []
    | _, _ => []
  let s := toPrune.foldl (fun st e => pruneAt st e.1 e.2) s
  (s, toPrune)

/-- Comparison of a neighbor index against the optional previous cell,
mirroring the JS adjIndexes[i] !== prev where prev may be null. -/
def intNeqOpt (i : Int) (prev : Option Nat) : Bool :=
  match prev with
  | none => true
  | some p => i != Int.ofNat p

/-- The four neighbor pipes of a cell: index into the assignment where the
neighbor index is not the -1 sentinel. -/
def adjPipes (a : Assignment) (adjIndexes : Dir4 Int) : Dir4 (Option PipeType) :=
  ⟨if adjIndexes.d0 != -1 then some (a.getD adjIndexes.d0.toNat default) else none,
   if adjIndexes.d1 != -1 then some (a.getD adjIndexes.d1.toNat default) else none,
   if adjIndexes.d2 != -1 then some (a.getD adjIndexes.d2.toNat default) else none,
   if adjIndexes.d3 != -1 then some (a.getD adjIndexes.d3.toNat default) else none⟩

/-- assignmentHasCycle from the no_cycles constraint, with fuel.  The visited
set is kept in insertion order; the result none means fuel ran out.  The TS
source computes the grid side as Math.sqrt of the assignment length, which is
integral exactly on the perfect-square lengths all call sites use; Nat.sqrt
agrees there. -/
def cyF : Nat → Assignment → Nat → List Nat → Option Nat → Option (Bool × List Nat)
  | 0, _, _, _, _ => none
  | fuel + 1, a, curr, visited, prev =>
    if visited.contains curr then some (true, visited)
    else
      let visited := visited ++ [curr]
      let n : Int := Int.ofNat (Nat.sqrt a.length)
      let adjIndexes := findAdj (Int.ofNat curr) n
      let centerPipe := a.getD curr default
      let pipes := adjPipes a adjIndexes
      let adjConnections := checkConnections centerPipe pipes
      [0, 1, 2, 3].foldl
        (fun acc i =>
          match acc with
          | none => none
          | some (true, vis) => some (true, vis)
          | some (false, vis) =>
            if adjConnections.get i && intNeqOpt (adjIndexes.get i) prev then
              cyF fuel a (adjIndexes.get i).toNat vis (some curr)
            else some (false, vis))
        (some (false, visited))

/-- validator of the no_cycles constraint: no revisit during depth-first
traversal from cell 0.  Fuel a.length + 2 suffices (proved below). -/
def noCyclesValidator (assignment : Assignment) : Bool :=
  !(((cyF (assignment.length + 2) assignment 0 [] none).getD (true, [])).fst)

/-- dft from the connected constraint: depth-first traversal collecting
visited cells in push order, with fuel. -/
def dftF : Nat → Assignment → Nat → List Nat → Option (List Nat)
  | 0, _, _, _ => none
  | fuel + 1, pipes, loc, visited =>
    let visited := visited ++ [loc]
    let adjVals := findAdj (Int.ofNat loc) (Int.ofNat (Nat.sqrt pipes.length))
    let connections := checkConnections (pipes.getD loc default) (adjPipes pipes adjVals)
    [0, 1, 2, 3].foldl
      (fun acc i =>
        match acc with
        | none => none
        | some vis =>
          if connections.get i && !(vis.contains (adjVals.get i).toNat) then
            dftF fuel pipes (adjVals.get i).toNat vis
          else some vis)
      (some visited)

/-- validator of the connected constraint: the traversal from cell 0 visits
every cell.  Fuel pipes.length + 1 suffices (proved below). -/
def connectedValidator (pipes : Assignment) : Bool :=
  let visited := (dftF (pipes.length + 1) pipes 0 []).getD []
  visited.length == pipes.length

/-- Map.set of the JS touched map: overwrite in place or append. -/
def mapSet (m : List (Nat × Nat)) (k v : Nat) : List (Nat × Nat) :=
  if (List.lookup k m).isSome then
    List.map (fun e => if e.1 = k then (e.1, v) else e) m
  else m ++ [(k, v)]

/-- getDuplicatedTouched from the no_cycles constraint: walk the confirmed
connections of the partial assignment, recording for each neighbor index the
cell that touched it; report the first neighbor touched twice as
(neighbor, second toucher, first toucher).  The visited set and touched map
are threaded; throws become the error constructor, and fuel exhaustion is
reported as the distinguished error string "fuelExhausted" (the source has no
such case; every theorem below is fuel generic). -/
def gdtF : Nat → List (Option PipeType) → Nat → List Nat → List (Nat × Nat) →
    Option Nat → Except String (Option (Nat × Nat × Nat) × List Nat × List (Nat × Nat))
  | 0, _, _, _, _, _ => .error "fuelExhausted"
  | fuel + 1, assignment, curr, visited, touched, prev =>
    let visited := visited ++ [curr]
    match assignment.getD curr none with
    | none => .error "Traversed to an unassigned pipe"
    | some centerPipe =>
      let adjIndexes := findAdj (Int.ofNat curr) (Int.ofNat (Nat.sqrt assignment.length))
      -- first loop: record touches, returning early on a duplicate or an
      -- opening that points off the grid
      let firstLoop : Except String (Option (Nat × Nat × Nat) × List (Nat × Nat)) :=
        [0, 1, 2, 3].foldl
          (fun acc i =>
            match acc with
            | .error e => .error e
            | .ok (some dup, tch) => .ok (some dup, tch)
            | .ok (none, tch) =>
              if centerPipe.get i then
                if adjIndexes.get i == -1 then
                  .error "Pipe pointing to edge of grid"
                else
                  let idx := (adjIndexes.get i).toNat
                  if intNeqOpt (adjIndexes.get i) prev && (List.lookup idx tch).isSome then
                    .ok (some (idx, curr, (List.lookup idx tch).getD 0), tch)
                  else .ok (none, mapSet tch idx curr)
              else .ok (none, tch))
          (.ok (none, touched))
      match firstLoop with
      | .error e => .error e
      | .ok (some dup, touched) => .ok (some dup, visited, touched)
      | .ok (none, touched) =>
        let pipes := adjPipes (assignment.map (fun o => o.getD default)) adjIndexes
        -- the source maps unassigned neighbors through as their values; an
        -- unassigned (null) neighbor never yields a connection because the
        -- recursion below is reached only along confirmed connections between
        -- assigned cells, and checkConnections only consults neighbors the
        -- center opens toward; to stay faithful we rebuild the option view
        let pipesOpt : Dir4 (Option PipeType) :=
          ⟨if adjIndexes.d0 != -1 then (assignment.getD adjIndexes.d0.toNat none) else none,
           if adjIndexes.d1 != -1 then (assignment.getD adjIndexes.d1.toNat none) else none,
           if adjIndexes.d2 != -1 then (assignment.getD adjIndexes.d2.toNat none) else none,
           if adjIndexes.d3 != -1 then (assignment.getD adjIndexes.d3.toNat none) else none⟩
        let adjConnections := checkConnections centerPipe pipesOpt
        let _ := pipes
        [0, 1, 2, 3].foldl
          (fun acc i =>
            match acc with
            | .error e => .error e
            | .ok (some dup, vis, tch) => .ok (some dup, vis, tch)
            | .ok (none, vis, tch) =>
              if adjConnections.get i && intNeqOpt (adjIndexes.get i) prev then
                gdtF fuel assignment (adjIndexes.get i).toNat vis tch (some curr)
              else .ok (none, vis, tch))
          (.ok (none, visited, touched))

/-- The body of the no_cycles pruner once a duplicated touch
(neighbor, toucher, toucher) has been found: compute the two incoming
directions at the neighbor and remove from its active domain every pipe that
opens on both. -/
def noCyclesPrunePlan (s : CSPState) (n : Nat) (dup : Nat × Nat × Nat) :
    Option (Nat × List PipeType) :=
  match s.findIdx? (fun v => v.location == dup.1) with
  | none => none
  | some varIdx =>
    let directions := findAdj (Int.ofNat dup.1) (Int.ofNat n)
    let touches := [dup.2.1, dup.2.2]
    let touchedDirections : List Nat :=
      [0, 1, 2, 3].foldl
        (fun acc i =>
          touches.foldl
            (fun acc2 touchValue =>
              if directions.get i == Int.ofNat touchValue then acc2 ++ [i] else acc2)
            acc) []
    let prunedValues : List PipeType :=
      match touchedDirections with
      | t0 :: t1 :: _ =>
          (getV s varIdx).getActiveDomain.filter (fun ad => ad.get t0 && ad.get t1)
      | _ => []  -- a JS read at an undefined index is falsy, so nothing matches
    some (varIdx, prunedValues)

/-- The scan loop of the no_cycles pruner: try each assigned, unvisited cell
as a traversal root; on the first duplicated touch, prune and return that
single-entry map. -/
def noCyclesScan (fuel : Nat) (assignment : List (Option PipeType)) (n : Nat) :
    List Nat → List Nat → CSPState → Except String (CSPState × PruneLog)
  | [], _, s => .ok (s, [])
  | assignmentIndex :: rest, visited, s =>
    match assignment.getD assignmentIndex none with
    | none => noCyclesScan fuel assignment n rest visited s
    | some _ =>
      if visited.contains assignmentIndex then
        noCyclesScan fuel assignment n rest visited s
      else
        match gdtF fuel assignment assignmentIndex visited [] none with
        | .error e => .error e
        | .ok (none, visited, _) => noCyclesScan fuel assignment n rest visited s
        | .ok (some dup, visited, _) =>
          match noCyclesPrunePlan s n dup with
          | none => noCyclesScan fuel assignment n rest visited s
          | some (varIdx, prunedValues) =>
            .ok (pruneAt s varIdx prunedValues, [(varIdx, prunedValues)])

/-- pruner of the no_cycles constraint (scope: every variable, in state
order). -/
def noCyclesPruner (fuel : Nat) (s : CSPState) : Except String (CSPState × PruneLog) :=
  let assignment : List (Option PipeType) := s.map (fun v => v.getAssignment)
  let n := Nat.sqrt assignment.length
  noCyclesScan fuel assignment n (List.range assignment.length) [] s

/-- pseudoAssign from the connected constraint: assigned variables supply
their assignment, unassigned ones the direction-wise OR of their active
domain (the early allTrue exit of the source loop does not change the OR). -/
def pseudoAssign (s : CSPState) : List PipeType :=
  s.map (fun v =>
    match v.getAssignment with
    | some assignment => assignment
    | none =>
      v.getActiveDomain.foldl
        (fun acc ad =>
          ⟨acc.d0 || ad.get 0, acc.d1 || ad.get 1, acc.d2 || ad.get 2, acc.d3 || ad.get 3⟩)
        (⟨false, false, false, false⟩ : PipeType))

/-- The adjacent pseudo pipes seen by findIsolatedPath: neighbors that exist
and are not in the direction the walk came from. -/
def fipAdjPipeList (pseudoAssignment : List PipeType) (i : Nat) (lastDir : Int) :
    Dir4 (Option PipeType) :=
  let adjIndex := findAdj (Int.ofNat i) (Int.ofNat (Nat.sqrt pseudoAssignment.length))
  ⟨if adjIndex.d0 != -1 && (0 : Int) != lastDir then
      some (pseudoAssignment.getD adjIndex.d0.toNat default) else none,
   if adjIndex.d1 != -1 && (1 : Int) != lastDir then
      some (pseudoAssignment.getD adjIndex.d1.toNat default) else none,
   if adjIndex.d2 != -1 && (2 : Int) != lastDir then
      some (pseudoAssignment.getD adjIndex.d2.toNat default) else none,
   if adjIndex.d3 != -1 && (3 : Int) != lastDir then
      some (pseudoAssignment.getD adjIndex.d3.toNat default) else none⟩

/-- The connection count of the findIsolatedPath loop. -/
def countConnections (connections : Dir4 Bool) : Nat :=
  [0, 1, 2, 3].foldl (fun k i => if connections.get i then k + 1 else k) 0

/-- curDir of findIsolatedPath: the last set direction (the source computes
the count and this value in one loop; splitting it is value-identical). -/
def lastConnection (connections : Dir4 Bool) : Nat :=
  [0, 1, 2, 3].foldl (fun c i => if connections.get i then i else c) 0

/-- pathDir of findIsolatedPath: the first connected direction other than the
one the walk came from (0 if the loop finds none). -/
def findPathDir (connections : Dir4 Bool) (lastDir : Int) : Nat :=
  match [0, 1, 2, 3].find? (fun i => connections.get i && (Int.ofNat i) != lastDir) with
  | some i => i
  | none => 0

/-- The pruning step of findIsolatedPath at an unassigned variable: remove
(and log) every active pipe that fails the walk condition. -/
def fipPrune (i : Nat) (cond : PipeType → Bool) (s : CSPState) (pruned : PruneLog) :
    CSPState × PruneLog :=
  match (getV s i).getAssignment with
  | some _ => (s, pruned)
  | none =>
    let activeDomain := (getV s i).getActiveDomain
    let tp :=
      activeDomain.foldl
        (fun (acc : List PipeType × PruneLog) assignment =>
          if cond assignment then (acc.1 ++ [assignment], logPush1 acc.2 i assignment)
          else acc)
        ([], pruned)
    (pruneAt s i tp.1, tp.2)

/-- findIsolatedPath from the connected constraint: follow a degree-1 walk of
the pseudo assignment, requiring every unassigned variable on it to keep the
walk alive; prunes and logs in step.  Fuel exhaustion stops the walk. -/
def fipF : Nat → List PipeType → Nat → Int → CSPState → PruneLog → CSPState × PruneLog
  | 0, _, _, _, s, pruned => (s, pruned)
  | fuel + 1, pseudoAssignment, i, lastDir, s, pruned =>
    let mainPipe := pseudoAssignment.getD i default
    let adjIndex := findAdj (Int.ofNat i) (Int.ofNat (Nat.sqrt pseudoAssignment.length))
    let connections := checkConnections mainPipe (fipAdjPipeList pseudoAssignment i lastDir)
    if countConnections connections == 1 then
      let pathDir := findPathDir connections lastDir
      let sp := fipPrune i
        (fun assignment =>
          !assignment.get (lastConnection connections) ||
            (lastDir != -1 && !assignment.get lastDir.toNat)) s pruned
      fipF fuel pseudoAssignment (adjIndex.get pathDir).toNat
        (Int.ofNat ((pathDir + 2) % 4)) sp.1 sp.2
    else (s, pruned)

/-- pruner of the connected constraint. -/
def connectedPruner (fuel : Nat) (s : CSPState) : CSPState × PruneLog :=
  let pseudoAssignment := pseudoAssign s
  let canBeConnected := connectedValidator pseudoAssignment
  if !canBeConnected then
    match s.findIdx? (fun v => v.getAssignment == none) with
    | some i =>
      let domain := (getV s i).getActiveDomain
      (pruneAt s i domain, [(i, domain)])
    | none => (s, [])
  else
    (List.range pseudoAssignment.length).foldl
      (fun (acc : CSPState × PruneLog) i =>
        fipF fuel pseudoAssignment i (-1) acc.1 acc.2)
      (s, [])

/-- A constraint: named scope (as state indices) with a validator and a
pruner; the pruner threads the state and may raise (csp.ts, class
Constraint). -/
structure Con where
  name : String
  scope : List Nat
  validator : List PipeType → Bool
  pruner : Nat → CSPState → Except String (CSPState × PruneLog)

instance : Inhabited Con :=
  ⟨⟨"", [], fun _ => true, fun _ s => .ok (s, [])⟩⟩

/-- Constraint.violated: requires a fully assigned scope, then negates the
validator on the scope assignments. -/
def conViolated (c : Con) (s : CSPState) : Except String Bool :=
  if !(c.scope.all (fun v => ((getV s v).getAssignment).isSome)) then
    .error "Tried to check if a constraint with unassigned variables was violated"
  else
    .ok (!(c.validator (c.scope.map (fun v => ((getV s v).getAssignment).getD default))))

/-- The variables of createPipesCSP n, in source order (row major, with the
grid-edge flags of the cell position). -/
def pipesVars (n : Nat) : CSPState :=
  (List.range (n * n)).map (fun loc =>
    Variable.mk0 loc
      (generateDomain (loc / n == 0) (loc % n == n - 1) (loc / n == n - 1) (loc % n == 0)))

/-- The constraints of createPipesCSP n, in source order: horizontal
no-half-connections, vertical no-half-connections, tree (no cycles), then
connected. -/
def pipesCons (n : Nat) : List Con :=
  ((List.range n).flatMap (fun i =>
    (List.range (n - 1)).map (fun j =>
      ({ name := "no half-connections horizontal",
         scope := [i * n + j, i * n + j + 1],
         validator := validatorH,
         pruner := fun _ s => .ok (prunerH (i * n + j) (i * n + j + 1) s) } : Con)))) ++
  ((List.range (n - 1)).flatMap (fun i =>
    (List.range n).map (fun j =>
      ({ name := "no half-connections vertical",
         scope := [i * n + j, (i + 1) * n + j],
         validator := validatorV,
         pruner := fun _ s => .ok (prunerV (i * n + j) ((i + 1) * n + j) s) } : Con)))) ++
  [{ name := "tree"
     scope := List.range (n * n)
     validator := noCyclesValidator
     pruner := noCyclesPruner },
   { name := "connected"
     scope := List.range (n * n)
     validator := connectedValidator
     pruner := fun fuel s => .ok (connectedPruner fuel s) }]

/-- CSP.getConsWithVar: the constraints mentioning a variable, as indices in
constraint order (this is exactly the varsToCons order that addCon builds). -/
def getConsWithVar (cons : List Con) (v : Nat) : List Nat :=
  (List.range cons.length).filter (fun ci => (cons.getD ci default).scope.contains v)

/-- The queue extension step of ac3: push every constraint mentioning v that
the queue does not already hold. -/
def enqueue (cons : List Con) (queue : List Nat) (v : Nat) : List Nat :=
  (getConsWithVar cons v).foldl
    (fun q c => if q.contains c then q else q ++ [c]) queue

/-- The per-call log aggregation of ac3: ensure an entry for v, then push the
removed values onto it. -/
def logAppend (m : PruneLog) (v : Nat) (rem : List PipeType) : PruneLog :=
  if (List.lookup v m).isSome then
    List.map (fun e => if e.1 = v then (e.1, e.2 ++ rem) else e) m
  else m ++ [(v, rem)]

/-- Result of an ac3 run: a normal return with the final state and log, a
propagated exception, or fuel exhaustion (the source loop may in principle
not terminate; see the termination analysis below). -/
inductive AC3Out where
  | out (s : CSPState) (log : PruneLog) : AC3Out
  | err (e : String) : AC3Out
  | spin : AC3Out
  deriving Repr

/-- The entry-processing loop of ac3 over the map one pruner returned: log
each (variable, removals) pair, return immediately (with the log so far) when
that variable now has an empty active domain, otherwise extend the queue with
every constraint mentioning it. -/
def ac3Entries (cons : List Con) (s : CSPState) :
    List (Nat × List PipeType) → List Nat → PruneLog → Sum PruneLog (List Nat × PruneLog)
  | [], queue, acc => .inr (queue, acc)
  | (v, rem) :: rest, queue, acc =>
    let acc := logAppend acc v rem
    if (getV s v).getActiveDomain.length == 0 then .inl acc
    else ac3Entries cons s rest (enqueue cons queue v) acc

/-- CSP.ac3 (csp.ts lines 208-237): pop constraints off the queue, run their
pruners, aggregate the removal maps into a per-call log, and stop early as
soon as a logged variable has an empty active domain. -/
def ac3F (cons : List Con) : Nat → CSPState → List Nat → PruneLog → AC3Out
  | 0, _, _, _ => .spin
  | fuel + 1, s, queue, acc =>
    match queue with
    | [] => .out s acc
    | con :: queueRest =>
      match (cons.getD con default).pruner fuel s with
      | .error e => .err e
      | .ok (s, pruned) =>
        match ac3Entries cons s pruned queueRest acc with
        | .inl accFinal => .out s accFinal
        | .inr (queue, acc) => ac3F cons fuel s queue acc

/-- Variable.assign: refuses (returning false, after a console error) when the
value is not in the full domain; otherwise records the assignment.  Note that
the refusal is a normal return, not a thrown error. -/
def Variable.assign (v : Variable) (value : PipeType) : Bool × Variable :=
  if !(v.domain.contains value) then (false, v)
  else (true, { v with assignment := some value })

/-- Variable.unassign: clears an assignment, reporting whether one existed. -/
def Variable.unassign (v : Variable) : Bool × Variable :=
  match v.assignment with
  | some _ => (true, { v with assignment := none })
  | none => (false, v)

/-- The CSP bookkeeping that gacAll manipulates besides the variables: the
assigned and unassigned index lists, in their JS array order. -/
structure GacState where
  vars : CSPState
  assignedVars : List Nat
  unassignedVars : List Nat
  deriving Repr

/-- CSP.assignVar: on success move the variable from the unassigned list to
the end of the assigned list. -/
def assignVar (g : GacState) (i : Nat) (value : PipeType) : Bool × GacState :=
  let (ok, v) := (getV g.vars i).assign value
  if ok then
    (true,
     { vars := setV g.vars i v,
       assignedVars := g.assignedVars ++ [i],
       unassignedVars := g.unassignedVars.filter (fun x => x != i) })
  else (false, g)

/-- CSP.unassignVar: on success move the variable from the assigned list to
the end of the unassigned list. -/
def unassignVar (g : GacState) (i : Nat) : Bool × GacState :=
  let (ok, v) := (getV g.vars i).unassign
  if ok then
    (true,
     { vars := setV g.vars i v,
       assignedVars := g.assignedVars.filter (fun x => x != i),
       unassignedVars := g.unassignedVars ++ [i] })
  else (false, g)

/-- CSP.getAssignment: the pipes of all variables in order, or a thrown error
when any variable is unassigned. -/
def cspGetAssignment (s : CSPState) : Except String Assignment :=
  if s.all (fun v => v.getAssignment.isSome) then
    .ok (s.map (fun v => v.getAssignment.getD default))
  else .error "Tried to get assignment when some variables are unassigned"

/-- The loop of gacAll that checks whether any constraint is violated on the
full assignment (early exit on the first violation). -/
def anyViolatedF : List Con → CSPState → Except String Bool
  | [], _ => .ok false
  | c :: rest, s =>
    match conViolated c s with
    | .error e => .error e
    | .ok true => .ok true
    | .ok false => anyViolatedF rest s

/-- The restore loops of gacAll: push every logged value back onto the end of
the active domain it was removed from. -/
def restore (g : GacState) (log : PruneLog) : GacState :=
  { g with
    vars := log.foldl
      (fun vs e =>
        setV vs e.1
          { getV vs e.1 with activeDomain := (getV vs e.1).activeDomain ++ e.2 })
      g.vars }

/-- A stream of machine random numbers standing in for Math.random: drawing
with bound k yields head % k.  Deterministic mode must never consume it. -/
abbrev Rng := List Nat

/-- Draw a random index below k (k positive at all call sites). -/
def nextRand (rng : Rng) (k : Nat) : Nat × Rng :=
  match rng with
  | [] => (0, [])
  | r :: rest => (r % k, rest)

/-- Swap two positions of a list (the Fisher-Yates inner step). -/
def swapAt {α : Type} [Inhabited α] (l : List α) (i j : Nat) : List α :=
  (l.set i (l.getD j default)).set j (l.getD i default)

/-- CSP.shuffle: Fisher-Yates from the top index downwards. -/
def shuffleF {α : Type} [Inhabited α] (arr : List α) (rng : Rng) : List α × Rng :=
  ((List.range arr.length).reverse.filter (fun i => i > 0)).foldl
    (fun (acc : List α × Rng) i =>
      let (j, rng) := nextRand acc.2 (i + 1)
      (swapAt acc.1 i j, rng))
    (arr, rng)

/-- Insertion into a JS Set kept in insertion order. -/
def setAdd (l : List Nat) (x : Nat) : List Nat :=
  if l.contains x then l else l ++ [x]

/-- CSP.manhattanDistToConnection: pick the unassigned variable closest (in
Manhattan distance) to the frontier of unassigned neighbors of assigned
variables; ties go to the first in unassigned order, or to a random choice in
randomized mode.  Returns none only when there is no unassigned variable (the
source would crash there; every caller guards this). -/
def manhattanF (randomizeOrder : Bool) (g : GacState) (rng : Rng) :
    Option (Nat × Rng) :=
  let n := Nat.sqrt g.vars.length
  let locPipe : List (Nat × PipeType) :=
    g.assignedVars.map (fun i =>
      ((getV g.vars i).location, (getV g.vars i).getAssignment.getD default))
  let unassignedLocs : List Nat := g.unassignedVars.map (fun i => (getV g.vars i).location)
  let locVar : List (Nat × Nat) :=
    g.unassignedVars.map (fun i => ((getV g.vars i).location, i))
  let direct : List Nat :=
    locPipe.foldl
      (fun direct e =>
        let adj := findAdj (Int.ofNat e.1) (Int.ofNat n)
        [adj.d0, adj.d1, adj.d2, adj.d3].foldl
          (fun direct idx =>
            if idx != -1 &&
                !(idx ≥ 0 && (List.lookup idx.toNat locPipe).isSome) then
              setAdd direct idx.toNat
            else direct)
          direct)
      []
  -- build the distance map with the early break on a zero distance
  let step :
      (List (Nat × List Nat) × Nat × Bool) → Nat → (List (Nat × List Nat) × Nat × Bool) :=
    fun acc loc =>
      let (distMap, lowest, stop) := acc
      if stop then acc
      else
        let minD := direct.foldl
          (fun minD conn =>
            let dx := (Int.ofNat (loc % n) - Int.ofNat (conn % n)).natAbs
            let dy := (Int.ofNat (loc / n) - Int.ofNat (conn / n)).natAbs
            min minD (dx + dy))
          (2 * n)
        let distMap :=
          if (List.lookup minD distMap).isSome then
            List.map (fun e => if e.1 = minD then (e.1, e.2 ++ [loc]) else e) distMap
          else distMap ++ [(minD, [loc])]
        (distMap, min lowest minD, minD == 0)
  let (distMap, lowest, _) := unassignedLocs.foldl step ([], 2 * n, false)
  match List.lookup lowest distMap with
  | none => none
  | some choices =>
    let (pick, rng) :=
      if randomizeOrder && choices.length > 1 then
        let (j, rng) := nextRand rng choices.length
        (choices.getD j 0, rng)
      else (choices.getD 0 0, rng)
    match List.lookup pick locVar with
    | none => none
    | some i => some (i, rng)

/-- A frame of the iterative gacAll search stack: the variable being
enumerated, the cursor into the captured active domain, and the removal log
of the current trial. -/
structure SearchState where
  varIdx : Nat
  domainIndex : Nat
  activeDomain : List PipeType
  pruned : PruneLog
  deriving Repr

/-- The while loop of CSP.gacAll (csp.ts lines 273-395).  The stack head is
the top frame.  Fuel exhaustion (and an ac3 that runs out of fuel) returns
the solutions collected so far. -/
def gacLoopF (cons : List Con) :
    Nat → GacState → List SearchState → List Assignment → Int → Bool → Rng →
    Except String (List Assignment × GacState)
  | 0, g, _, solutions, _, _, _ => .ok (solutions, g)
  | fuel + 1, g, stack, solutions, maxSolutions, randomStart, rng =>
    match stack with
    | [] => .ok (solutions, g)
    | state :: stackRest =>
      if maxSolutions != -1 && (Int.ofNat solutions.length) ≥ maxSolutions then
        .ok (solutions, g)
      else if g.unassignedVars.length == 0 then
        match cspGetAssignment g.vars with
        | .error e => .error e
        | .ok currAssignment =>
          let newSolutions : Except String (List Assignment) :=
            if solutions.contains currAssignment then .ok solutions
            else
              match anyViolatedF cons g.vars with
              | .error e => .error e
              | .ok true => .ok solutions
              | .ok false => .ok (solutions ++ [currAssignment])
          match newSolutions with
          | .error e => .error e
          | .ok solutions =>
            let g := (unassignVar g state.varIdx).2
            let g := restore g state.pruned
            let state := { state with domainIndex := state.domainIndex + 1, pruned := [] }
            let stack :=
              if state.domainIndex ≥ state.activeDomain.length then stackRest
              else state :: stackRest
            gacLoopF cons fuel g stack solutions maxSolutions randomStart rng
      else if state.domainIndex ≥ state.activeDomain.length then
        match stackRest with
        | [] => gacLoopF cons fuel g [] solutions maxSolutions randomStart rng
        | prevState :: rest =>
          let g := (unassignVar g prevState.varIdx).2
          let g := restore g prevState.pruned
          let prevState :=
            { prevState with domainIndex := prevState.domainIndex + 1, pruned := [] }
          gacLoopF cons fuel g (prevState :: rest) solutions maxSolutions randomStart rng
      else
        let assignment := state.activeDomain.getD state.domainIndex default
        let g := (unassignVar g state.varIdx).2
        let g := (assignVar g state.varIdx assignment).2
        match ac3F cons fuel g.vars (getConsWithVar cons state.varIdx) [] with
        | .err e => .error e
        | .spin => .ok (solutions, g)
        | .out vars prunedDomains =>
          let g := { g with vars := vars }
          let noActiveDomains :=
            prunedDomains.any (fun e => (getV g.vars e.1).getActiveDomain.length == 0)
          let state := { state with pruned := prunedDomains }
          if noActiveDomains then
            let g := restore g prunedDomains
            let state := { state with domainIndex := state.domainIndex + 1, pruned := [] }
            gacLoopF cons fuel g (state :: stackRest) solutions maxSolutions randomStart rng
          else if g.unassignedVars.length > 0 then
            match manhattanF randomStart g rng with
            | none => .ok (solutions, g)
            | some (nextVar, rng) =>
              let nextActiveDomain := (getV g.vars nextVar).getActiveDomain
              let (nextActiveDomain, rng) :=
                if randomStart then shuffleF nextActiveDomain rng
                else (nextActiveDomain, rng)
              gacLoopF cons fuel g
                (⟨nextVar, 0, nextActiveDomain, []⟩ :: state :: stackRest)
                solutions maxSolutions randomStart rng
          else
            gacLoopF cons fuel g (state :: stackRest) solutions maxSolutions randomStart rng

/-- CSP.gacAll: seed the stack with the first heuristic choice, then run the
search loop. -/
def gacAll (cons : List Con) (fuel : Nat) (g : GacState) (solutions : List Assignment)
    (maxSolutions : Int) (randomStart : Bool) (rng : Rng) :
    Except String (List Assignment × GacState) :=
  if g.unassignedVars.length > 0 then
    match manhattanF randomStart g rng with
    | none => gacLoopF cons fuel g [] solutions maxSolutions randomStart rng
    | some (initialVar, rng) =>
      let activeDomain := (getV g.vars initialVar).getActiveDomain
      let (activeDomain, rng) :=
        if randomStart then shuffleF activeDomain rng else (activeDomain, rng)
      let stack : List SearchState :=
        if activeDomain.length > 0 then [⟨initialVar, 0, activeDomain, []⟩] else []
      gacLoopF cons fuel g stack solutions maxSolutions randomStart rng
  else gacLoopF cons fuel g [] solutions maxSolutions randomStart rng

/-- The freshly built pipes CSP of createPipesCSP n: all variables unassigned,
in location order. -/
def pipesInit (n : Nat) : GacState :=
  ⟨pipesVars n, [], List.range (n * n)⟩

/-! ## Move picker (src/unnamed/part_006)

The tried-move memo is a JS object mapping a board fingerprint to an array of
oracle ranks.  To express the in-place mutation and the shallow-copy sharing
of those arrays, the arrays live in an explicit heap and the memo maps
fingerprints to heap references.  The JS fingerprint String(encodedState) is
injective on integer vectors, so the encoded vector itself is the key.  The
oracle (runInference) is abstracted as a function argument; its scores are
integers (the claims under study do not involve float-specific behavior). -/

/-- The store of tried-rank arrays. -/
abbrev MemoHeap := List (List Nat)

/-- The attemptedMoves object: fingerprint to heap reference. -/
abbrev Memo := List (List Nat × Nat)

/-- encodeBoardState: one 0/1 integer per opening, throwing on an empty
cell. -/
def encodeBoardState (boardState : List (Option PipeType)) : Except String (List Nat) :=
  if boardState.all (fun pipe => pipe.isSome) then
    .ok (boardState.flatMap (fun pipe =>
      let p := pipe.getD default
      [p.get 0, p.get 1, p.get 2, p.get 3].map (fun val => if val then 1 else 0)))
  else .error "Pipe is null"

/-- The candidate loop of pickMove: walk ranks in score order, skip ranks
already tried for this fingerprint, record the chosen rank (in place: the
heap cell is updated, or a fresh cell is allocated), and return the move. -/
def pickMoveLoop (output sortedOutput : List Int) (encodedState : List Nat)
    (heap : MemoHeap) (attemptedMoves : Memo) :
    List Nat → Except String (Nat × MemoHeap × Memo)
  | [] => .error "No valid moves found"
  | i :: rest =>
    let move := List.indexOf (sortedOutput.getD i 0) output
    match List.lookup encodedState attemptedMoves with
    | some ref =>
      let triedMoves := heap.getD ref []
      if triedMoves.contains i then
        pickMoveLoop output sortedOutput encodedState heap attemptedMoves rest
      else
        .ok (move, heap.set ref (triedMoves ++ [i]), attemptedMoves)
    | none =>
      .ok (move, heap ++ [[i]], attemptedMoves ++ [(encodedState, heap.length)])

/-- One step of a stable descending insertion sort: the new element goes
after every element greater than or equal to it. -/
def insertDesc (a : Int) : List Int → List Int
  | [] => [a]
  | b :: l => if b < a then a :: b :: l else b :: insertDesc a l

/-- The JS [...output].sort((a, b) => b - a): a stable descending sort. -/
def sortDesc (l : List Int) : List Int :=
  l.foldl (fun acc a => insertDesc a acc) []

/-- pickMove: encode the board, score it, sort candidate ranks by descending
score (JS sort is stable), and run the candidate loop.  The returned memo is
the shallow copy the source builds: the same fingerprint-to-array entries. -/
def pickMove (oracle : List Nat → List Int) (boardState : List (Option PipeType))
    (heap : MemoHeap) (attemptedMoves : Memo) :
    Except String (Nat × MemoHeap × Memo) :=
  match encodeBoardState boardState with
  | .error e => .error e
  | .ok encodedState =>
    let output := oracle encodedState
    let sortedOutput := sortDesc output
    pickMoveLoop output sortedOutput encodedState heap attemptedMoves
      (List.range sortedOutput.length)

/-! ## Specification-side connection graph

These definitions follow the wording of the specification (sections 3, 4.1
and 4.3.2): cells are vertices, and there is an edge between two grid
neighbors exactly when both pipes face each other. -/

/-- The neighbor of cell i in direction d on an n by n grid, with no
wrap-around: none at a grid boundary. -/
def specNeighbor (n i d : Nat) : Option Nat :=
  match d with
  | 0 => if i / n = 0 then none else some (i - n)
  | 1 => if i % n = n - 1 then none else some (i + 1)
  | 2 => if i / n = n - 1 then none else some (i + n)
  | 3 => if i % n = 0 then none else some (i - 1)
  | _ => none

/-- A confirmed connection from cell i to cell j: some direction d takes i to
j, cell i opens on side d, and cell j opens back on side (d+2) % 4. -/
def specConn (n : Nat) (a : Assignment) (i j : Nat) : Prop :=
  ∃ d, d < 4 ∧ specNeighbor n i d = some j ∧
    (a.getD i default).get d = true ∧ (a.getD j default).get ((d + 2) % 4) = true

/-- The connection graph of a full assignment, on the n * n cells: an edge
wherever a confirmed connection holds in either direction (the relation is
symmetrized by fromRel). -/
def pipesGraph (n : Nat) (a : Assignment) : SimpleGraph (Fin (n * n)) :=
  SimpleGraph.fromRel (fun v w => specConn n a v.val w.val)

/-- The subgraph of the connection graph spanned by the component of a root
cell: edges whose two endpoints are both reachable from the root. -/
def reachGraph (n : Nat) (a : Assignment) (root : Fin (n * n)) :
    SimpleGraph (Fin (n * n)) :=
  SimpleGraph.fromRel (fun v w =>
    (pipesGraph n a).Adj v w ∧
      (pipesGraph n a).Reachable root v ∧ (pipesGraph n a).Reachable root w)

/-- Reachability along confirmed connections, on raw cell indices. -/
def specReach (n : Nat) (a : Assignment) : Nat → Nat → Prop :=
  Relation.ReflTransGen (specConn n a)

/-- Two cells joined by a recorded parent link, in either orientation. -/
def parLinked (par : List (Nat × Nat)) (x y : Nat) : Prop :=
  (x, y) ∈ par ∨ (y, x) ∈ par

/-- Reachability along parent links alone. -/
def parReach (par : List (Nat × Nat)) : Nat → Nat → Prop :=
  Relation.ReflTransGen (parLinked par)

/-- The depth-first traversal invariant shared by the two validators: the
visited list is duplicate-free, on the grid, and every visited cell is tied
to the root by the parent links, each of which is a confirmed connection from
a child to a parent that was visited strictly earlier. -/
def DfsInv (n : Nat) (a : Assignment) (root : Nat) (visited : List Nat)
    (par : List (Nat × Nat)) : Prop :=
  visited.Nodup ∧
  (∀ v ∈ visited, v < n * n) ∧
  par.map Prod.fst = visited.drop 1 ∧
  (∀ e ∈ par, specConn n a e.1 e.2 ∧
    List.indexOf e.2 visited < List.indexOf e.1 visited ∧ e.2 ∈ visited) ∧
  (∀ v ∈ visited, parReach par root v)

/-- The relationship between a cycle-search call's prev argument and the
state: the initial call starts the traversal at the root with nothing
visited; a recursive call comes from a visited cell c over a confirmed
connection that is recorded in neither orientation as a parent link. -/
def PrevOK (n : Nat) (a : Assignment) (root : Nat) (par : List (Nat × Nat))
    (visited : List Nat) (curr : Nat) : Option Nat → Prop
  | none => visited = [] ∧ par = [] ∧ curr = root
  | some c => c ∈ visited ∧ specConn n a c curr ∧ (c, curr) ∉ par ∧ (curr, c) ∉ par

/-- The core of Variable.prune: remove the first occurrence of each listed
value in turn. -/
def eraseList (ad : List PipeType) (l : List PipeType) : List PipeType :=
  l.foldl (fun x p => x.erase p) ad

/-- The prune-then-append round trip that C2 quantifies over: a sequence of
pruning steps, each removing a sublist of the current active domain (which is
how every pruner builds its removal lists: by filtering the active domain it
is about to mutate). -/
def StepsOK : List PipeType → List (List PipeType) → Prop
  | _, [] => True
  | ad, l :: rest => l.Sublist ad ∧ StepsOK (eraseList ad l) rest

/-- Named pipes used in the concrete witnesses and counterexamples below. -/
def pU : PipeType := mkPipe true false false false
def pR : PipeType := mkPipe false true false false
def pD : PipeType := mkPipe false false true false
def pL : PipeType := mkPipe false false false true
def pUL : PipeType := mkPipe true false false true
def pUR : PipeType := mkPipe true true false false
def pRD : PipeType := mkPipe false true true false
def pDL : PipeType := mkPipe false false true true

/-- The concrete four-variable state of the counterexample to C1: cell 0 is
assigned the right-only pipe, the other cells carry already-narrowed active
domains on the 2 by 2 pipes CSP.  Its domains are the corner domains of
createPipesCSP 2. -/
def ceState : CSPState :=
  [⟨0, generateDomain true false false true, [pR], some pR⟩,
   ⟨1, generateDomain true true false false, [pL, pD], none⟩,
   ⟨2, generateDomain false false true true, [pR, pU], none⟩,
   ⟨3, generateDomain false true true false, [pUL, pU], none⟩]

/-- A solved 2 by 2 state (the spanning tree with edges 0-1, 0-2, 2-3): every
variable assigned, every active domain the singleton of its assignment.  On
this state every pruner is a no-op, so an ac3 call over the full constraint
queue returns it unchanged with an empty log. -/
def solvedState : CSPState :=
  [⟨0, generateDomain true false false true, [pRD], some pRD⟩,
   ⟨1, generateDomain true true false false, [pL], some pL⟩,
   ⟨2, generateDomain false false true true, [pUR], some pUR⟩,
   ⟨3, generateDomain false true true false, [pL], some pL⟩]

/-- The state/log relationship behind the pruner contract of the
specification (sections 3 and 9): starting from state s with an accumulated
removal map m, the pair (s2, m2) keeps survivor order, changes nothing about
a variable except its active domain, and accounts for every removal: new
active domain plus new log equals old active domain plus old log, as
multisets, for every variable. -/
def ExactAcc (s s2 : CSPState) (m m2 : PruneLog) : Prop :=
  (∀ i, List.Sublist (getV s2 i).activeDomain (getV s i).activeDomain) ∧
  (∀ i, ((getV s2 i).activeDomain : Multiset PipeType) + (logGet m2 i : Multiset PipeType)
      = ((getV s i).activeDomain : Multiset PipeType) + (logGet m i : Multiset PipeType)) ∧
  (∀ i, (getV s2 i).domain = (getV s i).domain) ∧
  (∀ i, (getV s2 i).assignment = (getV s i).assignment) ∧
  (∀ i, (getV s2 i).location = (getV s i).location) ∧
  s2.length = s.length ∧
  ((m.map Prod.fst).Nodup → (m2.map Prod.fst).Nodup)

/-- The pruner contract itself: the pruner mutates active domains in place
and returns the exact diff (an accumulation step starting from the empty
map). -/
def PrunerExact (p : Nat → CSPState → Except String (CSPState × PruneLog)) : Prop :=
  ∀ fuel s s' log, p fuel s = .ok (s', log) → ExactAcc s s' [] log

/-- The A within D invariant of the specification (section 3): every active
domain is a sub-multiset of its full domain. -/
def adWithinDomain (s : CSPState) : Prop :=
  ∀ i, ((getV s i).activeDomain : Multiset PipeType) ≤
    ((getV s i).domain : Multiset PipeType)

-- ====================================================================
-- Theorems
-- ====================================================================

theorem specNeighbor_ne_self (n i d : Nat) : specNeighbor n i d ≠ some i := by
  match d with
  | 0 =>
    show (if i / n = 0 then none else some (i - n)) ≠ some i
    split
    · simp
    · rename_i h
      have hn : 0 < n := by
        by_contra hn
        exact h (by simp [Nat.eq_zero_of_not_pos hn, Nat.div_zero])
      have hni : n ≤ i := by
        by_contra hlt
        exact h (Nat.div_eq_of_lt (Nat.lt_of_not_le hlt))
      simp only [ne_eq, Option.some.injEq]
      omega
  | 1 =>
    show (if i % n = n - 1 then none else some (i + 1)) ≠ some i
    split
    · simp
    · simp only [ne_eq, Option.some.injEq]; omega
  | 2 =>
    show (if i / n = n - 1 then none else some (i + n)) ≠ some i
    split
    · simp
    · rename_i h
      have hn : 0 < n := by
        by_contra hn
        exact h (by simp [Nat.eq_zero_of_not_pos hn, Nat.div_zero])
      simp only [ne_eq, Option.some.injEq]
      omega
  | 3 =>
    show (if i % n = 0 then none else some (i - 1)) ≠ some i
    split
    · simp
    · rename_i h
      have hi : i ≠ 0 := fun h0 => h (by simp [h0])
      simp only [ne_eq, Option.some.injEq]
      omega
  | (k + 4) =>
    show (none : Option Nat) ≠ some i
    simp

/-! ### Prune and undo (C2) -/

theorem sublist_erase_of_cons_sublist {α : Type} [DecidableEq α] {a : α}
    {l ad : List α} (h : List.Sublist (a :: l) ad) :
    List.Sublist l (ad.erase a) := by
  induction ad with
  | nil => cases h
  | cons b ad ih =>
    cases h with
    | cons _ h1 =>
      by_cases hba : b = a
      · rw [hba, List.erase_cons_head]
        exact (List.sublist_cons_self a l).trans h1
      · rw [List.erase_cons_tail]
        · exact (ih h1).cons b
        · simp [hba]
    | cons₂ _ h1 =>
      rw [List.erase_cons_head]
      exact h1

theorem eraseList_sublist : ∀ (l ad : List PipeType), List.Sublist (eraseList ad l) ad := by
  intro l
  induction l with
  | nil => intro ad; exact List.Sublist.refl ad
  | cons a l ih =>
    intro ad
    have : eraseList ad (a :: l) = eraseList (ad.erase a) l := rfl
    rw [this]
    exact (ih (ad.erase a)).trans (List.erase_sublist a ad)

theorem eraseList_append_perm : ∀ (l ad : List PipeType), List.Sublist l ad →
    List.Perm (eraseList ad l ++ l) ad := by
  intro l
  induction l with
  | nil => intro ad _; simp [eraseList]
  | cons a l ih =>
    intro ad h
    have ha : a ∈ ad := h.subset (List.mem_cons_self a l)
    have hstep : eraseList ad (a :: l) = eraseList (ad.erase a) l := rfl
    rw [hstep]
    have hperm1 : List.Perm (eraseList (ad.erase a) l ++ a :: l)
        (a :: (eraseList (ad.erase a) l ++ l)) := List.perm_middle
    have hperm2 : List.Perm (eraseList (ad.erase a) l ++ l) (ad.erase a) :=
      ih (ad.erase a) (sublist_erase_of_cons_sublist h)
    exact hperm1.trans ((hperm2.cons a).trans (List.perm_cons_erase ha).symm)

theorem prune_activeDomain (v : Variable) (l : List PipeType) :
    (v.prune l).activeDomain = eraseList v.activeDomain l := rfl

theorem prune_fold_activeDomain (v : Variable) (steps : List (List PipeType)) :
    (steps.foldl Variable.prune v).activeDomain =
      steps.foldl eraseList v.activeDomain := by
  induction steps generalizing v with
  | nil => rfl
  | cons s steps ih => exact ih (v.prune s)

theorem stepsOK_fold : ∀ (steps : List (List PipeType)) (ad : List PipeType),
    StepsOK ad steps →
    List.Sublist (steps.foldl eraseList ad) ad ∧
      List.Perm (steps.foldl eraseList ad ++ steps.flatten) ad := by
  intro steps
  induction steps with
  | nil => intro ad _; simp
  | cons s steps ih =>
    intro ad h
    obtain ⟨hs, hrest⟩ := h
    obtain ⟨ihsub, ihperm⟩ := ih (eraseList ad s) hrest
    constructor
    · exact ihsub.trans (eraseList_sublist s ad)
    · show List.Perm (steps.foldl eraseList (eraseList ad s) ++ (s ++ steps.flatten)) ad
      have p1 : List.Perm
          (steps.foldl eraseList (eraseList ad s) ++ (s ++ steps.flatten))
          (steps.foldl eraseList (eraseList ad s) ++ (steps.flatten ++ s)) :=
        List.Perm.append_left _ List.perm_append_comm
      have p3 : List.Perm
          (steps.foldl eraseList (eraseList ad s) ++ (steps.flatten ++ s))
          (eraseList ad s ++ s) := by
        rw [← List.append_assoc]
        exact ihperm.append_right s
      exact p1.trans (p3.trans (eraseList_append_perm s ad hs))

/-- C2: undoing a pruning log (a sequence of removal lists, each drawn from
the active domain it was removed from, as every pruner builds them) by
appending the logged values, as the search does on backtrack, restores the
active domain exactly: the result is a permutation of the original (same
multiset), and the surviving elements keep their relative order (the pruned
variable is a sublist of the original). -/
theorem C2_prune_undo_restores (v : Variable) (steps : List (List PipeType))
    (h : StepsOK v.activeDomain steps) :
    List.Perm ((steps.foldl Variable.prune v).activeDomain ++ steps.flatten)
        v.activeDomain ∧
      List.Sublist (steps.foldl Variable.prune v).activeDomain v.activeDomain := by
  rw [prune_fold_activeDomain]
  obtain ⟨hsub, hperm⟩ := stepsOK_fold steps v.activeDomain h
  exact ⟨hperm, hsub⟩

/-- Witness for C2 at a concrete variable and two-step log. -/
theorem C2_prune_undo_restores_witness :
    StepsOK (Variable.mk0 0 [pU, pR, pD]).activeDomain [[pR], [pU, pD]] ∧
      (List.Perm
        (([[pR], [pU, pD]].foldl Variable.prune (Variable.mk0 0 [pU, pR, pD])).activeDomain
            ++ [[pR], [pU, pD]].flatten)
        (Variable.mk0 0 [pU, pR, pD]).activeDomain ∧
      List.Sublist
        (([[pR], [pU, pD]].foldl Variable.prune (Variable.mk0 0 [pU, pR, pD])).activeDomain)
        (Variable.mk0 0 [pU, pR, pD]).activeDomain) := by
  refine ⟨?_, C2_prune_undo_restores _ _ ?_⟩ <;>
    · show List.Sublist [pR] [pU, pR, pD] ∧ (List.Sublist [pU, pD] [pU, pD] ∧ True)
      refine ⟨?_, ?_, trivial⟩ <;> decide

/-! ### Error handling of the three invariant violations (C7) -/

/-- Counterexample to C7 as stated: assigning a value outside the domain does
not raise; Variable.assign returns normally with false and leaves the
variable unchanged (the source logs to the console and returns false). -/
theorem C7_counterexample :
    (Variable.mk0 0 [pU]).domain.contains pR = false ∧
      Variable.assign (Variable.mk0 0 [pU]) pR = (false, Variable.mk0 0 [pU]) := by
  constructor <;> rfl

/-- C7 amended: reading a missing assignment and checking violation of a
partially assigned constraint each raise an error, and the two error kinds
are distinct; assigning a value outside the domain does not raise: it
returns false and performs no assignment. -/
theorem C7_fail_fast
    (s : CSPState) (c : Con) (cs : CSPState) (v : Variable) (val : PipeType)
    (hs : s.all (fun w => w.getAssignment.isSome) = false)
    (hc : c.scope.all (fun i => ((getV cs i).getAssignment).isSome) = false)
    (hv : v.domain.contains val = false) :
    cspGetAssignment s =
        .error "Tried to get assignment when some variables are unassigned" ∧
      conViolated c cs =
        .error "Tried to check if a constraint with unassigned variables was violated" ∧
      ("Tried to get assignment when some variables are unassigned" ≠
        "Tried to check if a constraint with unassigned variables was violated") ∧
      Variable.assign v val = (false, v) := by
  refine ⟨?_, ?_, by decide, ?_⟩
  · unfold cspGetAssignment
    rw [hs]
    rfl
  · unfold conViolated
    rw [hc]
    rfl
  · unfold Variable.assign
    rw [hv]
    rfl

/-- Witness for C7 at concrete inputs. -/
theorem C7_fail_fast_witness :
    ([Variable.mk0 0 [pU]].all (fun w => w.getAssignment.isSome) = false) ∧
      ((⟨"w", [0], validatorH, fun _ s => .ok (s, [])⟩ : Con).scope.all
        (fun i => ((getV [Variable.mk0 0 [pU]] i).getAssignment).isSome) = false) ∧
      ((Variable.mk0 0 [pU]).domain.contains pR = false) ∧
      (cspGetAssignment [Variable.mk0 0 [pU]] =
        .error "Tried to get assignment when some variables are unassigned" ∧
      conViolated (⟨"w", [0], validatorH, fun _ s => .ok (s, [])⟩ : Con) [Variable.mk0 0 [pU]] =
        .error "Tried to check if a constraint with unassigned variables was violated" ∧
      ("Tried to get assignment when some variables are unassigned" ≠
        "Tried to check if a constraint with unassigned variables was violated") ∧
      Variable.assign (Variable.mk0 0 [pU]) pR = (false, Variable.mk0 0 [pU])) := by
  refine ⟨by rfl, by rfl, by rfl, C7_fail_fast _ _ _ _ _ (by rfl) (by rfl) (by rfl)⟩

/-! ### The move-picker memo (C10, C8) -/

theorem pickMoveLoop_memo_shape (output sortedOutput : List Int) (fp : List Nat)
    (heap : MemoHeap) (memo : Memo) :
    ∀ (ranks : List Nat) (move : Nat) (heapOut : MemoHeap) (memoOut : Memo),
    pickMoveLoop output sortedOutput fp heap memo ranks = .ok (move, heapOut, memoOut) →
    ∃ rank, rank ∈ ranks ∧
      move = List.indexOf (sortedOutput.getD rank 0) output ∧
      ((∃ ref, List.lookup fp memo = some ref ∧
          (heap.getD ref []).contains rank = false ∧
          memoOut = memo ∧
          heapOut = heap.set ref (heap.getD ref [] ++ [rank])) ∨
       (List.lookup fp memo = none ∧
          memoOut = memo ++ [(fp, heap.length)] ∧
          heapOut = heap ++ [[rank]])) := by
  intro ranks
  induction ranks with
  | nil => intro move heapOut memoOut h; cases h
  | cons i rest ih =>
    intro move heapOut memoOut h
    unfold pickMoveLoop at h
    revert h
    match hlk : List.lookup fp memo with
    | some ref =>
      simp only
      split
      · intro h
        obtain ⟨rank, hmem, hrest⟩ := ih move heapOut memoOut h
        rw [hlk] at hrest
        exact ⟨rank, List.mem_cons_of_mem i hmem, hrest⟩
      · intro h
        rename_i hnc
        cases h
        refine ⟨i, List.mem_cons_self i rest, rfl, Or.inl ⟨ref, rfl, ?_, rfl, rfl⟩⟩
        exact Bool.of_not_eq_true hnc
    | none =>
      intro h
      cases h
      exact ⟨i, List.mem_cons_self i rest, rfl, Or.inr ⟨rfl, rfl, rfl⟩⟩

/-- C10: a successful pickMove records the chosen oracle rank in the memo
entry of the current board fingerprint before returning: if the entry
existed, its array is extended in place (the heap cell shared with the
caller gains the rank at the end, and the returned memo holds exactly the
entries of the input object, sharing those arrays); if not, a fresh
one-element array is allocated and the returned memo adds the new entry. -/
theorem C10_pickMove_memo (oracle : List Nat → List Int)
    (board : List (Option PipeType)) (heap : MemoHeap) (memo : Memo)
    (move : Nat) (heapOut : MemoHeap) (memoOut : Memo)
    (h : pickMove oracle board heap memo = .ok (move, heapOut, memoOut)) :
    ∃ fp rank, encodeBoardState board = .ok fp ∧
      ((∃ ref, List.lookup fp memo = some ref ∧
          (heap.getD ref []).contains rank = false ∧
          memoOut = memo ∧
          heapOut = heap.set ref (heap.getD ref [] ++ [rank])) ∨
       (List.lookup fp memo = none ∧
          memoOut = memo ++ [(fp, heap.length)] ∧
          heapOut = heap ++ [[rank]])) := by
  unfold pickMove at h
  revert h
  match henc : encodeBoardState board with
  | .error e => intro h; cases h
  | .ok fp =>
    intro h
    obtain ⟨rank, _, _, hshape⟩ :=
      pickMoveLoop_memo_shape (oracle fp) (sortDesc (oracle fp)) fp heap memo _ _ _ _ h
    exact ⟨fp, rank, rfl, hshape⟩

/-- Witness for C10 on a concrete board, oracle and empty memo. -/
theorem C10_pickMove_memo_witness :
    pickMove (fun _ => [3, 2, 1, 0]) [some pU] [] [] = .ok (0, [[0]], [([1, 0, 0, 0], 0)]) ∧
      (∃ fp rank, encodeBoardState [some pU] = .ok fp ∧
        ((∃ ref, List.lookup fp ([] : Memo) = some ref ∧
            (([] : MemoHeap).getD ref []).contains rank = false ∧
            [([1, 0, 0, 0], 0)] = ([] : Memo) ∧
            [[0]] = ([] : MemoHeap).set ref (([] : MemoHeap).getD ref [] ++ [rank])) ∨
         (List.lookup fp ([] : Memo) = none ∧
            [([1, 0, 0, 0], 0)] = ([] : Memo) ++ [(fp, ([] : MemoHeap).length)] ∧
            [[0]] = ([] : MemoHeap) ++ [[rank]]))) := by
  have h : pickMove (fun _ => [3, 2, 1, 0]) [some pU] [] [] =
      .ok (0, [[0]], [([1, 0, 0, 0], 0)]) := by rfl
  exact ⟨h, C10_pickMove_memo _ _ _ _ _ _ _ h⟩

/-- Counterexample to C8 as stated: with a constant-score oracle (a
deterministic oracle), two successive pickMove calls on the same board, the
second fed the memo of the first, both return move index 0. -/
theorem C8_counterexample :
    pickMove (fun _ => [5, 5, 5, 5]) [some pU] [] [] =
        .ok (0, [[0]], [([1, 0, 0, 0], 0)]) ∧
      pickMove (fun _ => [5, 5, 5, 5]) [some pU] [[0]] [([1, 0, 0, 0], 0)] =
        .ok (0, [[0, 1]], [([1, 0, 0, 0], 0)]) := by
  constructor <;> rfl

theorem lookup_mem {α β : Type} [BEq α] [LawfulBEq α] {l : List (α × β)} {a : α} {b : β}
    (h : List.lookup a l = some b) : (a, b) ∈ l := by
  induction l with
  | nil => cases h
  | cons e rest ih =>
    rw [List.lookup] at h
    revert h
    split
    · intro h
      cases h
      rename_i heq
      have ha : a = e.1 := eq_of_beq heq
      rw [ha, Prod.mk.eta]
      exact List.mem_cons_self e rest
    · intro h
      exact List.mem_cons_of_mem e (ih h)

theorem lookup_append_none {α β : Type} [BEq α] [LawfulBEq α] (l : List (α × β)) (a : α)
    (b : β) (h : List.lookup a l = none) : List.lookup a (l ++ [(a, b)]) = some b := by
  induction l with
  | nil => simp [List.lookup]
  | cons e rest ih =>
    rw [List.lookup] at h
    revert h
    split
    · intro h; cases h
    · intro h
      rename_i hne
      show List.lookup a (e :: (rest ++ [(a, b)])) = some b
      rw [List.lookup, hne]
      exact ih h

theorem insertDesc_perm (a : Int) : ∀ l : List Int, List.Perm (insertDesc a l) (a :: l) := by
  intro l
  induction l with
  | nil => exact List.Perm.refl _
  | cons b l ih =>
    rw [insertDesc]
    split
    · exact List.Perm.refl _
    · exact (ih.cons b).trans (List.Perm.swap a b l)

theorem sortDesc_perm (l : List Int) : List.Perm (sortDesc l) l := by
  have key : ∀ (l acc : List Int),
      List.Perm (l.foldl (fun acc a => insertDesc a acc) acc) (acc ++ l) := by
    intro l
    induction l with
    | nil => intro acc; simp
    | cons a l ih =>
      intro acc
      have h1 := ih (insertDesc a acc)
      have h2 : List.Perm (insertDesc a acc ++ l) (acc ++ a :: l) :=
        ((insertDesc_perm a acc).append_right l).trans List.perm_middle.symm
      exact h1.trans h2
  simpa using key l []

theorem sortDesc_index_inj (output : List Int) (hnd : output.Nodup) (i j : Nat)
    (hi : i < (sortDesc output).length) (hj : j < (sortDesc output).length)
    (hne : i ≠ j) :
    List.indexOf ((sortDesc output).getD i 0) output ≠
      List.indexOf ((sortDesc output).getD j 0) output := by
  have hperm := sortDesc_perm output
  have hnds : (sortDesc output).Nodup := hperm.symm.nodup hnd
  have hgi : (sortDesc output).getD i 0 = (sortDesc output).get ⟨i, hi⟩ := by
    simp [List.getD_eq_getElem?_getD, List.getElem?_eq_getElem hi]
  have hgj : (sortDesc output).getD j 0 = (sortDesc output).get ⟨j, hj⟩ := by
    simp [List.getD_eq_getElem?_getD, List.getElem?_eq_getElem hj]
  have hxy : (sortDesc output).getD i 0 ≠ (sortDesc output).getD j 0 := by
    rw [hgi, hgj]
    intro heq
    exact hne (Fin.mk.injEq _ _ _ _ ▸ ((List.Nodup.get_inj_iff hnds).mp heq))
  intro hidx
  have hmi : (sortDesc output).getD i 0 ∈ output :=
    hperm.mem_iff.mp (hgi ▸ List.get_mem _ _ hi)
  have hmj : (sortDesc output).getD j 0 ∈ output :=
    hperm.mem_iff.mp (hgj ▸ List.get_mem _ _ hj)
  have h1 := List.indexOf_get (List.indexOf_lt_length.mpr hmi)
  have h2 := List.indexOf_get (List.indexOf_lt_length.mpr hmj)
  apply hxy
  rw [← h1, ← h2]
  congr 1
  exact Fin.ext hidx

/-- C8 amended: when the deterministic oracle gives pairwise distinct scores
(and the memo references are well formed), two successful pickMove calls on
the same unchanged board, the second receiving the memo and heap returned by
the first, return different move indices.  With tied scores the claim as
stated fails (see the counterexample): the source maps distinct ranks through
indexOf, which collapses equal scores to the same move. -/
theorem C8_pickMove_two_calls_differ (oracle : List Nat → List Int)
    (board : List (Option PipeType)) (heap0 : MemoHeap) (memo0 : Memo)
    (m1 m2 : Nat) (heap1 heap2 : MemoHeap) (memo1 memo2 : Memo)
    (hwf : ∀ e ∈ memo0, e.2 < heap0.length)
    (hnodup : ∀ x, (oracle x).Nodup)
    (h1 : pickMove oracle board heap0 memo0 = .ok (m1, heap1, memo1))
    (h2 : pickMove oracle board heap1 memo1 = .ok (m2, heap2, memo2)) :
    m1 ≠ m2 := by
  unfold pickMove at h1 h2
  revert h1 h2
  match henc : encodeBoardState board with
  | .error e => intro h1 _; cases h1
  | .ok fp =>
    intro h1 h2
    obtain ⟨r1, hr1mem, hm1, hshape1⟩ :=
      pickMoveLoop_memo_shape (oracle fp) (sortDesc (oracle fp)) fp heap0 memo0 _ _ _ _ h1
    obtain ⟨r2, hr2mem, hm2, hshape2⟩ :=
      pickMoveLoop_memo_shape (oracle fp) (sortDesc (oracle fp)) fp heap1 memo1 _ _ _ _ h2
    -- after the first call the fingerprint entry exists and its tried list
    -- holds r1
    have hentry : ∃ ref1, List.lookup fp memo1 = some ref1 ∧
        r1 ∈ heap1.getD ref1 [] := by
      rcases hshape1 with ⟨ref, hlk, _, hmemo, hheap⟩ | ⟨hlk, hmemo, hheap⟩
      · refine ⟨ref, by rw [hmemo]; exact hlk, ?_⟩
        have href : ref < heap0.length := hwf _ (lookup_mem hlk)
        rw [hheap]
        have : (heap0.set ref (heap0.getD ref [] ++ [r1])).getD ref [] =
            heap0.getD ref [] ++ [r1] := by
          simp [List.getD, List.getElem?_set_self', href]
        rw [this]
        exact List.mem_append_right _ (List.mem_singleton.mpr rfl)
      · refine ⟨heap0.length, ?_, ?_⟩
        · rw [hmemo]; exact lookup_append_none memo0 fp heap0.length hlk
        · rw [hheap]
          have : (heap0 ++ [[r1]]).getD heap0.length [] = [r1] := by
            simp [List.getD]
          rw [this]
          exact List.mem_singleton.mpr rfl
    obtain ⟨ref1, hlk1, hr1tried⟩ := hentry
    -- the second call therefore takes the existing-entry branch with the
    -- same reference, and its chosen rank is not in the tried list
    have hr2ne : r2 ≠ r1 := by
      rcases hshape2 with ⟨ref, hlk, hnc, _, _⟩ | ⟨hlk, _, _⟩
      · rw [hlk1] at hlk
        cases hlk
        intro heq
        rw [heq] at hnc
        have ht : (List.getD heap1 ref1 []).contains r1 = true :=
          List.elem_eq_true_of_mem hr1tried
        rw [ht] at hnc
        cases hnc
      · rw [hlk1] at hlk
        cases hlk
    -- distinct ranks give distinct moves because the scores are distinct
    rw [hm1, hm2]
    have hlen := (sortDesc_perm (oracle fp)).length_eq
    exact fun hmm =>
      sortDesc_index_inj (oracle fp) (hnodup fp) r1 r2
        (List.mem_range.mp hr1mem) (List.mem_range.mp hr2mem)
        (fun hh => hr2ne hh.symm) hmm

/-- Witness for the amended C8: distinct scores, two calls, distinct moves. -/
theorem C8_pickMove_two_calls_differ_witness :
    (∀ e ∈ ([] : Memo), e.2 < ([] : MemoHeap).length) ∧
      (∀ x, ((fun _ : List Nat => [(3 : Int), 2, 1, 0]) x).Nodup) ∧
      pickMove (fun _ => [3, 2, 1, 0]) [some pU] [] [] =
        .ok (0, [[0]], [([1, 0, 0, 0], 0)]) ∧
      pickMove (fun _ => [3, 2, 1, 0]) [some pU] [[0]] [([1, 0, 0, 0], 0)] =
        .ok (1, [[0, 1]], [([1, 0, 0, 0], 0)]) ∧
      (0 : Nat) ≠ 1 := by
  refine ⟨by simp, ?_, by rfl, by rfl, ?_⟩
  · intro x
    show ([(3 : Int), 2, 1, 0]).Nodup
    decide
  · exact C8_pickMove_two_calls_differ (fun _ => [3, 2, 1, 0]) [some pU] [] []
      0 1 [[0]] [[0, 1]] [([1, 0, 0, 0], 0)] [([1, 0, 0, 0], 0)]
      (by simp)
      (fun x => by show ([(3 : Int), 2, 1, 0]).Nodup; decide)
      (by rfl) (by rfl)


/-! ### The removal-map toolbox -/

theorem lookup_cons_pair (i k : Nat) (val : List PipeType)
    (rest : List (Nat × List PipeType)) :
    List.lookup i ((k, val) :: rest) = if i = k then some val else List.lookup i rest := by
  by_cases hik : i = k
  · rw [List.lookup, beq_iff_eq.mpr hik, if_pos hik]
  · rw [List.lookup, (by simp [hik] : (i == k) = false), if_neg hik]

theorem lookup_map_upd (v : Nat) (rem : List PipeType) :
    ∀ (m : PruneLog) (i : Nat),
    List.lookup i (List.map (fun e => if e.1 = v then (e.1, e.2 ++ rem) else e) m) =
      if i = v then (List.lookup i m).map (fun val => val ++ rem)
      else List.lookup i m := by
  intro m
  induction m with
  | nil =>
    intro i
    by_cases hiv : i = v <;> simp [hiv, List.lookup]
  | cons e rest ih =>
    intro i
    obtain ⟨k, val⟩ := e
    rw [List.map_cons]
    have hhead : (if (k, val).1 = v then ((k, val).1, (k, val).2 ++ rem) else (k, val)) =
        if k = v then (k, val ++ rem) else (k, val) := by
      by_cases hkv : k = v <;> simp [hkv]
    rw [hhead]
    by_cases hkv : k = v
    · rw [if_pos hkv, lookup_cons_pair, lookup_cons_pair]
      by_cases hik : i = k
      · rw [if_pos hik, if_pos (hik.trans hkv), if_pos hik]
        rfl
      · rw [if_neg hik, if_neg hik, ih i]
    · rw [if_neg hkv, lookup_cons_pair, lookup_cons_pair]
      by_cases hik : i = k
      · have hiv : ¬ i = v := fun hiv => hkv (hik.symm.trans hiv)
        rw [if_pos hik, if_neg hiv, if_pos hik]
      · rw [if_neg hik, if_neg hik, ih i]

theorem lookup_append_one (m : PruneLog) (v : Nat) (rem : List PipeType) (i : Nat) :
    List.lookup i (m ++ [(v, rem)]) =
      if (List.lookup i m).isSome then List.lookup i m
      else if i = v then some rem else none := by
  induction m with
  | nil =>
    show List.lookup i [(v, rem)] = if i = v then some rem else none
    rw [lookup_cons_pair]
    split <;> rfl
  | cons e rest ih =>
    obtain ⟨k, val⟩ := e
    show List.lookup i ((k, val) :: (rest ++ [(v, rem)])) = _
    rw [lookup_cons_pair, lookup_cons_pair]
    by_cases hik : i = k
    · rw [if_pos hik, if_pos hik]
      rfl
    · rw [if_neg hik, if_neg hik]
      exact ih

theorem logAppend_get (m : PruneLog) (v : Nat) (rem : List PipeType) (i : Nat) :
    logGet (logAppend m v rem) i =
      if i = v then logGet m i ++ rem else logGet m i := by
  unfold logAppend
  cases hlk : (List.lookup v m) with
  | some val =>
    rw [if_pos (by rfl)]
    unfold logGet
    rw [lookup_map_upd v rem m i]
    by_cases hiv : i = v
    · rw [if_pos hiv, if_pos hiv, hiv, hlk]
      rfl
    · rw [if_neg hiv, if_neg hiv]
  | none =>
    rw [if_neg (by simp)]
    unfold logGet
    rw [lookup_append_one m v rem i]
    by_cases hiv : i = v
    · rw [if_pos hiv, if_pos hiv, hiv, hlk]
      cases hlk2 : List.lookup v m with
      | some w => rw [hlk] at hlk2; cases hlk2
      | none => simp
    · rw [if_neg hiv, if_neg hiv]
      split
      · rfl
      · rename_i hnone
        rw [Option.not_isSome_iff_eq_none.mp hnone]

theorem logPush1_get (m : PruneLog) (v : Nat) (p : PipeType) (i : Nat) :
    logGet (logPush1 m v p) i =
      if i = v then logGet m i ++ [p] else logGet m i := by
  unfold logPush1
  cases hlk : (List.lookup v m) with
  | some val =>
    rw [if_pos (by rfl)]
    unfold logGet
    rw [lookup_map_upd v [p] m i]
    by_cases hiv : i = v
    · rw [if_pos hiv, if_pos hiv, hiv, hlk]
      rfl
    · rw [if_neg hiv, if_neg hiv]
  | none =>
    rw [if_neg (by simp)]
    unfold logGet
    rw [lookup_append_one m v [p] i]
    by_cases hiv : i = v
    · rw [if_pos hiv, if_pos hiv, hiv, hlk]
      simp
    · rw [if_neg hiv, if_neg hiv]
      split
      · rfl
      · rename_i hnone
        rw [Option.not_isSome_iff_eq_none.mp hnone]

theorem lookup_none_iff_keys (m : PruneLog) (v : Nat) :
    List.lookup v m = none ↔ v ∉ m.map Prod.fst := by
  induction m with
  | nil => simp [List.lookup]
  | cons e rest ih =>
    obtain ⟨k, val⟩ := e
    rw [lookup_cons_pair]
    by_cases hvk : v = k
    · simp [hvk]
    · simp [hvk, ih]

theorem keys_map_upd (v : Nat) (rem : List PipeType) (m : PruneLog) :
    (List.map (fun e => if e.1 = v then (e.1, e.2 ++ rem) else e) m).map Prod.fst =
      m.map Prod.fst := by
  induction m with
  | nil => rfl
  | cons e rest ih =>
    obtain ⟨k, val⟩ := e
    by_cases hkv : k = v <;> simp [hkv, ih]

theorem keys_logPush1 (m : PruneLog) (v : Nat) (p : PipeType)
    (h : (m.map Prod.fst).Nodup) : ((logPush1 m v p).map Prod.fst).Nodup := by
  unfold logPush1
  split
  · rw [keys_map_upd]
    exact h
  · rename_i hlk
    have hnone : List.lookup v m = none := Option.not_isSome_iff_eq_none.mp hlk
    have hnotin : v ∉ m.map Prod.fst := (lookup_none_iff_keys m v).mp hnone
    rw [List.map_append]
    refine List.Nodup.append h (List.nodup_singleton v) ?_
    intro a ha hav
    rw [List.map_cons, List.map_nil, List.mem_singleton] at hav
    subst hav
    exact hnotin ha

/-! ### State access -/

theorem setV_length (s : CSPState) (i : Nat) (v : Variable) :
    (setV s i v).length = s.length := List.length_set s i v

theorem getV_setV_self (s : CSPState) (i : Nat) (v : Variable) (h : i < s.length) :
    getV (setV s i v) i = v := by
  simp [getV, setV, List.getD, List.getElem?_set_self h]

theorem getV_setV_other (s : CSPState) (i j : Nat) (v : Variable) (h : i ≠ j) :
    getV (setV s i v) j = getV s j := by
  simp [getV, setV, List.getD, List.getElem?_set_ne h]

theorem getV_out_of_range (s : CSPState) (i : Nat) (h : s.length ≤ i) :
    getV s i = default := by
  simp [getV, List.getD, List.getElem?_eq_none h]

theorem prune_meta (v : Variable) (l : List PipeType) :
    (v.prune l).domain = v.domain ∧ (v.prune l).assignment = v.assignment ∧
      (v.prune l).location = v.location := ⟨rfl, rfl, rfl⟩

theorem set_getV_self (s : CSPState) (i : Nat) : setV s i (getV s i) = s := by
  unfold setV
  by_cases h : i < s.length
  · apply List.ext_getElem?
    intro j
    by_cases hji : i = j
    · subst hji
      rw [List.getElem?_set_self h, List.getElem?_eq_getElem h]
      show some (getV s i) = some s[i]
      congr 1
      simp [getV, List.getD, List.getElem?_eq_getElem h]
    · rw [List.getElem?_set_ne hji]
  · exact List.set_eq_of_length_le (Nat.le_of_not_lt h)

theorem pruneAt_nil (s : CSPState) (i : Nat) : pruneAt s i [] = s := by
  unfold pruneAt
  have hv : (getV s i).prune [] = getV s i := rfl
  rw [hv, set_getV_self]

/-! ### Pruner exactness -/

theorem logGet_nil (i : Nat) : logGet ([] : PruneLog) i = [] := rfl

theorem logGet_single_self (key : Nat) (val : List PipeType) :
    logGet [(key, val)] key = val := by
  unfold logGet
  rw [lookup_cons_pair, if_pos rfl]
  rfl

theorem logGet_single_other (key i : Nat) (val : List PipeType) (h : i ≠ key) :
    logGet [(key, val)] i = [] := by
  unfold logGet
  rw [lookup_cons_pair, if_neg h]
  rfl

theorem exactAcc_refl (s : CSPState) (m : PruneLog) : ExactAcc s s m m := by
  refine ⟨fun i => List.Sublist.refl _, fun i => rfl, fun i => rfl, fun i => rfl,
    fun i => rfl, rfl, id⟩

theorem exactAcc_trans {s s1 s2 : CSPState} {m m1 m2 : PruneLog}
    (h1 : ExactAcc s s1 m m1) (h2 : ExactAcc s1 s2 m1 m2) : ExactAcc s s2 m m2 := by
  obtain ⟨a1, b1, c1, d1, e1, f1, g1⟩ := h1
  obtain ⟨a2, b2, c2, d2, e2, f2, g2⟩ := h2
  exact ⟨fun i => (a2 i).trans (a1 i), fun i => (b2 i).trans (b1 i),
    fun i => (c2 i).trans (c1 i), fun i => (d2 i).trans (d1 i),
    fun i => (e2 i).trans (e1 i), f2.trans f1, fun h => g2 (g1 h)⟩

theorem foldl_logPush1_from_single (key : Nat) (cond : PipeType → Bool) :
    ∀ (ad : List PipeType) (acc : List PipeType),
    ad.foldl (fun m p => if cond p then logPush1 m key p else m) [(key, acc)] =
      [(key, acc ++ ad.filter cond)] := by
  intro ad
  induction ad with
  | nil => intro acc; simp
  | cons p ad ih =>
    intro acc
    by_cases hc : cond p
    · have hstep : logPush1 [(key, acc)] key p = [(key, acc ++ [p])] := by
        unfold logPush1
        rw [if_pos]
        · simp
        · rw [lookup_cons_pair, if_pos rfl]
          rfl
      show List.foldl _ (if cond p then logPush1 [(key, acc)] key p else [(key, acc)]) ad = _
      rw [if_pos hc, hstep, ih (acc ++ [p])]
      simp [List.filter_cons, hc]
    · show List.foldl _ (if cond p then logPush1 [(key, acc)] key p else [(key, acc)]) ad = _
      rw [if_neg hc, ih acc]
      simp [List.filter_cons, hc]

theorem foldl_logPush1_entries (key : Nat) (cond : PipeType → Bool) (ad : List PipeType) :
    ad.foldl (fun m p => if cond p then logPush1 m key p else m) [] =
      if ad.filter cond = [] then [] else [(key, ad.filter cond)] := by
  induction ad with
  | nil => simp
  | cons p ad ih =>
    by_cases hc : cond p
    · have hstep : logPush1 [] key p = [(key, [p])] := by
        unfold logPush1
        rw [if_neg]
        · rfl
        · show ¬(List.lookup key ([] : PruneLog)).isSome = true
          simp [List.lookup]
      show List.foldl _ (if cond p then logPush1 [] key p else []) ad = _
      rw [if_pos hc, hstep, foldl_logPush1_from_single key cond ad [p]]
      have : (p :: ad).filter cond = p :: ad.filter cond := by
        simp [List.filter_cons, hc]
      rw [this]
      simp
    · show List.foldl _ (if cond p then logPush1 [] key p else []) ad = _
      rw [if_neg hc, ih]
      have : (p :: ad).filter cond = ad.filter cond := by
        simp [List.filter_cons, hc]
      rw [this]

theorem activeDomain_nonempty_lt_length {s : CSPState} {key : Nat}
    (h : (getV s key).activeDomain ≠ []) : key < s.length := by
  by_contra hk
  rw [getV_out_of_range s key (Nat.le_of_not_lt hk)] at h
  exact h rfl

theorem singlePrune_exact (s : CSPState) (key : Nat) (cond : PipeType → Bool) :
    ExactAcc s
      (((getV s key).getActiveDomain.foldl
          (fun m p => if cond p then logPush1 m key p else m) []).foldl
        (fun st e => pruneAt st e.1 e.2) s)
      []
      ((getV s key).getActiveDomain.foldl
        (fun m p => if cond p then logPush1 m key p else m) []) := by
  rw [foldl_logPush1_entries key cond]
  by_cases hF : (getV s key).getActiveDomain.filter cond = []
  · rw [if_pos hF]
    exact exactAcc_refl s []
  · rw [if_neg hF]
    show ExactAcc s (pruneAt s key ((getV s key).getActiveDomain.filter cond)) [] _
    have hkey : key < s.length := by
      apply @activeDomain_nonempty_lt_length _ key
      intro had
      apply hF
      show ((getV s key).activeDomain).filter cond = []
      rw [had]
      rfl
    have hgv : getV (pruneAt s key ((getV s key).getActiveDomain.filter cond)) key =
        (getV s key).prune ((getV s key).getActiveDomain.filter cond) :=
      getV_setV_self s key _ hkey
    have hother : ∀ i, i ≠ key →
        getV (pruneAt s key ((getV s key).getActiveDomain.filter cond)) i = getV s i :=
      fun i hi => getV_setV_other s key i _ (fun h => hi h.symm)
    have hsubF : List.Sublist ((getV s key).getActiveDomain.filter cond)
        (getV s key).activeDomain := List.filter_sublist _
    refine ⟨?_, ?_, ?_, ?_, ?_, setV_length s key _, ?_⟩
    · intro i
      by_cases hik : i = key
      · subst hik
        rw [hgv, prune_activeDomain]
        exact eraseList_sublist _ _
      · rw [hother i hik]
    · intro i
      by_cases hik : i = key
      · subst hik
        rw [hgv, prune_activeDomain, logGet_single_self, logGet_nil]
        have hperm : List.Perm
            (eraseList (getV s i).activeDomain ((getV s i).getActiveDomain.filter cond)
              ++ (getV s i).getActiveDomain.filter cond) (getV s i).activeDomain := by
          exact eraseList_append_perm _ _ hsubF
        have := Multiset.coe_eq_coe.mpr hperm
        rw [show ((getV s i).activeDomain : Multiset PipeType) + (([] : List PipeType) : Multiset PipeType)
            = ((getV s i).activeDomain : Multiset PipeType) from by simp]
        exact this
      · rw [hother i hik, logGet_single_other key i _ hik, logGet_nil]
    · intro i
      by_cases hik : i = key
      · subst hik; rw [hgv]; rfl
      · rw [hother i hik]
    · intro i
      by_cases hik : i = key
      · subst hik; rw [hgv]; rfl
      · rw [hother i hik]
    · intro i
      by_cases hik : i = key
      · subst hik; rw [hgv]; rfl
      · rw [hother i hik]
    · intro _
      simp

theorem prunerH_exact (l r : Nat) : PrunerExact (fun _ s => .ok (prunerH l r s)) := by
  intro fuel s s' log h
  simp only [Except.ok.injEq] at h
  cases hla : (getV s l).getAssignment with
  | some la =>
    cases hlb : (getV s r).getAssignment with
    | none =>
      simp only [prunerH, hla, hlb, Prod.mk.injEq] at h
      rw [← h.1, ← h.2]
      exact singlePrune_exact s r (fun pipeType => la.get 1 != pipeType.get 3)
    | some rb =>
      simp only [prunerH, hla, hlb, Prod.mk.injEq] at h
      rw [← h.1, ← h.2]
      exact exactAcc_refl s []
  | none =>
    cases hlb : (getV s r).getAssignment with
    | some rb =>
      simp only [prunerH, hla, hlb, Prod.mk.injEq] at h
      rw [← h.1, ← h.2]
      exact singlePrune_exact s l (fun pipeType => rb.get 3 != pipeType.get 1)
    | none =>
      simp only [prunerH, hla, hlb, Prod.mk.injEq] at h
      rw [← h.1, ← h.2]
      exact exactAcc_refl s []

theorem prunerV_exact (t b : Nat) : PrunerExact (fun _ s => .ok (prunerV t b s)) := by
  intro fuel s s' log h
  simp only [Except.ok.injEq] at h
  cases hla : (getV s t).getAssignment with
  | some ta =>
    cases hlb : (getV s b).getAssignment with
    | none =>
      simp only [prunerV, hla, hlb, Prod.mk.injEq] at h
      rw [← h.1, ← h.2]
      exact singlePrune_exact s b (fun pipeType => ta.get 2 != pipeType.get 0)
    | some ba =>
      simp only [prunerV, hla, hlb, Prod.mk.injEq] at h
      rw [← h.1, ← h.2]
      exact exactAcc_refl s []
  | none =>
    cases hlb : (getV s b).getAssignment with
    | some ba =>
      simp only [prunerV, hla, hlb, Prod.mk.injEq] at h
      rw [← h.1, ← h.2]
      exact singlePrune_exact s t (fun pipeType => ba.get 0 != pipeType.get 2)
    | none =>
      simp only [prunerV, hla, hlb, Prod.mk.injEq] at h
      rw [← h.1, ← h.2]
      exact exactAcc_refl s []

theorem prunePair_exact (s : CSPState) (key : Nat) (pv : List PipeType)
    (hsub : List.Sublist pv (getV s key).activeDomain) :
    ExactAcc s (pruneAt s key pv) [] [(key, pv)] := by
  by_cases hpv : pv = []
  · subst hpv
    rw [pruneAt_nil]
    refine ⟨fun i => List.Sublist.refl _, ?_, fun i => rfl, fun i => rfl, fun i => rfl,
      rfl, fun _ => by simp⟩
    intro i
    by_cases hik : i = key
    · subst hik; rw [logGet_single_self, logGet_nil]
    · rw [logGet_single_other key i _ hik, logGet_nil]
  · have hkey : key < s.length := by
      apply @activeDomain_nonempty_lt_length _ key
      intro had
      rw [had] at hsub
      exact hpv (List.sublist_nil.mp hsub)
    have hgv : getV (pruneAt s key pv) key = (getV s key).prune pv :=
      getV_setV_self s key _ hkey
    have hother : ∀ i, i ≠ key → getV (pruneAt s key pv) i = getV s i :=
      fun i hi => getV_setV_other s key i _ (fun h => hi h.symm)
    refine ⟨?_, ?_, ?_, ?_, ?_, setV_length s key _, fun _ => by simp⟩
    · intro i
      by_cases hik : i = key
      · subst hik
        rw [hgv, prune_activeDomain]
        exact eraseList_sublist _ _
      · rw [hother i hik]
    · intro i
      by_cases hik : i = key
      · subst hik
        rw [hgv, prune_activeDomain, logGet_single_self, logGet_nil]
        have hperm : List.Perm (eraseList (getV s i).activeDomain pv ++ pv)
            (getV s i).activeDomain := eraseList_append_perm _ _ hsub
        have := Multiset.coe_eq_coe.mpr hperm
        rw [show ((getV s i).activeDomain : Multiset PipeType) +
            (([] : List PipeType) : Multiset PipeType)
            = ((getV s i).activeDomain : Multiset PipeType) from by simp]
        exact this
      · rw [hother i hik, logGet_single_other key i _ hik, logGet_nil]
    · intro i
      by_cases hik : i = key
      · subst hik; rw [hgv]; rfl
      · rw [hother i hik]
    · intro i
      by_cases hik : i = key
      · subst hik; rw [hgv]; rfl
      · rw [hother i hik]
    · intro i
      by_cases hik : i = key
      · subst hik; rw [hgv]; rfl
      · rw [hother i hik]

theorem noCyclesPrunePlan_sublist (s : CSPState) (n : Nat) (dup : Nat × Nat × Nat)
    (varIdx : Nat) (pv : List PipeType)
    (h : noCyclesPrunePlan s n dup = some (varIdx, pv)) :
    List.Sublist pv (getV s varIdx).activeDomain := by
  cases hfi : s.findIdx? (fun v => v.location == dup.1) with
  | none => simp [noCyclesPrunePlan, hfi] at h
  | some vi =>
    simp only [noCyclesPrunePlan, hfi, Option.some.injEq, Prod.mk.injEq] at h
    obtain ⟨hv, hp⟩ := h
    subst hv
    rw [← hp]
    cases htd : ([0, 1, 2, 3].foldl
        (fun acc i =>
          [dup.2.1, dup.2.2].foldl
            (fun acc2 touchValue =>
              if (findAdj (Int.ofNat dup.1) (Int.ofNat n)).get i == Int.ofNat touchValue
              then acc2 ++ [i] else acc2)
            acc) []) with
    | nil => exact List.nil_sublist _
    | cons t0 rest =>
      cases rest with
      | nil => exact List.nil_sublist _
      | cons t1 r => exact List.filter_sublist _

theorem noCyclesScan_exact (fuel : Nat) (assignment : List (Option PipeType)) (n : Nat) :
    ∀ (idxs visited : List Nat) (s s' : CSPState) (log : PruneLog),
    noCyclesScan fuel assignment n idxs visited s = .ok (s', log) →
    ExactAcc s s' [] log := by
  intro idxs
  induction idxs with
  | nil =>
    intro visited s s' log h
    simp only [noCyclesScan, Except.ok.injEq, Prod.mk.injEq] at h
    rw [← h.1, ← h.2]
    exact exactAcc_refl s []
  | cons assignmentIndex rest ih =>
    intro visited s s' log h
    rw [noCyclesScan] at h
    cases hga : assignment.getD assignmentIndex none with
    | none =>
      simp only [hga] at h
      exact ih _ _ _ _ h
    | some p =>
      simp only [hga] at h
      by_cases hv : visited.contains assignmentIndex = true
      · rw [if_pos hv] at h
        exact ih _ _ _ _ h
      · rw [if_neg hv] at h
        cases hg : gdtF fuel assignment assignmentIndex visited [] none with
        | error e =>
          rw [hg] at h
          cases h
        | ok t =>
          obtain ⟨od, vis2, tch⟩ := t
          cases od with
          | none =>
            simp only [hg] at h
            exact ih _ _ _ _ h
          | some dup =>
            simp only [hg] at h
            cases hplan : noCyclesPrunePlan s n dup with
            | none =>
              simp only [hplan] at h
              exact ih _ _ _ _ h
            | some pr =>
              obtain ⟨varIdx, prunedValues⟩ := pr
              simp only [hplan, Except.ok.injEq, Prod.mk.injEq] at h
              rw [← h.1, ← h.2]
              exact prunePair_exact s varIdx prunedValues
                (noCyclesPrunePlan_sublist s n dup varIdx prunedValues hplan)

theorem noCyclesPruner_exact : PrunerExact noCyclesPruner := by
  intro fuel s s' log h
  unfold noCyclesPruner at h
  exact noCyclesScan_exact fuel _ _ _ _ _ _ _ h

theorem foldl_logPush1_get_all (i : Nat) :
    ∀ (l : List PipeType) (m0 : PruneLog) (j : Nat),
    logGet (l.foldl (fun m p => logPush1 m i p) m0) j =
      if j = i then logGet m0 j ++ l else logGet m0 j := by
  intro l
  induction l with
  | nil => intro m0 j; split <;> simp
  | cons p l ihl =>
    intro m0 j
    show logGet (l.foldl (fun m p => logPush1 m i p) (logPush1 m0 i p)) j = _
    rw [ihl (logPush1 m0 i p) j]
    by_cases hj : j = i
    · rw [if_pos hj, if_pos hj, logPush1_get, if_pos hj]
      simp
    · rw [if_neg hj, if_neg hj, logPush1_get, if_neg hj]

theorem foldl_logPush1_keys_all (i : Nat) :
    ∀ (l : List PipeType) (m0 : PruneLog), (m0.map Prod.fst).Nodup →
    ((l.foldl (fun m p => logPush1 m i p) m0).map Prod.fst).Nodup := by
  intro l
  induction l with
  | nil => intro m0 h; exact h
  | cons p l ihl =>
    intro m0 h
    exact ihl (logPush1 m0 i p) (keys_logPush1 m0 i p h)

theorem fip_fold_spec (i : Nat) (cond : PipeType → Bool) :
    ∀ (ad : List PipeType) (t0 : List PipeType) (m0 : PruneLog),
    ad.foldl (fun (acc : List PipeType × PruneLog) p =>
        if cond p then (acc.1 ++ [p], logPush1 acc.2 i p) else acc) (t0, m0) =
      (t0 ++ ad.filter cond,
       (ad.filter cond).foldl (fun m p => logPush1 m i p) m0) := by
  intro ad
  induction ad with
  | nil => intro t0 m0; simp
  | cons p ad ihad =>
    intro t0 m0
    by_cases hc : cond p
    · show List.foldl _ (if cond p then (t0 ++ [p], logPush1 m0 i p) else (t0, m0)) ad = _
      rw [if_pos hc, ihad (t0 ++ [p]) (logPush1 m0 i p)]
      have hf : (p :: ad).filter cond = p :: ad.filter cond := by
        simp [List.filter_cons, hc]
      rw [hf]
      simp
    · show List.foldl _ (if cond p then (t0 ++ [p], logPush1 m0 i p) else (t0, m0)) ad = _
      rw [if_neg hc, ihad t0 m0]
      have hf : (p :: ad).filter cond = ad.filter cond := by
        simp [List.filter_cons, hc]
      rw [hf]

theorem pruneStep_exactAcc (s : CSPState) (i : Nat) (cond : PipeType → Bool)
    (m0 : PruneLog) :
    ExactAcc s (pruneAt s i ((getV s i).activeDomain.filter cond)) m0
      (((getV s i).activeDomain.filter cond).foldl (fun m p => logPush1 m i p) m0) := by
  by_cases hF : (getV s i).activeDomain.filter cond = []
  · rw [hF, pruneAt_nil]
    exact exactAcc_refl s m0
  · have hkey : i < s.length := by
      apply @activeDomain_nonempty_lt_length _ i
      intro had
      rw [had] at hF
      exact hF rfl
    have hgv : getV (pruneAt s i ((getV s i).activeDomain.filter cond)) i =
        (getV s i).prune ((getV s i).activeDomain.filter cond) :=
      getV_setV_self s i _ hkey
    have hother : ∀ j, j ≠ i →
        getV (pruneAt s i ((getV s i).activeDomain.filter cond)) j = getV s j :=
      fun j hj => getV_setV_other s i j _ (fun h => hj h.symm)
    have hsubF : List.Sublist ((getV s i).activeDomain.filter cond)
        (getV s i).activeDomain := List.filter_sublist _
    refine ⟨?_, ?_, ?_, ?_, ?_, setV_length s i _, ?_⟩
    · intro j
      by_cases hj : j = i
      · subst hj
        rw [hgv, prune_activeDomain]
        exact eraseList_sublist _ _
      · rw [hother j hj]
    · intro j
      rw [foldl_logPush1_get_all]
      by_cases hj : j = i
      · subst hj
        rw [if_pos rfl, hgv, prune_activeDomain]
        have hperm : List.Perm
            (eraseList (getV s j).activeDomain ((getV s j).activeDomain.filter cond) ++
              (getV s j).activeDomain.filter cond)
            (getV s j).activeDomain := eraseList_append_perm _ _ hsubF
        have hms := Multiset.coe_eq_coe.mpr hperm
        have : ((getV s j).activeDomain.filter cond ≠ []) := hF
        show (↑(eraseList (getV s j).activeDomain ((getV s j).activeDomain.filter cond))
            : Multiset PipeType) +
            ↑(logGet m0 j ++ (getV s j).activeDomain.filter cond) = _
        have hcoe : (↑(logGet m0 j ++ (getV s j).activeDomain.filter cond)
            : Multiset PipeType) =
            ↑(logGet m0 j) + ↑((getV s j).activeDomain.filter cond) := rfl
        rw [hcoe, add_comm (↑(logGet m0 j) : Multiset PipeType)
          (↑((getV s j).activeDomain.filter cond) : Multiset PipeType), ← add_assoc,
          Multiset.coe_add, hms]
      · rw [if_neg hj, hother j hj]
    · intro j
      by_cases hj : j = i
      · subst hj; rw [hgv]; rfl
      · rw [hother j hj]
    · intro j
      by_cases hj : j = i
      · subst hj; rw [hgv]; rfl
      · rw [hother j hj]
    · intro j
      by_cases hj : j = i
      · subst hj; rw [hgv]; rfl
      · rw [hother j hj]
    · exact foldl_logPush1_keys_all i _ m0

theorem fipPrune_exact (i : Nat) (cond : PipeType → Bool) (s : CSPState)
    (pruned : PruneLog) :
    ExactAcc s (fipPrune i cond s pruned).1 pruned (fipPrune i cond s pruned).2 := by
  cases hma : (getV s i).getAssignment with
  | some a =>
    simp only [fipPrune, hma]
    exact exactAcc_refl s pruned
  | none =>
    simp only [fipPrune, hma]
    rw [show (getV s i).getActiveDomain = (getV s i).activeDomain from rfl]
    rw [fip_fold_spec i cond ((getV s i).activeDomain) [] pruned]
    simp only
    rw [List.nil_append]
    exact pruneStep_exactAcc s i cond pruned

theorem fipF_exact : ∀ (fuel : Nat) (ps : List PipeType) (i : Nat) (lastDir : Int)
    (s : CSPState) (pruned : PruneLog),
    ExactAcc s (fipF fuel ps i lastDir s pruned).1 pruned (fipF fuel ps i lastDir s pruned).2 := by
  intro fuel
  induction fuel with
  | zero => intro ps i lastDir s pruned; exact exactAcc_refl s pruned
  | succ fuel ihf =>
    intro ps i lastDir s pruned
    rw [fipF]
    simp only
    split
    · exact exactAcc_trans (fipPrune_exact i _ s pruned) (ihf ps _ _ _ _)
    · exact exactAcc_refl s pruned

theorem connectedPruner_exact : PrunerExact (fun fuel s => .ok (connectedPruner fuel s)) := by
  intro fuel s s' log h
  simp only [Except.ok.injEq] at h
  simp only [connectedPruner] at h
  cases hcv : connectedValidator (pseudoAssign s) with
  | false =>
    rw [hcv] at h
    simp only [Bool.not_false, if_pos] at h
    cases hfi : s.findIdx? (fun v => v.getAssignment == none) with
    | some i =>
      simp only [hfi, Prod.mk.injEq] at h
      rw [← h.1, ← h.2]
      exact prunePair_exact s i _ (List.Sublist.refl _)
    | none =>
      simp only [hfi, Prod.mk.injEq] at h
      rw [← h.1, ← h.2]
      exact exactAcc_refl s []
  | true =>
    rw [hcv] at h
    simp only [Bool.not_true, Bool.false_eq_true, if_false] at h
    have key : ∀ (idxs : List Nat) (s0 : CSPState) (m0 : PruneLog),
        ExactAcc s0
          (idxs.foldl (fun (acc : CSPState × PruneLog) i =>
            fipF fuel (pseudoAssign s) i (-1) acc.1 acc.2) (s0, m0)).1
          m0
          (idxs.foldl (fun (acc : CSPState × PruneLog) i =>
            fipF fuel (pseudoAssign s) i (-1) acc.1 acc.2) (s0, m0)).2 := by
      intro idxs
      induction idxs with
      | nil => intro s0 m0; exact exactAcc_refl s0 m0
      | cons j rest ihj =>
        intro s0 m0
        show ExactAcc s0 (rest.foldl _ (fipF fuel (pseudoAssign s) j (-1) s0 m0)).1 m0 _
        have h1 := fipF_exact fuel (pseudoAssign s) j (-1) s0 m0
        have h2 := ihj (fipF fuel (pseudoAssign s) j (-1) s0 m0).1
          (fipF fuel (pseudoAssign s) j (-1) s0 m0).2
        exact exactAcc_trans h1 h2
    have hk := key (List.range (pseudoAssign s).length) s []
    rw [h] at hk
    exact hk

/-! ### ac3 accounting -/

theorem keys_logAppend (m : PruneLog) (v : Nat) (rem : List PipeType)
    (h : (m.map Prod.fst).Nodup) : ((logAppend m v rem).map Prod.fst).Nodup := by
  unfold logAppend
  split
  · rw [keys_map_upd]
    exact h
  · rename_i hlk
    have hnone : List.lookup v m = none := Option.not_isSome_iff_eq_none.mp hlk
    have hnotin : v ∉ m.map Prod.fst := (lookup_none_iff_keys m v).mp hnone
    rw [List.map_append]
    refine List.Nodup.append h (List.nodup_singleton v) ?_
    intro a ha hav
    rw [List.map_cons, List.map_nil, List.mem_singleton] at hav
    subst hav
    exact hnotin ha

theorem mem_keys_logAppend (m : PruneLog) (v : Nat) (rem : List PipeType) :
    v ∈ (logAppend m v rem).map Prod.fst := by
  unfold logAppend
  split
  · rename_i hlk
    rw [keys_map_upd]
    cases hl : List.lookup v m with
    | none => rw [hl] at hlk; cases hlk
    | some val =>
      by_contra hno
      rw [← lookup_none_iff_keys] at hno
      rw [hl] at hno
      cases hno
  · rw [List.map_append]
    exact List.mem_append_right _ (by simp)

theorem foldl_logAppend_get :
    ∀ (entries : PruneLog) (acc : PruneLog) (i : Nat),
    ((entries.map Prod.fst).Nodup) →
    logGet (entries.foldl (fun a e => logAppend a e.1 e.2) acc) i =
      logGet acc i ++ logGet entries i := by
  intro entries
  induction entries with
  | nil => intro acc i _; rw [logGet_nil]; simp
  | cons e rest ih =>
    obtain ⟨v, rem⟩ := e
    intro acc i hnd
    rw [List.map_cons, List.nodup_cons] at hnd
    show logGet (rest.foldl _ (logAppend acc v rem)) i = _
    rw [ih (logAppend acc v rem) i hnd.2, logAppend_get]
    by_cases hiv : i = v
    · subst hiv
      have hrest : logGet rest i = [] := by
        unfold logGet
        rw [(lookup_none_iff_keys rest i).mpr hnd.1, Option.getD_none]
      rw [if_pos rfl, hrest]
      have hhead : logGet ((i, rem) :: rest) i = rem := by
        unfold logGet
        rw [lookup_cons_pair, if_pos rfl, Option.getD_some]
      rw [hhead]
      simp
    · rw [if_neg hiv]
      have hhead : logGet ((v, rem) :: rest) i = logGet rest i := by
        unfold logGet
        rw [lookup_cons_pair, if_neg hiv]
      rw [hhead]

theorem foldl_logAppend_keys :
    ∀ (entries : PruneLog) (acc : PruneLog), ((acc.map Prod.fst).Nodup) →
    (((entries.foldl (fun a e => logAppend a e.1 e.2) acc).map Prod.fst).Nodup) := by
  intro entries
  induction entries with
  | nil => intro acc h; exact h
  | cons e rest ih =>
    intro acc h
    exact ih (logAppend acc e.1 e.2) (keys_logAppend acc e.1 e.2 h)

theorem exactAcc_entries {s s2 : CSPState} {pruned : PruneLog}
    (hex : ExactAcc s s2 [] pruned) (acc : PruneLog) :
    ExactAcc s s2 acc (pruned.foldl (fun a e => logAppend a e.1 e.2) acc) := by
  obtain ⟨a1, b1, c1, d1, e1, f1, g1⟩ := hex
  have hnd : (pruned.map Prod.fst).Nodup := g1 (by simp)
  refine ⟨a1, ?_, c1, d1, e1, f1, fun h => foldl_logAppend_keys pruned acc h⟩
  intro i
  rw [foldl_logAppend_get pruned acc i hnd]
  have hb := b1 i
  rw [logGet_nil] at hb
  have hb2 : ((getV s2 i).activeDomain : Multiset PipeType) +
      (logGet pruned i : Multiset PipeType) =
      ((getV s i).activeDomain : Multiset PipeType) := by
    rw [hb]
    show _ + (↑([] : List PipeType) : Multiset PipeType) = _
    simp
  show _ + (↑(logGet acc i ++ logGet pruned i) : Multiset PipeType) = _
  rw [← Multiset.coe_add, ← add_assoc, add_comm
    ((↑(getV s2 i).activeDomain : Multiset PipeType)) ((logGet acc i : Multiset PipeType)),
    add_assoc, hb2]
  exact add_comm _ _

theorem ac3Entries_inr (cons : List Con) (s : CSPState) :
    ∀ (entries : PruneLog) (queue : List Nat) (acc : PruneLog)
      (q2 : List Nat) (acc2 : PruneLog),
    ac3Entries cons s entries queue acc = .inr (q2, acc2) →
    acc2 = entries.foldl (fun a e => logAppend a e.1 e.2) acc := by
  intro entries
  induction entries with
  | nil =>
    intro queue acc q2 acc2 h
    simp only [ac3Entries, Sum.inr.injEq, Prod.mk.injEq] at h
    rw [← h.2]
    rfl
  | cons e rest ih =>
    obtain ⟨v, rem⟩ := e
    intro queue acc q2 acc2 h
    rw [ac3Entries] at h
    split at h
    · cases h
    · exact ih _ _ _ _ h

theorem ac3Entries_inl (cons : List Con) (s : CSPState) :
    ∀ (entries : PruneLog) (queue : List Nat) (acc : PruneLog) (accF : PruneLog),
    ac3Entries cons s entries queue acc = .inl accF →
    ∃ v, v ∈ accF.map Prod.fst ∧ (getV s v).activeDomain = [] := by
  intro entries
  induction entries with
  | nil =>
    intro queue acc accF h
    simp only [ac3Entries] at h
    cases h
  | cons e rest ih =>
    obtain ⟨v, rem⟩ := e
    intro queue acc accF h
    rw [ac3Entries] at h
    split at h
    · rename_i hlen
      simp only [Sum.inl.injEq] at h
      refine ⟨v, ?_, ?_⟩
      · rw [← h]
        exact mem_keys_logAppend acc v rem
      · have : (getV s v).getActiveDomain.length = 0 := by
          have := of_decide_eq_true (by exact hlen)
          exact beq_iff_eq.mp hlen
        exact List.length_eq_zero.mp this
    · exact ih _ _ _ h

theorem defaultCon_pruner_exact : PrunerExact (default : Con).pruner := by
  intro fuel s s' log h
  have h2 : (Except.ok (s, ([] : PruneLog)) : Except String (CSPState × PruneLog)) =
      .ok (s', log) := h
  simp only [Except.ok.injEq, Prod.mk.injEq] at h2
  rw [← h2.1, ← h2.2]
  exact exactAcc_refl s []

theorem ac3F_succ (cons : List Con) (fuel : Nat) (s : CSPState) (queue : List Nat)
    (acc : PruneLog) :
    ac3F cons (fuel + 1) s queue acc =
      match queue with
      | [] => .out s acc
      | con :: queueRest =>
        match (cons.getD con default).pruner fuel s with
        | .error e => .err e
        | .ok (s, pruned) =>
          match ac3Entries cons s pruned queueRest acc with
          | .inl accFinal => .out s accFinal
          | .inr (queue, acc) => ac3F cons fuel s queue acc := rfl

theorem pipesCons_pruner_exact (n : Nat) :
    ∀ c ∈ pipesCons n, PrunerExact c.pruner := by
  intro c hc
  unfold pipesCons at hc
  rw [List.mem_append, List.mem_append] at hc
  rcases hc with (hc | hc) | hc
  · rw [List.mem_flatMap] at hc
    obtain ⟨i, _, hc⟩ := hc
    rw [List.mem_map] at hc
    obtain ⟨j, _, hc⟩ := hc
    rw [← hc]
    exact prunerH_exact _ _
  · rw [List.mem_flatMap] at hc
    obtain ⟨i, _, hc⟩ := hc
    rw [List.mem_map] at hc
    obtain ⟨j, _, hc⟩ := hc
    rw [← hc]
    exact prunerV_exact _ _
  · rw [List.mem_cons, List.mem_cons] at hc
    rcases hc with hc | hc | hc
    · rw [hc]
      exact noCyclesPruner_exact
    · rw [hc]
      exact connectedPruner_exact
    · cases hc

theorem ac3F_exact (cons : List Con) (hp : ∀ c ∈ cons, PrunerExact c.pruner) :
    ∀ (fuel : Nat) (s : CSPState) (queue : List Nat) (acc : PruneLog)
      (s' : CSPState) (log : PruneLog),
    ac3F cons fuel s queue acc = .out s' log →
    (∀ v, v ∈ log.map Prod.fst → (getV s' v).activeDomain ≠ []) →
    ExactAcc s s' acc log := by
  intro fuel
  induction fuel with
  | zero =>
    intro s queue acc s' log h hne
    cases h
  | succ fuel ih =>
    intro s queue acc s' log h hne
    rw [ac3F_succ] at h
    cases queue with
    | nil =>
      simp only [AC3Out.out.injEq] at h
      rw [← h.1, ← h.2]
      exact exactAcc_refl s acc
    | cons con rest =>
      simp only at h
      have hpe : PrunerExact (cons.getD con default).pruner := by
        by_cases hlt : con < cons.length
        · apply hp
          rw [List.getD_eq_getElem?_getD, List.getElem?_eq_getElem hlt, Option.getD_some]
          exact List.getElem_mem hlt
        · rw [List.getD_eq_getElem?_getD,
            List.getElem?_eq_none (Nat.le_of_not_lt hlt), Option.getD_none]
          exact defaultCon_pruner_exact
      cases hpr : (cons.getD con default).pruner fuel s with
      | error e =>
        simp only [hpr] at h
        cases h
      | ok sp =>
        obtain ⟨s2, pruned⟩ := sp
        simp only [hpr] at h
        have hex : ExactAcc s s2 [] pruned := hpe fuel s s2 pruned hpr
        cases hent : ac3Entries cons s2 pruned rest acc with
        | inl accF =>
          simp only [hent] at h
          simp only [AC3Out.out.injEq] at h
          obtain ⟨v, hvmem, hvempty⟩ := ac3Entries_inl cons s2 pruned rest acc accF hent
          rw [h.1] at hvempty
          rw [h.2] at hvmem
          exact absurd hvempty (hne v hvmem)
        | inr qa =>
          obtain ⟨q2, acc2⟩ := qa
          simp only [hent] at h
          have hacc2 : acc2 = pruned.foldl (fun a e => logAppend a e.1 e.2) acc :=
            ac3Entries_inr cons s2 pruned rest acc q2 acc2 hent
          have h1 : ExactAcc s s2 acc acc2 := by
            rw [hacc2]
            exact exactAcc_entries hex acc
          exact exactAcc_trans h1 (ih s2 q2 acc2 s' log h hne)

/-- C1 fails as stated: on the 2 by 2 pipes CSP, running ac3 from ceState with
the connected constraint queued, the call prunes values from variables 2 and 3
but returns early (variable 1 wiped out) with a log holding only variable 1,
so pushing every logged value back does not restore the removals performed on
variable 2 (not even as a multiset). -/
theorem C1_counterexample :
    ∃ s2 log, ac3F (pipesCons 2) 3 ceState [5] [] = AC3Out.out s2 log ∧
      (((getV s2 2).activeDomain ++ logGet log 2 : List PipeType) : Multiset PipeType) ≠
        ((getV ceState 2).activeDomain : Multiset PipeType) := by
  refine ⟨[⟨0, generateDomain true false false true, [pR], some pR⟩,
    ⟨1, generateDomain true true false false, [], none⟩,
    ⟨2, generateDomain false false true true, [pR], none⟩,
    ⟨3, generateDomain false true true false, [pUL], none⟩],
    [(1, [pL, pD])], ?_, ?_⟩
  · with_unfolding_all rfl
  · decide

/-- C1 (amended): when ac3 on the pipes CSP returns normally and no logged
variable ends with an empty active domain (that is, the early wipe-out return
did not cut entry processing short), the returned map records every removal of
the call: appending the logged values to each final active domain restores the
initial active domain as a multiset, and each final active domain is an
order-preserving sublist of the initial one. -/
theorem C1_ac3_log_exact (n fuel : Nat) (s s' : CSPState) (queue : List Nat)
    (log : PruneLog)
    (hrun : ac3F (pipesCons n) fuel s queue [] = AC3Out.out s' log)
    (hne : ∀ v, v ∈ log.map Prod.fst → (getV s' v).activeDomain ≠ []) :
    ∀ i, (((getV s' i).activeDomain ++ logGet log i : List PipeType) : Multiset PipeType) =
        ((getV s i).activeDomain : Multiset PipeType) ∧
      List.Sublist (getV s' i).activeDomain (getV s i).activeDomain := by
  have hx := ac3F_exact (pipesCons n) (pipesCons_pruner_exact n) fuel s queue [] s' log
    hrun hne
  obtain ⟨a, b, _, _, _, _, _⟩ := hx
  intro i
  refine ⟨?_, a i⟩
  have hb := b i
  rw [logGet_nil] at hb
  have hz : ((getV s i).activeDomain : Multiset PipeType) +
      (↑([] : List PipeType) : Multiset PipeType) =
      ((getV s i).activeDomain : Multiset PipeType) := by simp
  rw [hz] at hb
  show ((getV s' i).activeDomain : Multiset PipeType) + (logGet log i : Multiset PipeType) = _
  exact hb

/-! ### The A within D invariant (C9) -/

theorem logGet_cons_self (v : Nat) (rem : List PipeType) (rest : PruneLog) :
    logGet ((v, rem) :: rest) v = rem := by
  unfold logGet
  rw [lookup_cons_pair, if_pos rfl, Option.getD_some]

theorem logGet_cons_other (v i : Nat) (rem : List PipeType) (rest : PruneLog)
    (h : i ≠ v) : logGet ((v, rem) :: rest) i = logGet rest i := by
  unfold logGet
  rw [lookup_cons_pair, if_neg h]

theorem ac3Entries_inl_le (cons : List Con) (s : CSPState) :
    ∀ (entries : PruneLog) (queue : List Nat) (acc accF : PruneLog),
    ac3Entries cons s entries queue acc = .inl accF →
    (entries.map Prod.fst).Nodup →
    (∀ i, ∃ t : List PipeType, logGet accF i = logGet acc i ++ t ∧
        (↑t : Multiset PipeType) ≤ ↑(logGet entries i)) ∧
    ((acc.map Prod.fst).Nodup → (accF.map Prod.fst).Nodup) := by
  intro entries
  induction entries with
  | nil =>
    intro queue acc accF h hnd
    simp only [ac3Entries] at h
    cases h
  | cons e rest ih =>
    obtain ⟨v, rem⟩ := e
    intro queue acc accF h hnd
    rw [List.map_cons, List.nodup_cons] at hnd
    rw [ac3Entries] at h
    split at h
    · simp only [Sum.inl.injEq] at h
      constructor
      · intro i
        rw [← h, logAppend_get]
        by_cases hiv : i = v
        · subst hiv
          exact ⟨rem, by rw [if_pos rfl], by rw [logGet_cons_self]⟩
        · refine ⟨[], by rw [if_neg hiv, List.append_nil], ?_⟩
          show (↑([] : List PipeType) : Multiset PipeType) ≤ _
          exact Multiset.zero_le _
      · intro hacc
        rw [← h]
        exact keys_logAppend acc v rem hacc
    · obtain ⟨hget, hkeys⟩ := ih _ _ _ h hnd.2
      constructor
      · intro i
        obtain ⟨t, ht, hle⟩ := hget i
        rw [logAppend_get] at ht
        by_cases hiv : i = v
        · subst hiv
          have hrest0 : logGet rest i = [] := by
            unfold logGet
            rw [(lookup_none_iff_keys rest i).mpr hnd.1, Option.getD_none]
          rw [hrest0] at hle
          have ht0 : (↑t : Multiset PipeType) = 0 :=
            le_antisymm hle (Multiset.zero_le _)
          refine ⟨rem ++ t, by rw [ht, if_pos rfl, List.append_assoc], ?_⟩
          rw [logGet_cons_self]
          show (↑rem : Multiset PipeType) + ↑t ≤ ↑rem
          rw [ht0, add_zero]
        · refine ⟨t, by rw [ht, if_neg hiv], ?_⟩
          rw [logGet_cons_other v i rem rest hiv]
          exact hle
      · intro hacc
        exact hkeys (keys_logAppend acc v rem hacc)

theorem ac3F_le (cons : List Con) (hp : ∀ c ∈ cons, PrunerExact c.pruner) :
    ∀ (fuel : Nat) (s : CSPState) (queue : List Nat) (acc : PruneLog)
      (s' : CSPState) (log : PruneLog),
    ac3F cons fuel s queue acc = .out s' log →
    (∀ i, List.Sublist (getV s' i).activeDomain (getV s i).activeDomain) ∧
    (∀ i, (getV s' i).domain = (getV s i).domain) ∧
    (∀ i, ((getV s' i).activeDomain : Multiset PipeType) + ↑(logGet log i) ≤
        ((getV s i).activeDomain : Multiset PipeType) + ↑(logGet acc i)) ∧
    ((acc.map Prod.fst).Nodup → (log.map Prod.fst).Nodup) := by
  intro fuel
  induction fuel with
  | zero =>
    intro s queue acc s' log h
    cases h
  | succ fuel ih =>
    intro s queue acc s' log h
    rw [ac3F_succ] at h
    cases queue with
    | nil =>
      simp only [AC3Out.out.injEq] at h
      rw [← h.1, ← h.2]
      exact ⟨fun i => List.Sublist.refl _, fun i => rfl, fun i => le_refl _, fun hn => hn⟩
    | cons con rest =>
      simp only at h
      have hpe : PrunerExact (cons.getD con default).pruner := by
        by_cases hlt : con < cons.length
        · apply hp
          rw [List.getD_eq_getElem?_getD, List.getElem?_eq_getElem hlt, Option.getD_some]
          exact List.getElem_mem hlt
        · rw [List.getD_eq_getElem?_getD,
            List.getElem?_eq_none (Nat.le_of_not_lt hlt), Option.getD_none]
          exact defaultCon_pruner_exact
      cases hpr : (cons.getD con default).pruner fuel s with
      | error e =>
        simp only [hpr] at h
        cases h
      | ok sp =>
        obtain ⟨s2, pruned⟩ := sp
        simp only [hpr] at h
        obtain ⟨a1, b1, _, _, _, _, g1⟩ := hpe fuel s s2 pruned hpr
        have hpnd : (pruned.map Prod.fst).Nodup := g1 (by simp)
        have hbal : ∀ i, ((getV s2 i).activeDomain : Multiset PipeType) +
            ↑(logGet pruned i) = ((getV s i).activeDomain : Multiset PipeType) := by
          intro i
          have hb := b1 i
          rw [logGet_nil] at hb
          have hz : ((getV s i).activeDomain : Multiset PipeType) +
              (↑([] : List PipeType) : Multiset PipeType) =
              ((getV s i).activeDomain : Multiset PipeType) := by simp
          rw [hz] at hb
          exact hb
        cases hent : ac3Entries cons s2 pruned rest acc with
        | inl accF =>
          simp only [hent] at h
          simp only [AC3Out.out.injEq] at h
          obtain ⟨hget, hkeys⟩ := ac3Entries_inl_le cons s2 pruned rest acc accF hent hpnd
          rw [← h.1, ← h.2]
          refine ⟨a1, fun i => (hpe fuel s s2 pruned hpr).2.2.1 i, ?_, hkeys⟩
          intro i
          obtain ⟨t, ht, hle⟩ := hget i
          rw [ht]
          have hco : (↑(logGet acc i ++ t) : Multiset PipeType) =
              ↑(logGet acc i) + ↑t := rfl
          rw [hco, ← add_assoc, add_comm ((↑(getV s2 i).activeDomain : Multiset PipeType))
            (↑(logGet acc i)), add_assoc]
          rw [add_comm ((↑(getV s i).activeDomain : Multiset PipeType)) (↑(logGet acc i))]
          refine add_le_add_left ?_ _
          calc ((getV s2 i).activeDomain : Multiset PipeType) + ↑t
              ≤ ((getV s2 i).activeDomain : Multiset PipeType) + ↑(logGet pruned i) :=
                add_le_add_left hle _
            _ = ((getV s i).activeDomain : Multiset PipeType) := hbal i
        | inr qa =>
          obtain ⟨q2, acc2⟩ := qa
          simp only [hent] at h
          have hacc2 : acc2 = pruned.foldl (fun a e => logAppend a e.1 e.2) acc :=
            ac3Entries_inr cons s2 pruned rest acc q2 acc2 hent
          obtain ⟨ia, ib, ic, id⟩ := ih s2 q2 acc2 s' log h
          refine ⟨fun i => (ia i).trans (a1 i),
            fun i => (ib i).trans ((hpe fuel s s2 pruned hpr).2.2.1 i), ?_, ?_⟩
          · intro i
            have hc := ic i
            rw [hacc2, foldl_logAppend_get pruned acc i hpnd] at hc
            have hco : (↑(logGet acc i ++ logGet pruned i) : Multiset PipeType) =
                ↑(logGet acc i) + ↑(logGet pruned i) := rfl
            rw [hco] at hc
            calc ((getV s' i).activeDomain : Multiset PipeType) + ↑(logGet log i)
                ≤ ((getV s2 i).activeDomain : Multiset PipeType) +
                  (↑(logGet acc i) + ↑(logGet pruned i)) := hc
              _ = (((getV s2 i).activeDomain : Multiset PipeType) + ↑(logGet pruned i)) +
                  ↑(logGet acc i) := by
                    rw [add_comm (↑(logGet acc i) : Multiset PipeType)
                      (↑(logGet pruned i) : Multiset PipeType), ← add_assoc]
              _ = ((getV s i).activeDomain : Multiset PipeType) + ↑(logGet acc i) := by
                    rw [hbal i]
          · intro hacc
            apply id
            rw [hacc2]
            exact foldl_logAppend_keys pruned acc hacc

theorem assign_meta (v : Variable) (p : PipeType) :
    ((v.assign p).2).activeDomain = v.activeDomain ∧
      ((v.assign p).2).domain = v.domain := by
  unfold Variable.assign
  split <;> exact ⟨rfl, rfl⟩

theorem unassign_meta (v : Variable) :
    (v.unassign.2).activeDomain = v.activeDomain ∧
      (v.unassign.2).domain = v.domain := by
  unfold Variable.unassign
  split <;> exact ⟨rfl, rfl⟩

theorem adWithinDomain_setV (s : CSPState) (i : Nat) (w : Variable)
    (hs : adWithinDomain s)
    (had : (↑w.activeDomain : Multiset PipeType) ≤ ↑(getV s i).activeDomain)
    (hd : w.domain = (getV s i).domain) :
    adWithinDomain (setV s i w) := by
  by_cases hlen : i < s.length
  · intro j
    by_cases hji : j = i
    · subst hji
      rw [getV_setV_self s j w hlen, hd]
      exact le_trans had (hs j)
    · rw [getV_setV_other s i j w (fun hij => hji hij.symm)]
      exact hs j
  · have : setV s i w = s := List.set_eq_of_length_le (Nat.le_of_not_lt hlen)
    rw [this]
    exact hs

theorem adWithinDomain_pipesVars (n : Nat) : adWithinDomain (pipesVars n) := by
  intro i
  by_cases h : i < n * n
  · have hv : getV (pipesVars n) i = Variable.mk0 i
        (generateDomain (i / n == 0) (i % n == n - 1) (i / n == n - 1) (i % n == 0)) := by
      unfold pipesVars getV
      rw [List.getD_eq_getElem?_getD, List.getElem?_map, List.getElem?_range h]
      rfl
    rw [hv]
    exact le_refl _
  · have hlen : (pipesVars n).length ≤ i := by
      unfold pipesVars
      rw [List.length_map, List.length_range]
      exact Nat.le_of_not_lt h
    rw [getV_out_of_range _ _ hlen]
    exact le_refl _

theorem adWithinDomain_pruneAt (s : CSPState) (i : Nat) (l : List PipeType)
    (hs : adWithinDomain s) : adWithinDomain (pruneAt s i l) := by
  apply adWithinDomain_setV s i _ hs
  · show (↑((getV s i).prune l).activeDomain : Multiset PipeType) ≤ _
    rw [prune_activeDomain]
    exact Multiset.coe_le.mpr (eraseList_sublist _ _).subperm
  · rfl

theorem restore_sub :
    ∀ (log : PruneLog) (g : GacState), (log.map Prod.fst).Nodup →
    (∀ i, ((getV g.vars i).activeDomain : Multiset PipeType) + ↑(logGet log i) ≤
        ((getV g.vars i).domain : Multiset PipeType)) →
    adWithinDomain (restore g log).vars := by
  intro log
  induction log with
  | nil =>
    intro g _ hcr
    intro i
    have hc := hcr i
    rw [logGet_nil] at hc
    have hz : ((getV g.vars i).activeDomain : Multiset PipeType) +
        (↑([] : List PipeType) : Multiset PipeType) =
        ((getV g.vars i).activeDomain : Multiset PipeType) := by simp
    rw [hz] at hc
    exact hc
  | cons e rest ih =>
    obtain ⟨k, rem⟩ := e
    intro g hnd hcr
    rw [List.map_cons, List.nodup_cons] at hnd
    show adWithinDomain (restore
      ⟨setV g.vars k
        { getV g.vars k with activeDomain := (getV g.vars k).activeDomain ++ rem },
        g.assignedVars, g.unassignedVars⟩ rest).vars
    apply ih _ hnd.2
    intro i
    by_cases hlen : k < g.vars.length
    · by_cases hik : i = k
      · subst hik
        show ((getV (setV g.vars i _) i).activeDomain : Multiset PipeType) + _ ≤ _
        rw [getV_setV_self g.vars i _ hlen]
        have hrest0 : logGet rest i = [] := by
          unfold logGet
          rw [(lookup_none_iff_keys rest i).mpr hnd.1, Option.getD_none]
        rw [hrest0]
        have hc := hcr i
        rw [logGet_cons_self] at hc
        show (↑((getV g.vars i).activeDomain ++ rem) : Multiset PipeType) +
          (↑([] : List PipeType) : Multiset PipeType) ≤ _
        have hco : (↑((getV g.vars i).activeDomain ++ rem) : Multiset PipeType) =
            ↑(getV g.vars i).activeDomain + ↑rem := rfl
        rw [hco]
        show _ + (0 : Multiset PipeType) ≤ _
        rw [add_zero]
        exact hc
      · show ((getV (setV g.vars k _) i).activeDomain : Multiset PipeType) + _ ≤ _
        rw [getV_setV_other g.vars k i _ (fun hk => hik hk.symm)]
        have hc := hcr i
        rw [logGet_cons_other k i rem rest hik] at hc
        exact hc
    · have hnoop : setV g.vars k
          { getV g.vars k with activeDomain := (getV g.vars k).activeDomain ++ rem } =
          g.vars := List.set_eq_of_length_le (Nat.le_of_not_lt hlen)
      rw [hnoop]
      have hc := hcr i
      by_cases hik : i = k
      · subst hik
        rw [logGet_cons_self] at hc
        have hrest0 : logGet rest i = [] := by
          unfold logGet
          rw [(lookup_none_iff_keys rest i).mpr hnd.1, Option.getD_none]
        rw [hrest0]
        show _ + (↑([] : List PipeType) : Multiset PipeType) ≤ _
        show _ + (0 : Multiset PipeType) ≤ _
        rw [add_zero]
        calc ((getV g.vars i).activeDomain : Multiset PipeType)
            ≤ ((getV g.vars i).activeDomain : Multiset PipeType) + ↑rem :=
              le_add_of_nonneg_right (Multiset.zero_le _)
          _ ≤ _ := hc
      · rw [logGet_cons_other k i rem rest hik] at hc
        exact hc

/-! ### Determinism of the deterministic mode (C6) -/

theorem manhattanF_false_shape (g : GacState) (rng : Rng) :
    manhattanF false g rng = (manhattanF false g []).map (fun p => (p.1, rng)) := by
  unfold manhattanF
  simp only [Bool.false_and, Bool.false_eq_true, if_false]
  split
  · rfl
  · split
    · rfl
    · rfl

theorem gacLoopF_succ (cons : List Con) (fuel : Nat) (g : GacState)
    (stack : List SearchState) (solutions : List Assignment) (maxSolutions : Int)
    (randomStart : Bool) (rng : Rng) :
    gacLoopF cons (fuel + 1) g stack solutions maxSolutions randomStart rng =
      match stack with
      | [] => .ok (solutions, g)
      | state :: stackRest =>
        if maxSolutions != -1 && (Int.ofNat solutions.length) ≥ maxSolutions then
          .ok (solutions, g)
        else if g.unassignedVars.length == 0 then
          match cspGetAssignment g.vars with
          | .error e => .error e
          | .ok currAssignment =>
            let newSolutions : Except String (List Assignment) :=
              if solutions.contains currAssignment then .ok solutions
              else
                match anyViolatedF cons g.vars with
                | .error e => .error e
                | .ok true => .ok solutions
                | .ok false => .ok (solutions ++ [currAssignment])
            match newSolutions with
            | .error e => .error e
            | .ok solutions =>
              let g := (unassignVar g state.varIdx).2
              let g := restore g state.pruned
              let state := { state with domainIndex := state.domainIndex + 1, pruned := [] }
              let stack :=
                if state.domainIndex ≥ state.activeDomain.length then stackRest
                else state :: stackRest
              gacLoopF cons fuel g stack solutions maxSolutions randomStart rng
        else if state.domainIndex ≥ state.activeDomain.length then
          match stackRest with
          | [] => gacLoopF cons fuel g [] solutions maxSolutions randomStart rng
          | prevState :: rest =>
            let g := (unassignVar g prevState.varIdx).2
            let g := restore g prevState.pruned
            let prevState :=
              { prevState with domainIndex := prevState.domainIndex + 1, pruned := [] }
            gacLoopF cons fuel g (prevState :: rest) solutions maxSolutions randomStart rng
        else
          let assignment := state.activeDomain.getD state.domainIndex default
          let g := (unassignVar g state.varIdx).2
          let g := (assignVar g state.varIdx assignment).2
          match ac3F cons fuel g.vars (getConsWithVar cons state.varIdx) [] with
          | .err e => .error e
          | .spin => .ok (solutions, g)
          | .out vars prunedDomains =>
            let g := { g with vars := vars }
            let noActiveDomains :=
              prunedDomains.any (fun e => (getV g.vars e.1).getActiveDomain.length == 0)
            let state := { state with pruned := prunedDomains }
            if noActiveDomains then
              let g := restore g prunedDomains
              let state := { state with domainIndex := state.domainIndex + 1, pruned := [] }
              gacLoopF cons fuel g (state :: stackRest) solutions maxSolutions randomStart rng
            else if g.unassignedVars.length > 0 then
              match manhattanF randomStart g rng with
              | none => .ok (solutions, g)
              | some (nextVar, rng) =>
                let nextActiveDomain := (getV g.vars nextVar).getActiveDomain
                let (nextActiveDomain, rng) :=
                  if randomStart then shuffleF nextActiveDomain rng
                  else (nextActiveDomain, rng)
                gacLoopF cons fuel g
                  (⟨nextVar, 0, nextActiveDomain, []⟩ :: state :: stackRest)
                  solutions maxSolutions randomStart rng
            else
              gacLoopF cons fuel g (state :: stackRest) solutions maxSolutions randomStart rng
        := rfl

theorem gacLoopF_rng_irrel (cons : List Con) :
    ∀ (fuel : Nat) (g : GacState) (stack : List SearchState)
      (solutions : List Assignment) (maxSolutions : Int) (rng1 rng2 : Rng),
    gacLoopF cons fuel g stack solutions maxSolutions false rng1 =
      gacLoopF cons fuel g stack solutions maxSolutions false rng2 := by
  intro fuel
  induction fuel with
  | zero => intro g stack solutions maxSolutions rng1 rng2; rfl
  | succ fuel ih =>
    intro g stack solutions maxSolutions rng1 rng2
    rw [gacLoopF_succ, gacLoopF_succ]
    cases stack with
    | nil => rfl
    | cons state stackRest =>
      simp only
      split
      · rfl
      · split
        · split
          · rfl
          · split
            · rfl
            · apply ih
        · split
          · cases stackRest with
            | nil => apply ih
            | cons prevState rest => apply ih
          · split
            · rfl
            · rfl
            · split
              · apply ih
              · split
                · rw [manhattanF_false_shape _ rng1, manhattanF_false_shape _ rng2]
                  cases manhattanF false
                      ({ vars := _, assignedVars := _, unassignedVars := _ } : GacState)
                      [] with
                  | none => rfl
                  | some p => simp only [Option.map_some, Option.map_some']; apply ih
                · apply ih

/-- C6: in deterministic mode (randomStart = false) the solver is a function
of n alone: two gacAll runs on the freshly built pipes CSP for the same n,
with the same cap and fuel but arbitrary random streams, return identical
results, hence the same first solution and the same solution set under the
same cap. -/
theorem C6_deterministic_mode (n fuel : Nat) (solutions : List Assignment)
    (maxSolutions : Int) (rng1 rng2 : Rng) :
    gacAll (pipesCons n) fuel (pipesInit n) solutions maxSolutions false rng1 =
      gacAll (pipesCons n) fuel (pipesInit n) solutions maxSolutions false rng2 := by
  unfold gacAll
  split
  · rw [manhattanF_false_shape _ rng1, manhattanF_false_shape _ rng2]
    cases manhattanF false (pipesInit n) [] with
    | none => apply gacLoopF_rng_irrel
    | some p =>
      simp only [Option.map_some, Option.map_some', Bool.false_eq_true, if_false]
      apply gacLoopF_rng_irrel
  · apply gacLoopF_rng_irrel

theorem adWithinDomain_of_bounded (s : CSPState)
    (h : ∀ i, i < s.length → ((getV s i).activeDomain : Multiset PipeType) ≤
      ((getV s i).domain : Multiset PipeType)) : adWithinDomain s := by
  intro i
  by_cases hi : i < s.length
  · exact h i hi
  · rw [getV_out_of_range s i (Nat.le_of_not_lt hi)]
    exact le_refl _

/-- C9: the active domain stays a sub-multiset of the full domain through
every operation the search performs: variable construction (createPipesCSP),
assignVar, unassignVar, prune (pruneAt), every normally returning ac3 call on
the pipes CSP, and the restore a backtracking gacAll performs with the log of
such a call. -/
theorem C9_activeDomain_within_domain :
    (∀ n, adWithinDomain (pipesVars n)) ∧
    (∀ (g : GacState) (i : Nat) (p : PipeType), adWithinDomain g.vars →
      adWithinDomain ((assignVar g i p).2).vars) ∧
    (∀ (g : GacState) (i : Nat), adWithinDomain g.vars →
      adWithinDomain ((unassignVar g i).2).vars) ∧
    (∀ (s : CSPState) (i : Nat) (l : List PipeType), adWithinDomain s →
      adWithinDomain (pruneAt s i l)) ∧
    (∀ (n fuel : Nat) (s : CSPState) (queue : List Nat) (acc : PruneLog)
      (s2 : CSPState) (log : PruneLog),
      ac3F (pipesCons n) fuel s queue acc = AC3Out.out s2 log →
      adWithinDomain s → adWithinDomain s2) ∧
    (∀ (n fuel : Nat) (s : CSPState) (queue : List Nat) (s2 : CSPState)
      (log : PruneLog) (av uv : List Nat),
      ac3F (pipesCons n) fuel s queue [] = AC3Out.out s2 log →
      adWithinDomain s → adWithinDomain (restore ⟨s2, av, uv⟩ log).vars) := by
  refine ⟨adWithinDomain_pipesVars, ?_, ?_, adWithinDomain_pruneAt, ?_, ?_⟩
  · intro g i p hg
    cases hav : (getV g.vars i).assign p with
    | mk ok w =>
      have hm := assign_meta (getV g.vars i) p
      rw [hav] at hm
      simp only [assignVar, hav]
      cases ok with
      | true =>
        simp only [if_pos]
        exact adWithinDomain_setV g.vars i w hg (by rw [hm.1]) hm.2
      | false =>
        simp only [Bool.false_eq_true, if_false]
        exact hg
  · intro g i hg
    cases hav : (getV g.vars i).unassign with
    | mk ok w =>
      have hm := unassign_meta (getV g.vars i)
      rw [hav] at hm
      simp only [unassignVar, hav]
      cases ok with
      | true =>
        simp only [if_pos]
        exact adWithinDomain_setV g.vars i w hg (by rw [hm.1]) hm.2
      | false =>
        simp only [Bool.false_eq_true, if_false]
        exact hg
  · intro n fuel s queue acc s2 log hrun hs
    obtain ⟨ha, hd, _, _⟩ := ac3F_le (pipesCons n) (pipesCons_pruner_exact n)
      fuel s queue acc s2 log hrun
    intro i
    rw [hd i]
    exact le_trans (Multiset.coe_le.mpr (ha i).subperm) (hs i)
  · intro n fuel s queue s2 log av uv hrun hs
    obtain ⟨ha, hd, hcred, hnd⟩ := ac3F_le (pipesCons n) (pipesCons_pruner_exact n)
      fuel s queue [] s2 log hrun
    apply restore_sub log ⟨s2, av, uv⟩ (hnd (by simp))
    intro i
    show ((getV s2 i).activeDomain : Multiset PipeType) + _ ≤
      ((getV s2 i).domain : Multiset PipeType)
    rw [hd i]
    refine le_trans ?_ (hs i)
    have hc := hcred i
    rw [logGet_nil] at hc
    have hz : ((getV s i).activeDomain : Multiset PipeType) +
        (↑([] : List PipeType) : Multiset PipeType) =
        ((getV s i).activeDomain : Multiset PipeType) := by simp
    rw [hz] at hc
    exact hc

theorem C9_activeDomain_within_domain_witness :
    adWithinDomain (pipesVars 2) ∧
    adWithinDomain ((assignVar (pipesInit 2) 0 pRD).2).vars ∧
    adWithinDomain ((unassignVar ⟨solvedState, [0, 1, 2, 3], []⟩ 0).2).vars ∧
    adWithinDomain (pruneAt ceState 1 [pD]) ∧
    adWithinDomain solvedState ∧
    adWithinDomain (restore ⟨solvedState, [0, 1, 2, 3], []⟩ []).vars :=
  ⟨C9_activeDomain_within_domain.1 2,
   C9_activeDomain_within_domain.2.1 (pipesInit 2) 0 pRD
     (adWithinDomain_of_bounded _ (by decide)),
   C9_activeDomain_within_domain.2.2.1 ⟨solvedState, [0, 1, 2, 3], []⟩ 0
     (adWithinDomain_of_bounded _ (by decide)),
   C9_activeDomain_within_domain.2.2.2.1 ceState 1 [pD]
     (adWithinDomain_of_bounded _ (by decide)),
   C9_activeDomain_within_domain.2.2.2.2.1 2 20 solvedState [0, 1, 2, 3, 4, 5] []
     solvedState [] (by with_unfolding_all rfl)
     (adWithinDomain_of_bounded _ (by decide)),
   C9_activeDomain_within_domain.2.2.2.2.2 2 20 solvedState [0, 1, 2, 3, 4, 5]
     solvedState [] [0, 1, 2, 3] [] (by with_unfolding_all rfl)
     (adWithinDomain_of_bounded _ (by decide))⟩

theorem C1_ac3_log_exact_witness :
    (ac3F (pipesCons 2) 20 solvedState [0, 1, 2, 3, 4, 5] [] =
      AC3Out.out solvedState []) ∧
    (∀ v, v ∈ (([] : PruneLog).map Prod.fst) → (getV solvedState v).activeDomain ≠ []) ∧
    (∀ i, (((getV solvedState i).activeDomain ++ logGet ([] : PruneLog) i : List PipeType) :
          Multiset PipeType) =
        ((getV solvedState i).activeDomain : Multiset PipeType) ∧
      List.Sublist (getV solvedState i).activeDomain (getV solvedState i).activeDomain) :=
  ⟨by with_unfolding_all rfl, by simp,
   C1_ac3_log_exact 2 20 solvedState solvedState [0, 1, 2, 3, 4, 5] []
     (by with_unfolding_all rfl) (by simp)⟩

/-! ### Grid arithmetic: specNeighbor structure -/

theorem grid_sub_n (n i : Nat) (h : n ≤ i) :
    (i - n) / n = i / n - 1 ∧ (i - n) % n = i % n := by
  rcases Nat.eq_zero_or_pos n with hn | hn
  · subst hn; simp
  · have hc : i - n + n = i := Nat.sub_add_cancel h
    have hd : (i - n + n) / n = (i - n) / n + 1 := Nat.add_div_right _ hn
    have hm : (i - n + n) % n = (i - n) % n := Nat.add_mod_right _ _
    rw [hc] at hd hm
    exact ⟨Nat.eq_sub_of_add_eq hd.symm, hm.symm⟩

theorem grid_add_n (n i : Nat) (hn : 0 < n) :
    (i + n) / n = i / n + 1 ∧ (i + n) % n = i % n :=
  ⟨Nat.add_div_right _ hn, Nat.add_mod_right _ _⟩

theorem grid_succ (n i : Nat) (hn : 0 < n) (h : i % n ≠ n - 1) :
    (i + 1) / n = i / n ∧ (i + 1) % n = i % n + 1 := by
  have hvm := Nat.div_add_mod i n
  have hrlt : i % n < n := Nat.mod_lt i hn
  have hr1 : i % n + 1 < n := by omega
  have h1 : i + 1 = n * (i / n) + (i % n + 1) := by omega
  constructor
  · rw [h1, Nat.mul_add_div hn, Nat.div_eq_of_lt hr1, Nat.add_zero]
  · rw [h1, Nat.mul_add_mod, Nat.mod_eq_of_lt hr1]

theorem grid_pred (n i : Nat) (hn : 0 < n) (h : i % n ≠ 0) :
    1 ≤ i ∧ (i - 1) / n = i / n ∧ (i - 1) % n = i % n - 1 := by
  have hvm := Nat.div_add_mod i n
  have hrlt : i % n < n := Nat.mod_lt i hn
  have hi1 : 1 ≤ i := by omega
  have h1 : i - 1 = n * (i / n) + (i % n - 1) := by omega
  have hlt : i % n - 1 < n := by omega
  refine ⟨hi1, ?_, ?_⟩
  · rw [h1, Nat.mul_add_div hn, Nat.div_eq_of_lt hlt, Nat.add_zero]
  · rw [h1, Nat.mul_add_mod, Nat.mod_eq_of_lt hlt]

theorem grid_mod_last_iff (n i : Nat) (hn : 0 < n) :
    i % n = n - 1 ↔ (i + 1) % n = 0 := by
  constructor
  · intro h
    have hvm := Nat.div_add_mod i n
    have h1 : i + 1 = n * (i / n + 1) := by
      rw [Nat.mul_add, Nat.mul_one]
      omega
    rw [h1, Nat.mul_mod_right]
  · intro h
    by_contra hne
    have := (grid_succ n i hn hne).2
    omega

theorem grid_div_last_iff (n i : Nat) (hn : 0 < n) (hi : i < n * n) :
    i / n = n - 1 ↔ n * n ≤ i + n := by
  have hvm := Nat.div_add_mod i n
  have hrlt : i % n < n := Nat.mod_lt i hn
  have hqlt : i / n < n := Nat.div_lt_iff_lt_mul hn |>.mpr (by rw [Nat.mul_comm] at hi ⊢; exact hi)
  constructor
  · intro h
    have : n * (n - 1) ≤ i := by
      calc n * (n - 1) = n * (i / n) := by rw [h]
        _ ≤ i := by omega
    have hnn : n * n = n * (n - 1) + n := by
      have : n - 1 + 1 = n := Nat.succ_pred_eq_of_pos hn
      calc n * n = n * (n - 1 + 1) := by rw [this]
        _ = n * (n - 1) + n := by rw [Nat.mul_add, Nat.mul_one]
    omega
  · intro h
    have hge : n * (n - 1) ≤ i := by
      have hnn : n * n = n * (n - 1) + n := by
        have h1 : n - 1 + 1 = n := Nat.succ_pred_eq_of_pos hn
        calc n * n = n * (n - 1 + 1) := by rw [h1]
          _ = n * (n - 1) + n := by rw [Nat.mul_add, Nat.mul_one]
      omega
    have hle : n - 1 ≤ i / n := (Nat.le_div_iff_mul_le hn).mpr (by rw [Nat.mul_comm]; exact hge)
    omega

theorem grid_div_zero_iff (n i : Nat) (hn : 0 < n) : i / n = 0 ↔ i < n := by
  constructor
  · intro h
    by_contra hge
    have h1 : 1 ≤ i / n := (Nat.one_le_div_iff hn).mpr (Nat.le_of_not_lt hge)
    omega
  · exact Nat.div_eq_of_lt

/-- A neighbor index stays on the grid. -/
theorem specNeighbor_lt (n i d j : Nat) (hi : i < n * n)
    (h : specNeighbor n i d = some j) : j < n * n := by
  have hn : 0 < n := by
    rcases Nat.eq_zero_or_pos n with h0 | h0
    · subst h0; simp at hi
    · exact h0
  match d with
  | 0 =>
    simp only [specNeighbor] at h
    split at h
    · cases h
    · simp only [Option.some.injEq] at h
      omega
  | 1 =>
    simp only [specNeighbor] at h
    split at h
    · cases h
    · rename_i hc
      simp only [Option.some.injEq] at h
      subst h
      by_contra hge
      have hj : i + 1 = n * n := by omega
      have : i % n = n - 1 := by
        rw [grid_mod_last_iff n i hn, hj, Nat.mul_mod_right]
      exact hc this
  | 2 =>
    simp only [specNeighbor] at h
    split at h
    · cases h
    · rename_i hc
      simp only [Option.some.injEq] at h
      subst h
      by_contra hge
      exact hc ((grid_div_last_iff n i hn hi).mpr (by omega))
  | 3 =>
    simp only [specNeighbor] at h
    split at h
    · cases h
    · simp only [Option.some.injEq] at h
      omega
  | d + 4 =>
    simp only [specNeighbor] at h
    cases h

/-- The neighbor relation is symmetric: step back in the opposite
direction. -/
theorem specNeighbor_symm (n i d j : Nat) (hi : i < n * n) (hd : d < 4)
    (h : specNeighbor n i d = some j) :
    specNeighbor n j ((d + 2) % 4) = some i := by
  have hn : 0 < n := by
    rcases Nat.eq_zero_or_pos n with h0 | h0
    · subst h0; simp at hi
    · exact h0
  match d, hd with
  | 0, _ =>
    simp only [specNeighbor] at h
    split at h
    · cases h
    · rename_i hc
      simp only [Option.some.injEq] at h
      subst h
      have hni : n ≤ i := by
        by_contra hlt
        exact hc ((grid_div_zero_iff n i hn).mpr (Nat.lt_of_not_le hlt))
      obtain ⟨hdv, _⟩ := grid_sub_n n i hni
      have hqlt : i / n < n := Nat.div_lt_iff_lt_mul hn |>.mpr
        (by rw [Nat.mul_comm] at hi ⊢; exact hi)
      have hq1 : 1 ≤ i / n := by
        by_contra hq0
        exact hc (Nat.lt_one_iff.mp (Nat.lt_of_not_le hq0))
      have hne : ¬((i - n) / n = n - 1) := by
        generalize hq : i / n = q at hdv hq1 hqlt
        generalize hp : (i - n) / n = p at hdv ⊢
        omega
      show (if (i - n) / n = n - 1 then none else some (i - n + n)) = some i
      rw [if_neg hne, Nat.sub_add_cancel hni]
  | 1, _ =>
    simp only [specNeighbor] at h
    split at h
    · cases h
    · rename_i hc
      simp only [Option.some.injEq] at h
      subst h
      obtain ⟨_, hmd⟩ := grid_succ n i hn hc
      have hrlt : i % n < n := Nat.mod_lt i hn
      have hne : ¬((i + 1) % n = 0) := by
        generalize hr : i % n = r at hmd hrlt
        generalize hp : (i + 1) % n = p at hmd ⊢
        omega
      show (if (i + 1) % n = 0 then none else some (i + 1 - 1)) = some i
      rw [if_neg hne, Nat.add_sub_cancel]
  | 2, _ =>
    simp only [specNeighbor] at h
    split at h
    · cases h
    · rename_i hc
      simp only [Option.some.injEq] at h
      subst h
      obtain ⟨hdv, _⟩ := grid_add_n n i hn
      have hne : ¬((i + n) / n = 0) := by
        generalize hq : i / n = q at hdv
        generalize hp : (i + n) / n = p at hdv ⊢
        omega
      show (if (i + n) / n = 0 then none else some (i + n - n)) = some i
      rw [if_neg hne, Nat.add_sub_cancel]
  | 3, _ =>
    simp only [specNeighbor] at h
    split at h
    · cases h
    · rename_i hc
      simp only [Option.some.injEq] at h
      subst h
      obtain ⟨hi1, _, hmd⟩ := grid_pred n i hn hc
      have hrlt : i % n < n := Nat.mod_lt i hn
      have hne : ¬((i - 1) % n = n - 1) := by
        generalize hr : i % n = r at hmd hc hrlt
        generalize hp : (i - 1) % n = p at hmd ⊢
        omega
      show (if (i - 1) % n = n - 1 then none else some (i - 1 + 1)) = some i
      rw [if_neg hne, Nat.sub_add_cancel hi1]

theorem grid_pred_zero (n i : Nat) (hn : 0 < n) (hi1 : 1 ≤ i) (h : i % n = 0) :
    (i - 1) % n = n - 1 := by
  have hvm := Nat.div_add_mod i n
  have hq1 : 1 ≤ i / n := by
    by_contra hq0
    have hq : i / n = 0 := Nat.lt_one_iff.mp (Nat.lt_of_not_le hq0)
    rw [hq, Nat.mul_zero, Nat.zero_add] at hvm
    omega
  have h1 : i - 1 = n * (i / n - 1) + (n - 1) := by
    have hmul : n * (i / n) = n * (i / n - 1) + n := by
      have h2 : i / n - 1 + 1 = i / n := by omega
      calc n * (i / n) = n * (i / n - 1 + 1) := by rw [h2]
        _ = n * (i / n - 1) + n := by rw [Nat.mul_add, Nat.mul_one]
    omega
  rw [h1, Nat.mul_add_mod, Nat.mod_eq_of_lt (by omega)]

/-- findAdj agrees with specNeighbor, with -1 for a missing neighbor. -/
theorem findAdj_eq_spec (n i : Nat) (hn : 0 < n) (hi : i < n * n) :
    ∀ d, d < 4 →
    (findAdj (Int.ofNat i) (Int.ofNat n)).get d =
      (match specNeighbor n i d with
       | none => (-1 : Int)
       | some j => Int.ofNat j) := by
  intro d hd
  match d, hd with
  | 0, _ =>
    by_cases hc : i / n = 0
    · have hspec : specNeighbor n i 0 = none := by simp [specNeighbor, hc]
      rw [hspec]
      show (if Int.ofNat i - Int.ofNat n < 0 then (-1 : Int)
        else Int.ofNat i - Int.ofNat n) = (-1 : Int)
      have hlt : i < n := (grid_div_zero_iff n i hn).mp hc
      have hyes : Int.ofNat i - Int.ofNat n < 0 := by
        simp only [Int.ofNat_eq_natCast]
        omega
      rw [if_pos hyes]
    · have hni : n ≤ i := by
        by_contra hlt
        exact hc ((grid_div_zero_iff n i hn).mpr (Nat.lt_of_not_le hlt))
      have hspec : specNeighbor n i 0 = some (i - n) := by simp [specNeighbor, hc]
      rw [hspec]
      show (if Int.ofNat i - Int.ofNat n < 0 then (-1 : Int)
        else Int.ofNat i - Int.ofNat n) = Int.ofNat (i - n)
      have hno : ¬(Int.ofNat i - Int.ofNat n < 0) := by
        simp only [Int.ofNat_eq_natCast]
        omega
      rw [if_neg hno]
      simp only [Int.ofNat_eq_natCast]
      omega
  | 1, _ =>
    have hcast : Int.ofNat i + 1 = Int.ofNat (i + 1) := by
      simp only [Int.ofNat_eq_natCast]
      omega
    have htm : (Int.ofNat (i + 1)).tmod (Int.ofNat n) = Int.ofNat ((i + 1) % n) := by
      rw [Int.ofNat_eq_natCast, Int.ofNat_eq_natCast, Int.ofNat_eq_natCast]
      exact (Int.ofNat_tmod (i + 1) n).symm
    by_cases hc : i % n = n - 1
    · have hspec : specNeighbor n i 1 = none := by simp [specNeighbor, hc]
      rw [hspec]
      show (if ((Int.ofNat i + 1).tmod (Int.ofNat n) == 0) = true then (-1 : Int)
        else Int.ofNat i + 1) = (-1 : Int)
      have hz : (i + 1) % n = 0 := (grid_mod_last_iff n i hn).mp hc
      rw [if_pos]
      rw [hcast, htm, hz]
      rfl
    · have hspec : specNeighbor n i 1 = some (i + 1) := by simp [specNeighbor, hc]
      rw [hspec]
      show (if ((Int.ofNat i + 1).tmod (Int.ofNat n) == 0) = true then (-1 : Int)
        else Int.ofNat i + 1) = Int.ofNat (i + 1)
      have hnz : (i + 1) % n ≠ 0 := fun hz => hc ((grid_mod_last_iff n i hn).mpr hz)
      have hno : ¬((((Int.ofNat i + 1).tmod (Int.ofNat n)) == 0) = true) := by
        rw [hcast, htm]
        simp only [beq_iff_eq, Int.ofNat_eq_natCast]
        omega
      rw [if_neg hno]
      exact hcast
  | 2, _ =>
    by_cases hc : i / n = n - 1
    · have hspec : specNeighbor n i 2 = none := by simp [specNeighbor, hc]
      rw [hspec]
      show (if Int.ofNat i + Int.ofNat n ≥ Int.ofNat n * Int.ofNat n then (-1 : Int)
        else Int.ofNat i + Int.ofNat n) = (-1 : Int)
      have hge : n * n ≤ i + n := (grid_div_last_iff n i hn hi).mp hc
      have hyes : Int.ofNat i + Int.ofNat n ≥ Int.ofNat n * Int.ofNat n := by
        simp only [Int.ofNat_eq_natCast]
        exact_mod_cast hge
      rw [if_pos hyes]
    · have hspec : specNeighbor n i 2 = some (i + n) := by simp [specNeighbor, hc]
      rw [hspec]
      show (if Int.ofNat i + Int.ofNat n ≥ Int.ofNat n * Int.ofNat n then (-1 : Int)
        else Int.ofNat i + Int.ofNat n) = Int.ofNat (i + n)
      have hlt : ¬(n * n ≤ i + n) := fun hge => hc ((grid_div_last_iff n i hn hi).mpr hge)
      have hno : ¬(Int.ofNat i + Int.ofNat n ≥ Int.ofNat n * Int.ofNat n) := by
        intro hcon
        apply hlt
        simp only [Int.ofNat_eq_natCast] at hcon
        exact_mod_cast hcon
      rw [if_neg hno]
      simp only [Int.ofNat_eq_natCast]
      omega
  | 3, _ =>
    rcases Nat.eq_zero_or_pos i with hi0 | hi1
    · subst hi0
      have hspec : specNeighbor n 0 3 = none := by simp [specNeighbor]
      rw [hspec]
      show (if (((Int.ofNat 0 - 1).tmod (Int.ofNat n)) == Int.ofNat n - 1) = true
        then (-1 : Int) else Int.ofNat 0 - 1) = (-1 : Int)
      split
      · rfl
      · rfl
    · have hcast : Int.ofNat i - 1 = Int.ofNat (i - 1) := by
        simp only [Int.ofNat_eq_natCast]
        omega
      have htm : (Int.ofNat (i - 1)).tmod (Int.ofNat n) = Int.ofNat ((i - 1) % n) := by
        rw [Int.ofNat_eq_natCast, Int.ofNat_eq_natCast, Int.ofNat_eq_natCast]
        exact (Int.ofNat_tmod (i - 1) n).symm
      by_cases hc : i % n = 0
      · have hspec : specNeighbor n i 3 = none := by simp [specNeighbor, hc]
        rw [hspec]
        show (if (((Int.ofNat i - 1).tmod (Int.ofNat n)) == Int.ofNat n - 1) = true
          then (-1 : Int) else Int.ofNat i - 1) = (-1 : Int)
        have hm : (i - 1) % n = n - 1 := grid_pred_zero n i hn hi1 hc
        rw [if_pos]
        rw [hcast, htm, hm]
        simp only [beq_iff_eq, Int.ofNat_eq_natCast]
        omega
      · have hspec : specNeighbor n i 3 = some (i - 1) := by simp [specNeighbor, hc]
        rw [hspec]
        show (if (((Int.ofNat i - 1).tmod (Int.ofNat n)) == Int.ofNat n - 1) = true
          then (-1 : Int) else Int.ofNat i - 1) = Int.ofNat (i - 1)
        obtain ⟨_, _, hmd⟩ := grid_pred n i hn hc
        have hrlt : i % n < n := Nat.mod_lt i hn
        have hno : ¬((((Int.ofNat i - 1).tmod (Int.ofNat n)) == Int.ofNat n - 1) = true) := by
          rw [hcast, htm]
          simp only [beq_iff_eq, Int.ofNat_eq_natCast]
          have : (i - 1) % n = i % n - 1 := hmd
          generalize hr : i % n = r at this hc hrlt
          generalize hp : (i - 1) % n = p at this
          omega
        rw [if_neg hno]
        exact hcast

theorem checkConnections_get (c : PipeType) (adj : Dir4 (Option PipeType))
    (d : Nat) (hd : d < 4) :
    (checkConnections c adj).get d =
      (c.get d &&
        (match adj.get d with
         | none => false
         | some adjPipe => adjPipe.get ((d + 2) % 4))) := by
  match d, hd with
  | 0, _ => rfl
  | 1, _ => rfl
  | 2, _ => rfl
  | 3, _ => rfl

theorem adjPipes_get (a : Assignment) (idx : Dir4 Int) (d : Nat) (hd : d < 4) :
    (adjPipes a idx).get d =
      (if (idx.get d != -1) = true then some (a.getD (idx.get d).toNat default)
       else none) := by
  match d, hd with
  | 0, _ => rfl
  | 1, _ => rfl
  | 2, _ => rfl
  | 3, _ => rfl

theorem ofNat_bne_neg_one (j : Nat) : (Int.ofNat j != -1) = true := by
  rw [bne_iff_ne]
  simp only [Int.ofNat_eq_natCast]
  omega

/-- The code-side connection test agrees with the specification edge. -/
theorem conn_get_iff (n : Nat) (a : Assignment) (i : Nat) (hn : 0 < n)
    (hi : i < n * n) (d : Nat) (hd : d < 4) :
    ((checkConnections (a.getD i default)
        (adjPipes a (findAdj (Int.ofNat i) (Int.ofNat n)))).get d = true) ↔
    (∃ j, specNeighbor n i d = some j ∧ (a.getD i default).get d = true ∧
      (a.getD j default).get ((d + 2) % 4) = true) := by
  have hfa := findAdj_eq_spec n i hn hi d hd
  rw [checkConnections_get _ _ d hd, adjPipes_get _ _ d hd, hfa]
  cases hsn : specNeighbor n i d with
  | none =>
    simp only
    constructor
    · intro h
      simp only [show ((-1 : Int) != -1) = false from rfl, Bool.false_eq_true, if_false,
        Bool.and_eq_true] at h
      cases h.2
    · rintro ⟨j2, hj2, _, _⟩
      cases hj2
  | some j =>
    simp only
    rw [if_pos (ofNat_bne_neg_one j), Int.ofNat_eq_natCast, Int.toNat_ofNat]
    constructor
    · intro h
      simp only [Bool.and_eq_true] at h
      exact ⟨j, rfl, h.1, h.2⟩
    · rintro ⟨j2, hj2, h1, h2⟩
      simp only [Option.some.injEq] at hj2
      subst hj2
      simp only [Bool.and_eq_true]
      exact ⟨h1, h2⟩

theorem specConn_symm (n : Nat) (a : Assignment) (i j : Nat) (hi : i < n * n)
    (h : specConn n a i j) : specConn n a j i := by
  obtain ⟨d, hd, hsn, h1, h2⟩ := h
  refine ⟨(d + 2) % 4, by omega, specNeighbor_symm n i d j hi hd hsn, h2, ?_⟩
  have hdd : ((d + 2) % 4 + 2) % 4 = d := by omega
  rw [hdd]
  exact h1

theorem specConn_ne (n : Nat) (a : Assignment) (i j : Nat)
    (h : specConn n a i j) : i ≠ j := by
  obtain ⟨d, hd, hsn, _, _⟩ := h
  intro hij
  subst hij
  exact specNeighbor_ne_self n i d hsn

/-- The adjacency of the connection graph is exactly a confirmed connection. -/
theorem pipesGraph_adj (n : Nat) (a : Assignment) (v w : Fin (n * n)) :
    (pipesGraph n a).Adj v w ↔ specConn n a v.val w.val := by
  rw [pipesGraph, SimpleGraph.fromRel_adj]
  constructor
  · rintro ⟨hne, h | h⟩
    · exact h
    · exact specConn_symm n a w.val v.val w.isLt h
  · intro h
    refine ⟨?_, Or.inl h⟩
    intro hvw
    exact specConn_ne n a v.val w.val h (by rw [hvw])

theorem sqrt_sq (n : Nat) : Nat.sqrt (n * n) = n := by
  have h := Nat.sqrt_eq' n
  rwa [pow_two] at h

theorem specConn_lt (n : Nat) (a : Assignment) (i j : Nat) (hi : i < n * n)
    (h : specConn n a i j) : j < n * n := by
  obtain ⟨d, _, hsn, _, _⟩ := h
  exact specNeighbor_lt n i d j hi hsn

theorem specReach_lt (n : Nat) (a : Assignment) (i j : Nat) (hi : i < n * n)
    (h : specReach n a i j) : j < n * n := by
  induction h with
  | refl => exact hi
  | tail hab hbc ih => exact specConn_lt n a _ _ ih hbc

theorem specReach_symm (n : Nat) (a : Assignment) (i j : Nat) (hi : i < n * n)
    (h : specReach n a i j) : specReach n a j i := by
  induction h with
  | refl => exact Relation.ReflTransGen.refl
  | tail hab hbc ih =>
    rename_i b c
    have hb : b < n * n := specReach_lt n a i b hi hab
    exact Relation.ReflTransGen.head (specConn_symm n a b c hb hbc) ih

theorem specReach_to_reachable (n : Nat) (a : Assignment) (x y : Nat)
    (hx : x < n * n) (h : specReach n a x y) :
    ∀ hy : y < n * n, (pipesGraph n a).Reachable ⟨x, hx⟩ ⟨y, hy⟩ := by
  induction h with
  | refl => intro hy; exact SimpleGraph.Reachable.refl _
  | tail hab hbc ih =>
    rename_i b c
    intro hy
    have hb : b < n * n := specReach_lt n a x b hx hab
    exact SimpleGraph.Reachable.trans (ih hb)
      (SimpleGraph.Adj.reachable ((pipesGraph_adj n a ⟨b, hb⟩ ⟨c, hy⟩).mpr hbc))

theorem reachable_to_specReach (n : Nat) (a : Assignment) (v w : Fin (n * n))
    (h : (pipesGraph n a).Reachable v w) : specReach n a v.val w.val := by
  obtain ⟨p⟩ := h
  induction p with
  | nil => exact Relation.ReflTransGen.refl
  | cons hadj ptail ih =>
    rename_i u x y
    exact Relation.ReflTransGen.head ((pipesGraph_adj n a u x).mp hadj) ih

/-- Distinct directions reach distinct neighbors. -/
theorem specNeighbor_inj_dir (n i j d1 d2 : Nat) (hn : 0 < n) (hd1 : d1 < 4)
    (hd2 : d2 < 4) (h1 : specNeighbor n i d1 = some j)
    (h2 : specNeighbor n i d2 = some j) : d1 = d2 := by
  have extract : ∀ d, d < 4 → specNeighbor n i d = some j →
      (d = 0 ∧ n ≤ i ∧ j = i - n) ∨ (d = 1 ∧ i % n ≠ n - 1 ∧ j = i + 1) ∨
      (d = 2 ∧ j = i + n) ∨ (d = 3 ∧ i % n ≠ 0 ∧ 1 ≤ i ∧ j = i - 1) := by
    intro d hd h
    match d, hd with
    | 0, _ =>
      simp only [specNeighbor] at h
      split at h
      · cases h
      · rename_i hc
        simp only [Option.some.injEq] at h
        refine Or.inl ⟨rfl, ?_, h.symm⟩
        by_contra hlt
        exact hc ((grid_div_zero_iff n i hn).mpr (Nat.lt_of_not_le hlt))
    | 1, _ =>
      simp only [specNeighbor] at h
      split at h
      · cases h
      · rename_i hc
        simp only [Option.some.injEq] at h
        exact Or.inr (Or.inl ⟨rfl, hc, h.symm⟩)
    | 2, _ =>
      simp only [specNeighbor] at h
      split at h
      · cases h
      · simp only [Option.some.injEq] at h
        exact Or.inr (Or.inr (Or.inl ⟨rfl, h.symm⟩))
    | 3, _ =>
      simp only [specNeighbor] at h
      split at h
      · cases h
      · rename_i hc
        simp only [Option.some.injEq] at h
        have hi1 : 1 ≤ i := by
          by_contra h0
          have : i = 0 := by omega
          subst this
          exact hc (Nat.zero_mod n)
        exact Or.inr (Or.inr (Or.inr ⟨rfl, hc, hi1, h.symm⟩))
  have e1 := extract d1 hd1 h1
  have e2 := extract d2 hd2 h2
  rcases e1 with ⟨hq1, hni, hj1⟩ | ⟨hq1, hm1, hj1⟩ | ⟨hq1, hj1⟩ | ⟨hq1, hm1, hone1, hj1⟩ <;>
    rcases e2 with ⟨hq2, hni2, hj2⟩ | ⟨hq2, hm2, hj2⟩ | ⟨hq2, hj2⟩ | ⟨hq2, hm2, hone2, hj2⟩ <;>
    subst hq1 <;> subst hq2 <;> try rfl
  all_goals (exfalso)
  · omega
  · omega
  · -- d1 = 0, d2 = 3 : i - n = i - 1 forces n = 1, then i % 1 = 0
    have hn1 : n = 1 := by omega
    subst hn1
    exact hm2 (Nat.mod_one i)
  · omega
  · -- d1 = 1, d2 = 2 : i + 1 = i + n forces n = 1, then i % 1 = 0 = n - 1
    have hn1 : n = 1 := by omega
    subst hn1
    exact hm1 (Nat.mod_one i)
  · omega
  · omega
  · -- d1 = 2, d2 = 1 : symmetric to the above
    have hn1 : n = 1 := by omega
    subst hn1
    exact hm2 (Nat.mod_one i)
  · omega
  · -- d1 = 3, d2 = 0 : symmetric
    have hn1 : n = 1 := by omega
    subst hn1
    exact hm1 (Nat.mod_one i)
  · omega
  · omega

/-! ### The connected validator visits exactly the component of the root -/

theorem dftF_succ (fuel : Nat) (pipes : Assignment) (loc : Nat) (visited : List Nat) :
    dftF (fuel + 1) pipes loc visited =
      [0, 1, 2, 3].foldl
        (fun acc i =>
          match acc with
          | none => none
          | some vis =>
            if (checkConnections (pipes.getD loc default)
                  (adjPipes pipes
                    (findAdj (Int.ofNat loc) (Int.ofNat (Nat.sqrt pipes.length))))).get i &&
                !(vis.contains
                  ((findAdj (Int.ofNat loc) (Int.ofNat (Nat.sqrt pipes.length))).get i).toNat) then
              dftF fuel pipes
                ((findAdj (Int.ofNat loc) (Int.ofNat (Nat.sqrt pipes.length))).get i).toNat vis
            else some vis)
        (some (visited ++ [loc])) := rfl

theorem dft_fold_none (step : Option (List Nat) → Nat → Option (List Nat))
    (hstep : ∀ d, step none d = none) :
    ∀ ds : List Nat, List.foldl step none ds = none := by
  intro ds
  induction ds with
  | nil => rfl
  | cons d ds ih =>
    show List.foldl step (step none d) ds = none
    rw [hstep d]
    exact ih

theorem mem_dirs_of_lt (d : Nat) (hd : d < 4) : d ∈ [0, 1, 2, 3] := by
  simp only [List.mem_cons, List.mem_singleton]
  omega

/-- What one dft call guarantees: the visited list grows by the new cell and
a set of cells reachable from it, stays duplicate-free and on the grid, and
every newly visited cell has all its confirmed connections visited. -/
theorem dftF_spec (n : Nat) (a : Assignment) (hn : 0 < n) (ha : a.length = n * n) :
    ∀ (fuel : Nat) (loc : Nat) (visited out : List Nat),
    dftF fuel a loc visited = some out →
    loc < n * n → loc ∉ visited → visited.Nodup → (∀ v ∈ visited, v < n * n) →
    List.IsPrefix (visited ++ [loc]) out ∧ out.Nodup ∧ (∀ v ∈ out, v < n * n) ∧
    (∀ v ∈ out, v ∉ visited → specReach n a loc v) ∧
    (∀ v ∈ out, v ∉ visited → ∀ j, specConn n a v j → j ∈ out) := by
  intro fuel
  induction fuel with
  | zero =>
    intro loc visited out h _ _ _ _
    cases h
  | succ fuel ih =>
    intro loc visited out h hloc hnin hnd hb
    rw [dftF_succ] at h
    have hsq : Nat.sqrt a.length = n := by rw [ha]; exact sqrt_sq n
    rw [hsq] at h
    have hfold : ∀ (ds : List Nat), (∀ d ∈ ds, d < 4) → ∀ (vis out2 : List Nat),
        List.foldl
          (fun acc i =>
            match acc with
            | none => none
            | some vis =>
              if (checkConnections (a.getD loc default)
                    (adjPipes a (findAdj (Int.ofNat loc) (Int.ofNat n)))).get i &&
                  !(vis.contains ((findAdj (Int.ofNat loc) (Int.ofNat n)).get i).toNat) then
                dftF fuel a ((findAdj (Int.ofNat loc) (Int.ofNat n)).get i).toNat vis
              else some vis)
          (some vis) ds = some out2 →
        List.IsPrefix (visited ++ [loc]) vis → vis.Nodup → (∀ v ∈ vis, v < n * n) →
        (∀ v ∈ vis, v ∉ visited → specReach n a loc v) →
        (∀ v ∈ vis, v ∉ visited → v ≠ loc → ∀ j, specConn n a v j → j ∈ vis) →
        List.IsPrefix vis out2 ∧ out2.Nodup ∧ (∀ v ∈ out2, v < n * n) ∧
        (∀ v ∈ out2, v ∉ visited → specReach n a loc v) ∧
        (∀ v ∈ out2, v ∉ visited → v ≠ loc → ∀ j, specConn n a v j → j ∈ out2) ∧
        (∀ d ∈ ds, ∀ j, specNeighbor n loc d = some j →
          (checkConnections (a.getD loc default)
            (adjPipes a (findAdj (Int.ofNat loc) (Int.ofNat n)))).get d = true →
          j ∈ out2) := by
      intro ds
      induction ds with
      | nil =>
        intro _ vis out2 hh hpre hnd2 hb2 hr2 hc2
        simp only [List.foldl_nil, Option.some.injEq] at hh
        subst hh
        refine ⟨List.prefix_refl _, hnd2, hb2, hr2, hc2, ?_⟩
        intro d hd
        cases hd
      | cons d ds ihds =>
        intro hds vis out2 hh hpre hnd2 hb2 hr2 hc2
        have hd4 : d < 4 := hds d (List.mem_cons_self d ds)
        have hh2 : List.foldl
            (fun acc i =>
              match acc with
              | none => none
              | some vis =>
                if (checkConnections (a.getD loc default)
                      (adjPipes a (findAdj (Int.ofNat loc) (Int.ofNat n)))).get i &&
                    !(vis.contains ((findAdj (Int.ofNat loc) (Int.ofNat n)).get i).toNat) then
                  dftF fuel a ((findAdj (Int.ofNat loc) (Int.ofNat n)).get i).toNat vis
                else some vis)
            (if (checkConnections (a.getD loc default)
                    (adjPipes a (findAdj (Int.ofNat loc) (Int.ofNat n)))).get d &&
                  !(vis.contains ((findAdj (Int.ofNat loc) (Int.ofNat n)).get d).toNat) then
                dftF fuel a ((findAdj (Int.ofNat loc) (Int.ofNat n)).get d).toNat vis
              else some vis) ds = some out2 := hh
        clear hh
        rename' hh2 => hh
        by_cases hcg : (checkConnections (a.getD loc default)
            (adjPipes a (findAdj (Int.ofNat loc) (Int.ofNat n)))).get d = true
        · obtain ⟨j, hsn, h1, h2⟩ := (conn_get_iff n a loc hn hloc d hd4).mp hcg
          have hfa := findAdj_eq_spec n loc hn hloc d hd4
          have hW : ((findAdj (Int.ofNat loc) (Int.ofNat n)).get d).toNat = j := by
            rw [hfa, hsn]
            simp only [Int.ofNat_eq_natCast, Int.toNat_ofNat]
          rw [hW] at hh
          have hedge : specConn n a loc j := ⟨d, hd4, hsn, h1, h2⟩
          by_cases hmem : j ∈ vis
          · have helem : vis.contains j = true := List.elem_eq_true_of_mem hmem
            rw [hcg, helem] at hh
            simp only [Bool.not_true, Bool.and_false, Bool.false_eq_true, if_false] at hh
            obtain ⟨ppre, pnd, pb, preach, pclo, pdir⟩ :=
              ihds (fun x hx => hds x (List.mem_cons_of_mem d hx)) vis out2 hh
                hpre hnd2 hb2 hr2 hc2
            refine ⟨ppre, pnd, pb, preach, pclo, ?_⟩
            intro d2 hd2 j2 hsn2 hcg2
            rcases List.mem_cons.mp hd2 with rfl | hd2t
            · have hj2 : j2 = j := by
                rw [hsn] at hsn2
                exact (Option.some.injEq _ _ ▸ hsn2).symm ▸ rfl
              subst hj2
              exact ppre.subset hmem
            · exact pdir d2 hd2t j2 hsn2 hcg2
          · have helem : vis.contains j = false := by
              by_contra hco
              have : vis.contains j = true := by
                cases hcv : vis.contains j with
                | true => rfl
                | false => exact absurd hcv hco
              exact hmem (List.mem_of_elem_eq_true this)
            rw [hcg, helem] at hh
            simp only [Bool.not_false, Bool.and_true, if_true] at hh
            cases hsub : dftF fuel a j vis with
            | none =>
              rw [hsub] at hh
              rw [dft_fold_none _ (fun x => rfl)] at hh
              cases hh
            | some vis2 =>
              rw [hsub] at hh
              have hjlt : j < n * n := specNeighbor_lt n loc d j hloc hsn
              obtain ⟨spre, snd, sb, sreach, sclo⟩ := ih j vis vis2 hsub hjlt hmem hnd2 hb2
              have hvpre : List.IsPrefix vis vis2 :=
                (List.prefix_append vis [j]).trans spre
              obtain ⟨ppre, pnd, pb, preach, pclo, pdir⟩ :=
                ihds (fun x hx => hds x (List.mem_cons_of_mem d hx)) vis2 out2 hh
                  (hpre.trans hvpre) snd sb
                  (by
                    intro v hv hnv
                    by_cases hvv : v ∈ vis
                    · exact hr2 v hvv hnv
                    · exact Relation.ReflTransGen.head hedge (sreach v hv hvv))
                  (by
                    intro v hv hnv hneq j2 hconn2
                    by_cases hvv : v ∈ vis
                    · exact hvpre.subset (hc2 v hvv hnv hneq j2 hconn2)
                    · exact sclo v hv hvv j2 hconn2)
              refine ⟨hvpre.trans ppre, pnd, pb, preach, pclo, ?_⟩
              intro d2 hd2 j2 hsn2 hcg2
              rcases List.mem_cons.mp hd2 with rfl | hd2t
              · have hj2 : j2 = j := by
                  rw [hsn] at hsn2
                  simp only [Option.some.injEq] at hsn2
                  exact hsn2.symm
                subst hj2
                exact ppre.subset (spre.subset (by
                  rw [List.mem_append, List.mem_singleton]
                  exact Or.inr rfl))
              · exact pdir d2 hd2t j2 hsn2 hcg2
        · have hcgf : (checkConnections (a.getD loc default)
              (adjPipes a (findAdj (Int.ofNat loc) (Int.ofNat n)))).get d = false := by
            cases hx : (checkConnections (a.getD loc default)
                (adjPipes a (findAdj (Int.ofNat loc) (Int.ofNat n)))).get d with
            | true => exact absurd hx hcg
            | false => rfl
          rw [hcgf] at hh
          simp only [Bool.false_and, Bool.false_eq_true, if_false] at hh
          obtain ⟨ppre, pnd, pb, preach, pclo, pdir⟩ :=
            ihds (fun x hx => hds x (List.mem_cons_of_mem d hx)) vis out2 hh
              hpre hnd2 hb2 hr2 hc2
          refine ⟨ppre, pnd, pb, preach, pclo, ?_⟩
          intro d2 hd2 j2 hsn2 hcg2
          rcases List.mem_cons.mp hd2 with rfl | hd2t
          · exact absurd hcg2 hcg
          · exact pdir d2 hd2t j2 hsn2 hcg2
    obtain ⟨fpre, fnd, fb, freach, fclo, fdir⟩ := hfold [0, 1, 2, 3]
      (by decide)
      (visited ++ [loc]) out h (List.prefix_refl _)
      (by
        rw [List.nodup_append]
        exact ⟨hnd, List.nodup_singleton loc, by
          intro x hx hx2
          rw [List.mem_singleton] at hx2
          subst hx2
          exact hnin hx⟩)
      (by
        intro v hv
        rw [List.mem_append, List.mem_singleton] at hv
        rcases hv with hv | rfl
        · exact hb v hv
        · exact hloc)
      (by
        intro v hv hnv
        rw [List.mem_append, List.mem_singleton] at hv
        rcases hv with hv | rfl
        · exact absurd hv hnv
        · exact Relation.ReflTransGen.refl)
      (by
        intro v hv hnv hneq j hconn
        rw [List.mem_append, List.mem_singleton] at hv
        rcases hv with hv | rfl
        · exact absurd hv hnv
        · exact absurd rfl hneq)
    refine ⟨fpre, fnd, fb, freach, ?_⟩
    intro v hv hnv j hconn
    by_cases hveq : v = loc
    · subst hveq
      obtain ⟨d, hd4, hsn, h1, h2⟩ := hconn
      exact fdir d (mem_dirs_of_lt d hd4) j hsn
        ((conn_get_iff n a v hn hloc d hd4).mpr ⟨j, hsn, h1, h2⟩)
    · exact fclo v hv hnv hveq j hconn

theorem nodup_bounded_length_le (l : List Nat) (m : Nat) (hnd : l.Nodup)
    (hb : ∀ v ∈ l, v < m) : l.length ≤ m := by
  classical
  have h1 : l.toFinset.card = l.length := List.toFinset_card_of_nodup hnd
  have h2 : l.toFinset ⊆ Finset.range m := by
    intro x hx
    rw [List.mem_toFinset] at hx
    rw [Finset.mem_range]
    exact hb x hx
  have h3 := Finset.card_le_card h2
  rw [h1, Finset.card_range] at h3
  exact h3

/-- With fuel exceeding the number of unvisited cells, dft cannot run out. -/
theorem dftF_some (n : Nat) (a : Assignment) (hn : 0 < n) (ha : a.length = n * n) :
    ∀ (fuel : Nat) (loc : Nat) (visited : List Nat),
    loc < n * n → loc ∉ visited → visited.Nodup → (∀ v ∈ visited, v < n * n) →
    n * n + 1 ≤ fuel + visited.length →
    ∃ out, dftF fuel a loc visited = some out := by
  intro fuel
  induction fuel with
  | zero =>
    intro loc visited hloc hnin hnd hb hC
    exfalso
    have := nodup_bounded_length_le visited (n * n) hnd hb
    omega
  | succ fuel ih =>
    intro loc visited hloc hnin hnd hb hC
    rw [dftF_succ]
    have hsq : Nat.sqrt a.length = n := by rw [ha]; exact sqrt_sq n
    rw [hsq]
    have hnd0 : (visited ++ [loc]).Nodup := by
      rw [List.nodup_append]
      exact ⟨hnd, List.nodup_singleton loc, by
        intro x hx hx2
        rw [List.mem_singleton] at hx2
        subst hx2
        exact hnin hx⟩
    have hb0 : ∀ v ∈ visited ++ [loc], v < n * n := by
      intro v hv
      rw [List.mem_append, List.mem_singleton] at hv
      rcases hv with hv | rfl
      · exact hb v hv
      · exact hloc
    have hfold : ∀ (ds : List Nat), (∀ d ∈ ds, d < 4) → ∀ (vis : List Nat),
        vis.Nodup → (∀ v ∈ vis, v < n * n) → n * n + 1 ≤ fuel + vis.length →
        ∃ out2, List.foldl
          (fun acc i =>
            match acc with
            | none => none
            | some vis =>
              if (checkConnections (a.getD loc default)
                    (adjPipes a (findAdj (Int.ofNat loc) (Int.ofNat n)))).get i &&
                  !(vis.contains ((findAdj (Int.ofNat loc) (Int.ofNat n)).get i).toNat) then
                dftF fuel a ((findAdj (Int.ofNat loc) (Int.ofNat n)).get i).toNat vis
              else some vis)
          (some vis) ds = some out2 := by
      intro ds
      induction ds with
      | nil =>
        intro _ vis _ _ _
        exact ⟨vis, rfl⟩
      | cons d ds ihds =>
        intro hds vis hnd2 hb2 hC2
        have hd4 : d < 4 := hds d (List.mem_cons_self d ds)
        by_cases hcg : (checkConnections (a.getD loc default)
            (adjPipes a (findAdj (Int.ofNat loc) (Int.ofNat n)))).get d = true
        · obtain ⟨j, hsn, h1, h2⟩ := (conn_get_iff n a loc hn hloc d hd4).mp hcg
          have hfa := findAdj_eq_spec n loc hn hloc d hd4
          have hW : ((findAdj (Int.ofNat loc) (Int.ofNat n)).get d).toNat = j := by
            rw [hfa, hsn]
            simp only [Int.ofNat_eq_natCast, Int.toNat_ofNat]
          by_cases hmem : j ∈ vis
          · have helem : vis.contains j = true := List.elem_eq_true_of_mem hmem
            obtain ⟨out2, hout2⟩ := ihds (fun x hx => hds x (List.mem_cons_of_mem d hx))
              vis hnd2 hb2 hC2
            refine ⟨out2, ?_⟩
            show List.foldl _
              (if (checkConnections (a.getD loc default)
                    (adjPipes a (findAdj (Int.ofNat loc) (Int.ofNat n)))).get d &&
                  !(vis.contains ((findAdj (Int.ofNat loc) (Int.ofNat n)).get d).toNat) then
                dftF fuel a ((findAdj (Int.ofNat loc) (Int.ofNat n)).get d).toNat vis
              else some vis) ds = some out2
            rw [hW, hcg, helem]
            simp only [Bool.not_true, Bool.and_false, Bool.false_eq_true, if_false]
            exact hout2
          · have helem : vis.contains j = false := by
              cases hcv : vis.contains j with
              | true => exact absurd (List.mem_of_elem_eq_true hcv) hmem
              | false => rfl
            have hjlt : j < n * n := specNeighbor_lt n loc d j hloc hsn
            obtain ⟨vis2, hvis2⟩ := ih j vis hjlt hmem hnd2 hb2 (by omega)
            obtain ⟨spre, snd, sb, _, _⟩ :=
              dftF_spec n a hn ha fuel j vis vis2 hvis2 hjlt hmem hnd2 hb2
            have hlen2 : vis.length + 1 ≤ vis2.length := by
              have := spre.length_le
              rw [List.length_append, List.length_singleton] at this
              omega
            obtain ⟨out2, hout2⟩ := ihds (fun x hx => hds x (List.mem_cons_of_mem d hx))
              vis2 snd sb (by omega)
            refine ⟨out2, ?_⟩
            show List.foldl _
              (if (checkConnections (a.getD loc default)
                    (adjPipes a (findAdj (Int.ofNat loc) (Int.ofNat n)))).get d &&
                  !(vis.contains ((findAdj (Int.ofNat loc) (Int.ofNat n)).get d).toNat) then
                dftF fuel a ((findAdj (Int.ofNat loc) (Int.ofNat n)).get d).toNat vis
              else some vis) ds = some out2
            rw [hW, hcg, helem]
            simp only [Bool.not_false, Bool.and_true, if_true]
            rw [hvis2]
            exact hout2
        · have hcgf : (checkConnections (a.getD loc default)
              (adjPipes a (findAdj (Int.ofNat loc) (Int.ofNat n)))).get d = false := by
            cases hx : (checkConnections (a.getD loc default)
                (adjPipes a (findAdj (Int.ofNat loc) (Int.ofNat n)))).get d with
            | true => exact absurd hx hcg
            | false => rfl
          obtain ⟨out2, hout2⟩ := ihds (fun x hx => hds x (List.mem_cons_of_mem d hx))
            vis hnd2 hb2 hC2
          refine ⟨out2, ?_⟩
          show List.foldl _
            (if (checkConnections (a.getD loc default)
                  (adjPipes a (findAdj (Int.ofNat loc) (Int.ofNat n)))).get d &&
                !(vis.contains ((findAdj (Int.ofNat loc) (Int.ofNat n)).get d).toNat) then
              dftF fuel a ((findAdj (Int.ofNat loc) (Int.ofNat n)).get d).toNat vis
            else some vis) ds = some out2
          rw [hcgf]
          simp only [Bool.false_and, Bool.false_eq_true, if_false]
          exact hout2
    apply hfold [0, 1, 2, 3] (by decide) (visited ++ [loc]) hnd0 hb0
    rw [List.length_append, List.length_singleton]
    omega

/-- The connected validator decides connectivity of the connection graph. -/
theorem connectedValidator_iff_connected (n : Nat) (a : Assignment) (hn : 0 < n)
    (ha : a.length = n * n) :
    connectedValidator a = true ↔ (pipesGraph n a).Connected := by
  have hpos : 0 < n * n := Nat.mul_pos hn hn
  constructor
  · intro hval
    unfold connectedValidator at hval
    cases hrun : dftF (a.length + 1) a 0 [] with
    | none =>
      rw [hrun] at hval
      simp only [Option.getD_none, List.length_nil, beq_iff_eq] at hval
      rw [ha] at hval
      omega
    | some out =>
      rw [hrun] at hval
      simp only [Option.getD_some, beq_iff_eq] at hval
      rw [ha] at hval
      obtain ⟨fpre, fnd, fb, freach, _⟩ :=
        dftF_spec n a hn ha (a.length + 1) 0 [] out hrun hpos (List.not_mem_nil 0)
          List.nodup_nil (by intro v hv; cases hv)
      have hall : ∀ x, x < n * n → x ∈ out := by
        intro x hx
        have h1 : out.toFinset.card = out.length := List.toFinset_card_of_nodup fnd
        have h2 : out.toFinset ⊆ Finset.range (n * n) := by
          intro y hy
          rw [List.mem_toFinset] at hy
          rw [Finset.mem_range]
          exact fb y hy
        have h3 : out.toFinset = Finset.range (n * n) := by
          apply Finset.eq_of_subset_of_card_le h2
          rw [h1, hval, Finset.card_range]
        have : x ∈ out.toFinset := by
          rw [h3, Finset.mem_range]
          exact hx
        rwa [List.mem_toFinset] at this
      rw [SimpleGraph.connected_iff]
      refine ⟨?_, ⟨⟨0, hpos⟩⟩⟩
      intro v w
      have hv : specReach n a 0 v.val := freach v.val (hall v.val v.isLt) (List.not_mem_nil _)
      have hw : specReach n a 0 w.val := freach w.val (hall w.val w.isLt) (List.not_mem_nil _)
      have hrv := specReach_to_reachable n a 0 v.val hpos hv v.isLt
      have hrw := specReach_to_reachable n a 0 w.val hpos hw w.isLt
      have : (⟨0, hpos⟩ : Fin (n * n)) = ⟨0, hpos⟩ := rfl
      exact SimpleGraph.Reachable.trans (SimpleGraph.Reachable.symm (by exact hrv))
        (by exact hrw)
  · intro hconn
    obtain ⟨out, hrun⟩ := dftF_some n a hn ha (a.length + 1) 0 [] hpos
      (List.not_mem_nil 0) List.nodup_nil (by intro v hv; cases hv)
      (by rw [List.length_nil, ha])
    obtain ⟨fpre, fnd, fb, _, fclo⟩ :=
      dftF_spec n a hn ha (a.length + 1) 0 [] out hrun hpos (List.not_mem_nil 0)
        List.nodup_nil (by intro v hv; cases hv)
    have h0mem : 0 ∈ out := fpre.subset (by
      rw [List.nil_append, List.mem_singleton])
    have hcomp : ∀ x, specReach n a 0 x → x ∈ out := by
      intro x hx
      induction hx with
      | refl => exact h0mem
      | tail hab hbc ihx =>
        rename_i b c
        exact fclo b ihx (List.not_mem_nil b) c hbc
    have hall : ∀ x, x < n * n → x ∈ out := by
      intro x hx
      apply hcomp
      have hr : (pipesGraph n a).Reachable ⟨0, hpos⟩ ⟨x, hx⟩ :=
        hconn.preconnected ⟨0, hpos⟩ ⟨x, hx⟩
      exact reachable_to_specReach n a ⟨0, hpos⟩ ⟨x, hx⟩ hr
    have hlen : out.length = n * n := by
      have hle : out.length ≤ n * n := nodup_bounded_length_le out (n * n) fnd fb
      have hge : n * n ≤ out.length := by
        have h1 : out.toFinset.card = out.length := List.toFinset_card_of_nodup fnd
        have h2 : Finset.range (n * n) ⊆ out.toFinset := by
          intro y hy
          rw [Finset.mem_range] at hy
          rw [List.mem_toFinset]
          exact hall y hy
        have h3 := Finset.card_le_card h2
        rw [h1, Finset.card_range] at h3
        exact h3
      omega
    unfold connectedValidator
    rw [hrun]
    simp only [Option.getD_some, beq_iff_eq]
    rw [hlen, ha]

/-! ### The no-cycles validator and the component of cell 0 -/

theorem assoc_key_unique :
    ∀ (l : List (Nat × Nat)) (k v1 v2 : Nat), (l.map Prod.fst).Nodup →
    (k, v1) ∈ l → (k, v2) ∈ l → v1 = v2 := by
  intro l
  induction l with
  | nil =>
    intro k v1 v2 _ h1 _
    cases h1
  | cons e rest ih =>
    intro k v1 v2 hnd h1 h2
    rw [List.map_cons, List.nodup_cons] at hnd
    rcases List.mem_cons.mp h1 with rfl | h1t
    · rcases List.mem_cons.mp h2 with he | h2t
      · have := he.symm
        rw [Prod.mk.injEq] at this
        exact this.2
      · exfalso
        exact hnd.1 (List.mem_map.mpr ⟨(k, v2), h2t, rfl⟩)
    · rcases List.mem_cons.mp h2 with he | h2t
      · exfalso
        have hk : e.1 = k := by rw [← he]
        exact hnd.1 (hk ▸ List.mem_map.mpr ⟨(k, v1), h1t, rfl⟩)
      · exact ih k v1 v2 hnd.2 h1t h2t

theorem parLinked_spec (n : Nat) (a : Assignment) (root : Nat)
    (visited : List Nat) (par : List (Nat × Nat))
    (hinv : DfsInv n a root visited par) (x y : Nat) (h : parLinked par x y) :
    specConn n a x y ∧ x ∈ visited ∧ y ∈ visited := by
  obtain ⟨hnd, hb, hkeys, hent, hreach⟩ := hinv
  rcases h with h | h
  · obtain ⟨hc, _, hm⟩ := hent (x, y) h
    have hx : x ∈ visited := by
      have : x ∈ par.map Prod.fst := List.mem_map.mpr ⟨(x, y), h, rfl⟩
      rw [hkeys] at this
      exact List.mem_of_mem_drop this
    exact ⟨hc, hx, hm⟩
  · obtain ⟨hc, _, hm⟩ := hent (y, x) h
    have hy : y ∈ visited := by
      have : y ∈ par.map Prod.fst := List.mem_map.mpr ⟨(y, x), h, rfl⟩
      rw [hkeys] at this
      exact List.mem_of_mem_drop this
    have hybound : y < n * n := hb y hy
    exact ⟨specConn_symm n a y x hybound hc, hm, hy⟩

theorem parReach_specReach (n : Nat) (a : Assignment) (root : Nat)
    (visited : List Nat) (par : List (Nat × Nat))
    (hinv : DfsInv n a root visited par) :
    ∀ v, parReach par root v → specReach n a root v := by
  intro v h
  induction h with
  | refl => exact Relation.ReflTransGen.refl
  | tail hab hbc ih =>
    rename_i b c
    exact Relation.ReflTransGen.tail ih (parLinked_spec n a root visited par hinv b c hbc).1

/-- Meeting an already visited cell over a fresh connection exhibits a cycle
in the component of the root. -/
theorem revisit_cycle (n : Nat) (a : Assignment) (root : Nat) (_hn : 0 < n)
    (hroot : root < n * n) (visited : List Nat) (par : List (Nat × Nat))
    (curr c : Nat) (hinv : DfsInv n a root visited par) (hcv : curr ∈ visited)
    (hcc : c ∈ visited) (hconn : specConn n a c curr)
    (hnc1 : (c, curr) ∉ par) (hnc2 : (curr, c) ∉ par) :
    ¬ (reachGraph n a ⟨root, hroot⟩).IsAcyclic := by
  obtain ⟨hnd, hb, hkeys, hent, hreach⟩ := hinv
  have hcb : c < n * n := hb c hcc
  have hcurb : curr < n * n := hb curr hcv
  have hreachP : ∀ v, v ∈ visited → ∀ hv : v < n * n,
      (pipesGraph n a).Reachable ⟨root, hroot⟩ ⟨v, hv⟩ := by
    intro v hvm hv
    exact specReach_to_reachable n a root v hroot
      (parReach_specReach n a root visited par
        ⟨hnd, hb, hkeys, hent, hreach⟩ v (hreach v hvm)) hv
  have hGdel : ∀ v, parReach par root v → ∀ hv : v < n * n,
      ((reachGraph n a ⟨root, hroot⟩) \
        SimpleGraph.fromEdgeSet {s((⟨c, hcb⟩ : Fin (n * n)), (⟨curr, hcurb⟩ : Fin (n * n)))}).Reachable
        ⟨root, hroot⟩ ⟨v, hv⟩ := by
    intro v h
    induction h with
    | refl => intro hv; exact SimpleGraph.Reachable.refl _
    | tail hab hbc ih =>
      rename_i b c2
      intro hv
      obtain ⟨hsc, hbm, hc2m⟩ := parLinked_spec n a root visited par
        ⟨hnd, hb, hkeys, hent, hreach⟩ b c2 hbc
      have hbb : b < n * n := hb b hbm
      have hadj : ((reachGraph n a ⟨root, hroot⟩) \
          SimpleGraph.fromEdgeSet {s((⟨c, hcb⟩ : Fin (n * n)), (⟨curr, hcurb⟩ : Fin (n * n)))}).Adj
          ⟨b, hbb⟩ ⟨c2, hv⟩ := by
        rw [SimpleGraph.sdiff_adj]
        constructor
        · rw [reachGraph, SimpleGraph.fromRel_adj]
          refine ⟨?_, Or.inl ⟨(pipesGraph_adj n a _ _).mpr hsc, hreachP b hbm hbb,
            hreachP c2 hc2m hv⟩⟩
          intro hbe
          apply specConn_ne n a b c2 hsc
          exact congrArg Fin.val hbe
        · rw [SimpleGraph.fromEdgeSet_adj]
          rintro ⟨hmem, -⟩
          rw [Set.mem_singleton_iff, Sym2.eq_iff] at hmem
          rcases hmem with ⟨h1, h2⟩ | ⟨h1, h2⟩
          · have hb1 : b = c := congrArg Fin.val h1
            have hb2 : c2 = curr := congrArg Fin.val h2
            subst hb1
            subst hb2
            rcases hbc with hbc | hbc
            · exact hnc1 hbc
            · exact hnc2 hbc
          · have hb1 : b = curr := congrArg Fin.val h1
            have hb2 : c2 = c := congrArg Fin.val h2
            subst hb1
            subst hb2
            rcases hbc with hbc | hbc
            · exact hnc2 hbc
            · exact hnc1 hbc
      exact SimpleGraph.Reachable.trans (ih hbb) (SimpleGraph.Adj.reachable hadj)
  have hAdj : (reachGraph n a ⟨root, hroot⟩).Adj ⟨c, hcb⟩ ⟨curr, hcurb⟩ := by
    rw [reachGraph, SimpleGraph.fromRel_adj]
    refine ⟨?_, Or.inl ⟨(pipesGraph_adj n a _ _).mpr hconn, hreachP c hcc hcb,
      hreachP curr hcv hcurb⟩⟩
    intro hce
    exact specConn_ne n a c curr hconn (congrArg Fin.val hce)
  have hDel := SimpleGraph.Reachable.trans
    (SimpleGraph.Reachable.symm (hGdel c (hreach c hcc) hcb))
    (hGdel curr (hreach curr hcv) hcurb)
  obtain ⟨u, p, hcyc, -⟩ :=
    (SimpleGraph.adj_and_reachable_delete_edges_iff_exists_cycle).mp ⟨hAdj, hDel⟩
  intro hac
  exact hac p hcyc

theorem cyF_succ (fuel : Nat) (a : Assignment) (curr : Nat) (visited : List Nat)
    (prev : Option Nat) :
    cyF (fuel + 1) a curr visited prev =
      if visited.contains curr then some (true, visited)
      else
        [0, 1, 2, 3].foldl
          (fun acc i =>
            match acc with
            | none => none
            | some (true, vis) => some (true, vis)
            | some (false, vis) =>
              if (checkConnections (a.getD curr default)
                    (adjPipes a (findAdj (Int.ofNat curr)
                      (Int.ofNat (Nat.sqrt a.length))))).get i &&
                  intNeqOpt ((findAdj (Int.ofNat curr)
                    (Int.ofNat (Nat.sqrt a.length))).get i) prev then
                cyF fuel a ((findAdj (Int.ofNat curr)
                  (Int.ofNat (Nat.sqrt a.length))).get i).toNat vis (some curr)
              else some (false, vis))
          (some (false, visited ++ [curr])) := rfl

theorem cy_fold_none (step : Option (Bool × List Nat) → Nat → Option (Bool × List Nat))
    (hstep : ∀ d, step none d = none) :
    ∀ ds : List Nat, List.foldl step none ds = none := by
  intro ds
  induction ds with
  | nil => rfl
  | cons d ds ih =>
    show List.foldl step (step none d) ds = none
    rw [hstep d]
    exact ih

theorem cy_fold_true (step : Option (Bool × List Nat) → Nat → Option (Bool × List Nat))
    (vis : List Nat) (hstep : ∀ d, step (some (true, vis)) d = some (true, vis)) :
    ∀ ds : List Nat, List.foldl step (some (true, vis)) ds = some (true, vis) := by
  intro ds
  induction ds with
  | nil => rfl
  | cons d ds ih =>
    show List.foldl step (step (some (true, vis)) d) ds = some (true, vis)
    rw [hstep d]
    exact ih

theorem mem_drop_one_of_ne_head (l : List Nat) (x h0 : Nat) (hl : l = h0 :: l.drop 1)
    (hx : x ∈ l) (hne : x ≠ h0) : x ∈ l.drop 1 := by
  rw [hl] at hx
  rcases List.mem_cons.mp hx with rfl | hx2
  · exact absurd rfl hne
  · exact hx2

theorem indexOf_append_ge (x : Nat) :
    ∀ (l1 l2 : List Nat), x ∉ l1 → l1.length ≤ List.indexOf x (l1 ++ l2) := by
  intro l1
  induction l1 with
  | nil => intro l2 _; exact Nat.zero_le _
  | cons h t ih =>
    intro l2 hx
    have hxh : ¬(x = h) := fun he => hx (he ▸ List.mem_cons_self h t)
    have hxt : x ∉ t := fun hm => hx (List.mem_cons_of_mem h hm)
    show t.length + 1 ≤ List.indexOf x (h :: (t ++ l2))
    rw [List.indexOf_cons]
    have hbeq : (h == x) = false := by
      rw [beq_eq_false_iff_ne]
      exact fun he => hxh he.symm
    rw [hbeq, Bool.cond_false]
    exact Nat.succ_le_succ (ih l2 hxt)

theorem parReach_mono (par ext : List (Nat × Nat)) (x y : Nat)
    (h : parReach par x y) : parReach (par ++ ext) x y := by
  apply Relation.ReflTransGen.mono ?_ h
  intro u v huv
  rcases huv with huv | huv
  · exact Or.inl (List.mem_append_left ext huv)
  · exact Or.inr (List.mem_append_left ext huv)

theorem dfsInv_root (n : Nat) (a : Assignment) (root : Nat) (hroot : root < n * n) :
    DfsInv n a root [root] [] := by
  refine ⟨List.nodup_singleton root, ?_, rfl, ?_, ?_⟩
  · intro v hv
    rw [List.mem_singleton] at hv
    subst hv
    exact hroot
  · intro e he
    cases he
  · intro v hv
    rw [List.mem_singleton] at hv
    subst hv
    exact Relation.ReflTransGen.refl

/-- Extending the traversal by one fresh cell with a recorded parent link
preserves the invariant. -/
theorem dfsInv_extend (n : Nat) (a : Assignment) (root : Nat) (visited : List Nat)
    (par : List (Nat × Nat)) (curr c : Nat) (hinv : DfsInv n a root visited par)
    (hcni : curr ∉ visited) (hcb : curr < n * n) (hcm : c ∈ visited)
    (hconn : specConn n a c curr) :
    DfsInv n a root (visited ++ [curr]) (par ++ [(curr, c)]) := by
  obtain ⟨hnd, hb, hkeys, hent, hreach⟩ := hinv
  have hvn : 1 ≤ visited.length := by
    cases visited with
    | nil => cases hcm
    | cons x t => exact Nat.succ_le_succ (Nat.zero_le _)
  refine ⟨?_, ?_, ?_, ?_, ?_⟩
  · rw [List.nodup_append]
    exact ⟨hnd, List.nodup_singleton curr, by
      intro x hx hx2
      rw [List.mem_singleton] at hx2
      subst hx2
      exact hcni hx⟩
  · intro v hv
    rw [List.mem_append, List.mem_singleton] at hv
    rcases hv with hv | rfl
    · exact hb v hv
    · exact hcb
  · rw [List.map_append, hkeys, List.drop_append_of_le_length hvn]
    rfl
  · intro e he
    rw [List.mem_append, List.mem_singleton] at he
    rcases he with he | rfl
    · obtain ⟨hc1, hidx, hm⟩ := hent e he
      have he1 : e.1 ∈ visited := by
        have : e.1 ∈ par.map Prod.fst := List.mem_map.mpr ⟨e, he, rfl⟩
        rw [hkeys] at this
        exact List.mem_of_mem_drop this
      refine ⟨hc1, ?_, List.mem_append_left _ hm⟩
      rw [List.indexOf_append_of_mem hm, List.indexOf_append_of_mem he1]
      exact hidx
    · refine ⟨specConn_symm n a c curr (hb c hcm) hconn, ?_, List.mem_append_left _ hcm⟩
      show List.indexOf c (visited ++ [curr]) < List.indexOf curr (visited ++ [curr])
      rw [List.indexOf_append_of_mem hcm]
      have h1 : List.indexOf c visited < visited.length :=
        List.indexOf_lt_length.mpr hcm
      have h2 : visited.length ≤ List.indexOf curr (visited ++ [curr]) :=
        indexOf_append_ge curr visited [curr] hcni
      omega
  · intro v hv
    rw [List.mem_append, List.mem_singleton] at hv
    rcases hv with hv | rfl
    · exact parReach_mono par _ root v (hreach v hv)
    · refine Relation.ReflTransGen.tail (parReach_mono par _ root c (hreach c hcm)) ?_
      exact Or.inr (List.mem_append_right par (List.mem_singleton.mpr rfl))

theorem key_not_in_ext (K2 : List Nat) (l l2 : List Nat) (x : Nat)
    (hpre : List.IsPrefix l l2) (hnd2 : l2.Nodup)
    (hK12 : l.drop 1 ++ K2 = l2.drop 1) (hx : x ∈ l) : x ∉ K2 := by
  cases l with
  | nil => cases hx
  | cons v0 vt =>
    obtain ⟨rest, hrest⟩ := hpre
    subst hrest
    simp only [List.cons_append, List.drop_succ_cons, List.drop_zero] at hK12 hnd2 ⊢
    have hK2 : K2 = rest := List.append_cancel_left hK12
    subst hK2
    rw [List.nodup_cons, List.nodup_append] at hnd2
    rcases List.mem_cons.mp hx with rfl | hxt
    · intro hmem
      exact hnd2.1 (List.mem_append_right vt hmem)
    · intro hmem
      exact hnd2.2.2.2 hxt hmem

/-- The full behavior of one assignmentHasCycle call: a true result witnesses
a cycle in the component of the root; a false result extends the traversal
with a subtree in which every confirmed connection is a recorded parent
link. -/
theorem cyF_spec (n : Nat) (a : Assignment) (root : Nat) (hn : 0 < n)
    (ha : a.length = n * n) (hroot : root < n * n) :
    ∀ (fuel : Nat) (curr : Nat) (visited : List Nat) (prev : Option Nat)
      (par : List (Nat × Nat)) (b : Bool) (out : List Nat),
    cyF fuel a curr visited prev = some (b, out) →
    curr < n * n →
    DfsInv n a root visited par →
    PrevOK n a root par visited curr prev →
    (b = true → ¬ (reachGraph n a ⟨root, hroot⟩).IsAcyclic) ∧
    (b = false → curr ∉ visited ∧ ∃ parNew,
      List.IsPrefix (visited ++ [curr]) out ∧
      DfsInv n a root out (par ++ parNew) ∧
      (∀ e ∈ parNew, (∃ c2, prev = some c2 ∧ e = (curr, c2)) ∨ e.2 ∉ visited) ∧
      (∀ v ∈ out, v ∉ visited → ∀ j, specConn n a v j →
        j ∈ out ∧ ((v, j) ∈ par ++ parNew ∨ (j, v) ∈ par ++ parNew))) := by
  intro fuel
  induction fuel with
  | zero =>
    intro curr visited prev par b out h
    cases h
  | succ fuel ih =>
    intro curr visited prev par b out h hcur hinv hprev
    rw [cyF_succ] at h
    have hsq : Nat.sqrt a.length = n := by rw [ha]; exact sqrt_sq n
    rw [hsq] at h
    by_cases hvism : visited.contains curr = true
    · rw [if_pos hvism] at h
      simp only [Option.some.injEq, Prod.mk.injEq] at h
      obtain ⟨hbeq, houteq⟩ := h
      constructor
      · intro _
        cases prev with
        | none =>
          obtain ⟨hve, -, -⟩ := hprev
          subst hve
          simp at hvism
        | some c =>
          obtain ⟨hcm, hcconn, hn1, hn2⟩ := hprev
          exact revisit_cycle n a root hn hroot visited par curr c hinv
            (List.mem_of_elem_eq_true hvism) hcm hcconn hn1 hn2
      · intro hbf
        rw [← hbeq] at hbf
        cases hbf
    · rw [if_neg hvism] at h
      have hcni : curr ∉ visited := fun hm => hvism (List.elem_eq_true_of_mem hm)
      have hfold : ∀ (ds : List Nat), (∀ d ∈ ds, d < 4) → ds.Nodup →
          ∀ (vis : List Nat) (parExt : List (Nat × Nat)) (b2 : Bool) (out2 : List Nat),
          List.foldl
            (fun acc i =>
              match acc with
              | none => none
              | some (true, vis) => some (true, vis)
              | some (false, vis) =>
                if (checkConnections (a.getD curr default)
                      (adjPipes a (findAdj (Int.ofNat curr) (Int.ofNat n)))).get i &&
                    intNeqOpt ((findAdj (Int.ofNat curr) (Int.ofNat n)).get i) prev then
                  cyF fuel a ((findAdj (Int.ofNat curr) (Int.ofNat n)).get i).toNat vis
                    (some curr)
                else some (false, vis))
            (some (false, vis)) ds = some (b2, out2) →
          DfsInv n a root vis (par ++ parExt) →
          List.IsPrefix (visited ++ [curr]) vis →
          (∀ d ∈ ds, ∀ j, specNeighbor n curr d = some j → (j, curr) ∉ par ++ parExt) →
          (∀ x, (curr, x) ∈ par ++ parExt → prev = some x) →
          (∀ pc, prev = some pc → pc ∈ visited ∧ (curr, pc) ∈ par ++ parExt) →
          (∀ e ∈ parExt, (∃ c2, prev = some c2 ∧ e = (curr, c2)) ∨ e.2 ∉ visited) →
          (∀ v ∈ vis, v ∉ visited → v ≠ curr → ∀ j, specConn n a v j →
            j ∈ vis ∧ ((v, j) ∈ par ++ parExt ∨ (j, v) ∈ par ++ parExt)) →
          (b2 = true → ¬ (reachGraph n a ⟨root, hroot⟩).IsAcyclic) ∧
          (b2 = false → ∃ parExt2,
            List.IsPrefix vis out2 ∧
            List.IsPrefix parExt parExt2 ∧
            DfsInv n a root out2 (par ++ parExt2) ∧
            (∀ e ∈ parExt2, (∃ c2, prev = some c2 ∧ e = (curr, c2)) ∨ e.2 ∉ visited) ∧
            (∀ v ∈ out2, v ∉ visited → v ≠ curr → ∀ j, specConn n a v j →
              j ∈ out2 ∧ ((v, j) ∈ par ++ parExt2 ∨ (j, v) ∈ par ++ parExt2)) ∧
            (∀ d ∈ ds, ∀ j, specNeighbor n curr d = some j →
              (checkConnections (a.getD curr default)
                (adjPipes a (findAdj (Int.ofNat curr) (Int.ofNat n)))).get d = true →
              j ∈ out2 ∧ ((curr, j) ∈ par ++ parExt2 ∨ (j, curr) ∈ par ++ parExt2))) := by
        intro ds
        induction ds with
        | nil =>
          intro _ _ vis parExt b2 out2 hh hinv2 hpre2 _ _ _ hshape2 hchar2
          simp only [List.foldl_nil, Option.some.injEq, Prod.mk.injEq] at hh
          obtain ⟨hb2, hout2⟩ := hh
          constructor
          · intro hbt
            rw [← hb2] at hbt
            cases hbt
          · intro _
            subst hout2
            exact ⟨parExt, List.prefix_refl _, List.prefix_refl _, hinv2, hshape2,
              hchar2, by intro d hd; cases hd⟩
        | cons d ds ihds =>
          intro hds hnds vis parExt b2 out2 hh hinv2 hpre2 hloop hcurrpar hskip
            hshape2 hchar2
          have hd4 : d < 4 := hds d (List.mem_cons_self d ds)
          have hdnin : d ∉ ds := (List.nodup_cons.mp hnds).1
          have hndst : ds.Nodup := (List.nodup_cons.mp hnds).2
          have hdst : ∀ x ∈ ds, x < 4 := fun x hx => hds x (List.mem_cons_of_mem d hx)
          have hcmv : curr ∈ vis := hpre2.subset
            (List.mem_append_right visited (List.mem_singleton.mpr rfl))
          have hh2 : List.foldl
              (fun acc i =>
                match acc with
                | none => none
                | some (true, vis) => some (true, vis)
                | some (false, vis) =>
                  if (checkConnections (a.getD curr default)
                        (adjPipes a (findAdj (Int.ofNat curr) (Int.ofNat n)))).get i &&
                      intNeqOpt ((findAdj (Int.ofNat curr) (Int.ofNat n)).get i) prev then
                    cyF fuel a ((findAdj (Int.ofNat curr) (Int.ofNat n)).get i).toNat vis
                      (some curr)
                  else some (false, vis))
              (if (checkConnections (a.getD curr default)
                    (adjPipes a (findAdj (Int.ofNat curr) (Int.ofNat n)))).get d &&
                  intNeqOpt ((findAdj (Int.ofNat curr) (Int.ofNat n)).get d) prev then
                cyF fuel a ((findAdj (Int.ofNat curr) (Int.ofNat n)).get d).toNat vis
                  (some curr)
              else some (false, vis)) ds = some (b2, out2) := hh
          clear hh
          by_cases hcg : (checkConnections (a.getD curr default)
              (adjPipes a (findAdj (Int.ofNat curr) (Int.ofNat n)))).get d = true
          · obtain ⟨j, hsn, h1, h2⟩ := (conn_get_iff n a curr hn hcur d hd4).mp hcg
            have hfa := findAdj_eq_spec n curr hn hcur d hd4
            have hADJ : (findAdj (Int.ofNat curr) (Int.ofNat n)).get d = Int.ofNat j := by
              rw [hfa, hsn]
            have hW : ((findAdj (Int.ofNat curr) (Int.ofNat n)).get d).toNat = j := by
              rw [hADJ]
              simp only [Int.ofNat_eq_natCast, Int.toNat_ofNat]
            have hconn2 : specConn n a curr j := ⟨d, hd4, hsn, h1, h2⟩
            have hjb : j < n * n := specNeighbor_lt n curr d j hcur hsn
            by_cases hskipb : intNeqOpt ((findAdj (Int.ofNat curr) (Int.ofNat n)).get d)
                prev = true
            · have hcond : ((checkConnections (a.getD curr default)
                  (adjPipes a (findAdj (Int.ofNat curr) (Int.ofNat n)))).get d &&
                  intNeqOpt ((findAdj (Int.ofNat curr) (Int.ofNat n)).get d) prev) = true := by
                rw [hcg, hskipb]
                rfl
              rw [if_pos hcond, hW] at hh2
              cases hsub : cyF fuel a j vis (some curr) with
              | none =>
                rw [hsub, cy_fold_none _ (fun x => rfl)] at hh2
                cases hh2
              | some bv =>
                obtain ⟨bs, vis2⟩ := bv
                rw [hsub] at hh2
                have hnp1 : (curr, j) ∉ par ++ parExt := by
                  intro hmem
                  have hpj := hcurrpar j hmem
                  rw [hpj, hADJ] at hskipb
                  simp [intNeqOpt] at hskipb
                have hnp2 : (j, curr) ∉ par ++ parExt :=
                  hloop d (List.mem_cons_self d ds) j hsn
                obtain ⟨htrueS, hfalseS⟩ := ih j vis (some curr) (par ++ parExt) bs vis2
                  hsub hjb hinv2 ⟨hcmv, hconn2, hnp1, hnp2⟩
                cases bs with
                | true =>
                  rw [cy_fold_true _ vis2 (fun x => rfl)] at hh2
                  simp only [Option.some.injEq, Prod.mk.injEq] at hh2
                  obtain ⟨hb2, -⟩ := hh2
                  refine ⟨fun _ => htrueS rfl, ?_⟩
                  intro hbf
                  rw [← hb2] at hbf
                  cases hbf
                | false =>
                  obtain ⟨hjnin, parNewS, hpreS, hinvS, hshapeS, hcharS⟩ := hfalseS rfl
                  have hvpre : List.IsPrefix vis vis2 :=
                    (List.prefix_append vis [j]).trans hpreS
                  have hkeyfact : curr ∉ parNewS.map Prod.fst := by
                    have hk1 : (par ++ parExt).map Prod.fst = vis.drop 1 := hinv2.2.2.1
                    have hk2 : ((par ++ parExt) ++ parNewS).map Prod.fst = vis2.drop 1 :=
                      hinvS.2.2.1
                    rw [List.map_append, hk1] at hk2
                    exact key_not_in_ext (parNewS.map Prod.fst) vis vis2 curr hvpre
                      hinvS.1 hk2 hcmv
                  have hinvS2 : DfsInv n a root vis2 (par ++ (parExt ++ parNewS)) := by
                    rw [← List.append_assoc]
                    exact hinvS
                  obtain ⟨htrueF, hfalseF⟩ := ihds hdst hndst vis2 (parExt ++ parNewS)
                    b2 out2 hh2 hinvS2 (hpre2.trans hvpre)
                    (by
                      intro d2 hd2 j2 hsn2 hmem
                      rw [← List.append_assoc] at hmem
                      rcases List.mem_append.mp hmem with hmem | hmem
                      · exact hloop d2 (List.mem_cons_of_mem d hd2) j2 hsn2 hmem
                      · rcases hshapeS (j2, curr) hmem with ⟨c2, hc2, he⟩ | hnv
                        · simp only [Option.some.injEq] at hc2
                          rw [Prod.mk.injEq] at he
                          have hj2 : j2 = j := he.1
                          subst hj2
                          have hdd : d2 = d := specNeighbor_inj_dir n curr j2 d2 d hn
                            (hds d2 (List.mem_cons_of_mem d hd2)) hd4 hsn2 hsn
                          exact hdnin (hdd ▸ hd2)
                        · exact hnv hcmv)
                    (by
                      intro x hmem
                      rw [← List.append_assoc] at hmem
                      rcases List.mem_append.mp hmem with hmem | hmem
                      · exact hcurrpar x hmem
                      · exfalso
                        exact hkeyfact (List.mem_map.mpr ⟨(curr, x), hmem, rfl⟩))
                    (by
                      intro pc hpc
                      obtain ⟨hpc1, hpc2⟩ := hskip pc hpc
                      refine ⟨hpc1, ?_⟩
                      rw [← List.append_assoc]
                      exact List.mem_append_left parNewS hpc2)
                    (by
                      intro e he
                      rcases List.mem_append.mp he with he | he
                      · exact hshape2 e he
                      · rcases hshapeS e he with ⟨c2, hc2, hee⟩ | hnv
                        · simp only [Option.some.injEq] at hc2
                          subst hc2
                          rw [hee]
                          exact Or.inr hcni
                        · exact Or.inr (fun hm =>
                            hnv (hpre2.subset (List.mem_append_left [curr] hm))))
                    (by
                      intro v hv hnvis hneq j2 hconn3
                      by_cases hvv : v ∈ vis
                      · obtain ⟨hj2m, hlink⟩ := hchar2 v hvv hnvis hneq j2 hconn3
                        refine ⟨hvpre.subset hj2m, ?_⟩
                        rw [← List.append_assoc]
                        rcases hlink with hl | hl
                        · exact Or.inl (List.mem_append_left parNewS hl)
                        · exact Or.inr (List.mem_append_left parNewS hl)
                      · obtain ⟨hj2m, hlink⟩ := hcharS v hv hvv j2 hconn3
                        rw [← List.append_assoc]
                        exact ⟨hj2m, hlink⟩)
                  refine ⟨htrueF, ?_⟩
                  intro hbf
                  obtain ⟨parExt3, hpre3, hext3, hinv3, hshape3, hchar3, hdirs3⟩ :=
                    hfalseF hbf
                  refine ⟨parExt3, hvpre.trans hpre3,
                    (List.prefix_append parExt parNewS).trans hext3, hinv3, hshape3,
                    hchar3, ?_⟩
                  intro d2 hd2 j2 hsn2 hcg2
                  rcases List.mem_cons.mp hd2 with rfl | hd2t
                  · have hj2 : j2 = j := by
                      rw [hsn] at hsn2
                      simp only [Option.some.injEq] at hsn2
                      exact hsn2.symm
                    subst hj2
                    have hjm2 : j2 ∈ vis2 := hpreS.subset
                      (List.mem_append_right vis (List.mem_singleton.mpr rfl))
                    have hcs : specConn n a j2 curr :=
                      specConn_symm n a curr j2 hcur hconn2
                    obtain ⟨-, hlink⟩ := hcharS j2 hjm2 (by
                      intro hmm
                      exact hjnin hmm) curr hcs
                    have hmono : ∀ x : Nat × Nat, x ∈ (par ++ parExt) ++ parNewS →
                        x ∈ par ++ parExt3 := by
                      intro x hx
                      rw [List.append_assoc] at hx
                      rcases List.mem_append.mp hx with hx | hx
                      · exact List.mem_append_left parExt3 hx
                      · exact List.mem_append_right par (hext3.subset hx)
                    refine ⟨hpre3.subset hjm2, ?_⟩
                    rcases hlink with hl | hl
                    · exact Or.inr (hmono _ hl)
                    · exact Or.inl (hmono _ hl)
                  · exact hdirs3 d2 hd2t j2 hsn2 hcg2
            · have hskipf : intNeqOpt ((findAdj (Int.ofNat curr) (Int.ofNat n)).get d)
                  prev = false := by
                cases hx : intNeqOpt ((findAdj (Int.ofNat curr) (Int.ofNat n)).get d) prev with
                | true => exact absurd hx hskipb
                | false => rfl
              have hcond : ¬(((checkConnections (a.getD curr default)
                  (adjPipes a (findAdj (Int.ofNat curr) (Int.ofNat n)))).get d &&
                  intNeqOpt ((findAdj (Int.ofNat curr) (Int.ofNat n)).get d) prev) = true) := by
                rw [hskipf, Bool.and_false]
                simp
              rw [if_neg hcond] at hh2
              obtain ⟨pc, hpc, hjpc⟩ : ∃ pc, prev = some pc ∧ j = pc := by
                cases prev with
                | none => simp [intNeqOpt] at hskipf
                | some pc =>
                  refine ⟨pc, rfl, ?_⟩
                  rw [hADJ] at hskipf
                  simp only [intNeqOpt, bne_eq_false_iff_eq, Int.ofNat_eq_natCast,
                    Nat.cast_inj] at hskipf
                  exact hskipf
              obtain ⟨htrueF, hfalseF⟩ := ihds hdst hndst vis parExt b2 out2 hh2 hinv2
                hpre2 (fun d2 hd2 => hloop d2 (List.mem_cons_of_mem d hd2)) hcurrpar
                hskip hshape2 hchar2
              refine ⟨htrueF, ?_⟩
              intro hbf
              obtain ⟨parExt3, hpre3, hext3, hinv3, hshape3, hchar3, hdirs3⟩ := hfalseF hbf
              refine ⟨parExt3, hpre3, hext3, hinv3, hshape3, hchar3, ?_⟩
              intro d2 hd2 j2 hsn2 hcg2
              rcases List.mem_cons.mp hd2 with rfl | hd2t
              · have hj2 : j2 = j := by
                  rw [hsn] at hsn2
                  simp only [Option.some.injEq] at hsn2
                  exact hsn2.symm
                subst hj2
                subst hjpc
                obtain ⟨hpcm, hpclink⟩ := hskip j2 hpc
                refine ⟨hpre3.subset (hpre2.subset (List.mem_append_left [curr] hpcm)), ?_⟩
                refine Or.inl ?_
                rcases List.mem_append.mp hpclink with hl | hl
                · exact List.mem_append_left parExt3 hl
                · exact List.mem_append_right par (hext3.subset hl)
              · exact hdirs3 d2 hd2t j2 hsn2 hcg2
          · have hcond : ¬(((checkConnections (a.getD curr default)
                (adjPipes a (findAdj (Int.ofNat curr) (Int.ofNat n)))).get d &&
                intNeqOpt ((findAdj (Int.ofNat curr) (Int.ofNat n)).get d) prev) = true) := by
              intro hx
              rw [Bool.and_eq_true] at hx
              exact hcg hx.1
            rw [if_neg hcond] at hh2
            obtain ⟨htrueF, hfalseF⟩ := ihds hdst hndst vis parExt b2 out2 hh2 hinv2
              hpre2 (fun d2 hd2 => hloop d2 (List.mem_cons_of_mem d hd2)) hcurrpar
              hskip hshape2 hchar2
            refine ⟨htrueF, ?_⟩
            intro hbf
            obtain ⟨parExt3, hpre3, hext3, hinv3, hshape3, hchar3, hdirs3⟩ := hfalseF hbf
            refine ⟨parExt3, hpre3, hext3, hinv3, hshape3, hchar3, ?_⟩
            intro d2 hd2 j2 hsn2 hcg2
            rcases List.mem_cons.mp hd2 with rfl | hd2t
            · exact absurd hcg2 hcg
            · exact hdirs3 d2 hd2t j2 hsn2 hcg2
      cases prev with
      | none =>
        obtain ⟨hve, hpe, hce⟩ := hprev
        subst hve
        subst hpe
        subst hce
        obtain ⟨htrueF, hfalseF⟩ := hfold [0, 1, 2, 3] (by decide) (by decide)
          ([] ++ [curr]) [] b out h
          (by
            rw [List.append_nil, List.nil_append]
            exact dfsInv_root n a curr hcur)
          (List.prefix_refl _)
          (by intro d _ j _ hmem; rw [List.append_nil] at hmem; cases hmem)
          (by intro x hmem; rw [List.append_nil] at hmem; cases hmem)
          (by intro pc hpc; cases hpc)
          (by intro e he; cases he)
          (by
            intro v hv hnvis hneq j hconn3
            rw [List.nil_append, List.mem_singleton] at hv
            exact absurd hv hneq)
        constructor
        · exact htrueF
        · intro hbf
          obtain ⟨parExt2, hpreF, -, hinvF, hshapeF, hcharF, hdirsF⟩ := hfalseF hbf
          refine ⟨?_, ⟨parExt2, hpreF, hinvF, hshapeF, ?_⟩⟩
          · intro hm
            cases hm
          · intro v hv hnvis j hconn3
            by_cases hveq : v = curr
            · subst hveq
              obtain ⟨d, hd4, hsn, h1, h2⟩ := hconn3
              exact hdirsF d (mem_dirs_of_lt d hd4) j hsn
                ((conn_get_iff n a v hn hcur d hd4).mpr ⟨j, hsn, h1, h2⟩)
            · exact hcharF v hv hnvis hveq j hconn3
      | some c =>
        obtain ⟨hcm, hcconn, hnpc1, hnpc2⟩ := hprev
        have hccb : c < n * n := hinv.2.1 c hcm
        have hinv0 : DfsInv n a root (visited ++ [curr]) (par ++ [(curr, c)]) :=
          dfsInv_extend n a root visited par curr c hinv hcni hcur hcm hcconn
        obtain ⟨htrueF, hfalseF⟩ := hfold [0, 1, 2, 3] (by decide) (by decide)
          (visited ++ [curr]) [(curr, c)] b out h hinv0 (List.prefix_refl _)
          (by
            intro d _ j hsn hmem
            rcases List.mem_append.mp hmem with hmem | hmem
            · have := (hinv.2.2.2.1 (j, curr) hmem).2.2
              exact hcni this
            · rw [List.mem_singleton, Prod.mk.injEq] at hmem
              exact hcni (hmem.2 ▸ hcm)
          )
          (by
            intro x hmem
            rcases List.mem_append.mp hmem with hmem | hmem
            · exfalso
              have hk : curr ∈ par.map Prod.fst := List.mem_map.mpr ⟨(curr, x), hmem, rfl⟩
              rw [hinv.2.2.1] at hk
              exact hcni (List.mem_of_mem_drop hk)
            · rw [List.mem_singleton, Prod.mk.injEq] at hmem
              rw [hmem.2]
          )
          (by
            intro pc hpc
            simp only [Option.some.injEq] at hpc
            subst hpc
            exact ⟨hcm, List.mem_append_right par (List.mem_singleton.mpr rfl)⟩)
          (by
            intro e he
            rw [List.mem_singleton] at he
            subst he
            exact Or.inl ⟨c, rfl, rfl⟩)
          (by
            intro v hv hnvis hneq j hconn3
            rw [List.mem_append, List.mem_singleton] at hv
            rcases hv with hv | rfl
            · exact absurd hv hnvis
            · exact absurd rfl hneq)
        constructor
        · exact htrueF
        · intro hbf
          obtain ⟨parExt2, hpreF, hextF, hinvF, hshapeF, hcharF, hdirsF⟩ := hfalseF hbf
          refine ⟨hcni, parExt2, hpreF, hinvF, hshapeF, ?_⟩
          intro v hv hnvis j hconn3
          by_cases hveq : v = curr
          · subst hveq
            obtain ⟨d, hd4, hsn, h1, h2⟩ := hconn3
            exact hdirsF d (mem_dirs_of_lt d hd4) j hsn
              ((conn_get_iff n a v hn hcur d hd4).mpr ⟨j, hsn, h1, h2⟩)
          · exact hcharF v hv hnvis hveq j hconn3

/-- A completed traversal whose parent links cover every confirmed connection
among reached cells certifies that the component of the root is acyclic: in
any cycle, the vertex discovered last would need two distinct parents. -/
theorem par_forest_acyclic (n : Nat) (a : Assignment) (root : Nat)
    (hroot : root < n * n) (out : List Nat) (par : List (Nat × Nat))
    (hinv : DfsInv n a root out par) (hrm : root ∈ out)
    (hchar : ∀ v ∈ out, ∀ j, specConn n a v j →
      j ∈ out ∧ ((v, j) ∈ par ∨ (j, v) ∈ par)) :
    (reachGraph n a ⟨root, hroot⟩).IsAcyclic := by
  obtain ⟨hnd, hb, hkeys, hent, hreach⟩ := hinv
  have hkeysnd : (par.map Prod.fst).Nodup := by
    rw [hkeys]
    exact hnd.sublist (List.drop_sublist 1 out)
  have hclosedNat : ∀ t, specReach n a root t → t ∈ out := by
    intro t h
    induction h with
    | refl => exact hrm
    | tail hab hbc ih =>
      rename_i b c2
      exact (hchar b ih c2 hbc).1
  have hadjlink : ∀ u w : Fin (n * n), (reachGraph n a ⟨root, hroot⟩).Adj u w →
      u.val ∈ out → parLinked par u.val w.val ∧ w.val ∈ out := by
    intro u w hadj hu
    rw [reachGraph, SimpleGraph.fromRel_adj] at hadj
    obtain ⟨hne, hcase⟩ := hadj
    have hpadj : (pipesGraph n a).Adj u w := by
      rcases hcase with ⟨h, -, -⟩ | ⟨h, -, -⟩
      · exact h
      · exact h.symm
    have hsc : specConn n a u.val w.val := (pipesGraph_adj n a u w).mp hpadj
    obtain ⟨hwm, hlink⟩ := hchar u.val hu w.val hsc
    exact ⟨hlink, hwm⟩
  have hsupp : ∀ (u w : Fin (n * n)) (pw : (reachGraph n a ⟨root, hroot⟩).Walk u w),
      u.val ∈ out → ∀ z ∈ pw.support, z.val ∈ out := by
    intro u w pw
    induction pw with
    | nil =>
      intro hu z hz
      rw [SimpleGraph.Walk.support_nil, List.mem_singleton] at hz
      subst hz
      exact hu
    | cons hadj pw ih =>
      rename_i u2 v2 w2
      intro hu z hz
      rw [SimpleGraph.Walk.support_cons] at hz
      rcases List.mem_cons.mp hz with rfl | hz2
      · exact hu
      · exact ih (hadjlink u2 v2 hadj hu).2 z hz2
  intro v c hcyc
  have hvout : v.val ∈ out := by
    cases hc0 : c with
    | nil =>
      exfalso
      have h3 := hcyc.three_le_length
      rw [hc0] at h3
      simp at h3
    | cons hadj p0 =>
      rw [reachGraph, SimpleGraph.fromRel_adj] at hadj
      obtain ⟨-, hcase⟩ := hadj
      have hre : (pipesGraph n a).Reachable ⟨root, hroot⟩ v := by
        rcases hcase with ⟨-, h, -⟩ | ⟨-, -, h⟩
        · exact h
        · exact h
      exact hclosedNat v.val (reachable_to_specReach n a ⟨root, hroot⟩ v hre)
  have hallsupp : ∀ z ∈ c.support, z.val ∈ out := hsupp v v c hvout
  cases hargm : List.argmax (fun z : Fin (n * n) => List.indexOf z.val out)
      c.support with
  | none =>
    have hemp := List.argmax_eq_none.mp hargm
    have := SimpleGraph.Walk.start_mem_support c
    rw [hemp] at this
    cases this
  | some m =>
    have hm : m ∈ c.support := List.argmax_mem hargm
    have hmax : ∀ z ∈ c.support, List.indexOf z.val out ≤ List.indexOf m.val out :=
      fun z hz => List.le_of_mem_argmax hz hargm
    have hc2 : (c.rotate hm).IsCycle := hcyc.rotate hm
    have hrot := SimpleGraph.Walk.support_rotate c hm
    obtain ⟨x, h1, p, hcc⟩ : ∃ (x : Fin (n * n))
        (h1 : (reachGraph n a ⟨root, hroot⟩).Adj m x)
        (p : (reachGraph n a ⟨root, hroot⟩).Walk x m),
        c.rotate hm = SimpleGraph.Walk.cons h1 p := by
      cases hcc : c.rotate hm with
      | nil =>
        exfalso
        have h3 := hc2.three_le_length
        rw [hcc] at h3
        simp at h3
      | cons h1 p => exact ⟨_, h1, p, rfl⟩
    obtain ⟨y, h2, q, hcc2⟩ : ∃ (y : Fin (n * n))
        (h2 : (reachGraph n a ⟨root, hroot⟩).Adj m y)
        (q : (reachGraph n a ⟨root, hroot⟩).Walk y m),
        (c.rotate hm).reverse = SimpleGraph.Walk.cons h2 q := by
      cases hcc2 : (c.rotate hm).reverse with
      | nil =>
        exfalso
        have h3 := hc2.three_le_length
        have hlr := SimpleGraph.Walk.length_reverse (c.rotate hm)
        rw [hcc2, SimpleGraph.Walk.length_nil] at hlr
        omega
      | cons h2 q => exact ⟨_, h2, q, rfl⟩
    have hxs : x ∈ c.support.tail := by
      have hx1 : x ∈ (c.rotate hm).support.tail := by
        rw [hcc, SimpleGraph.Walk.support_cons, List.tail_cons]
        exact SimpleGraph.Walk.start_mem_support p
      exact hrot.mem_iff.mp hx1
    have hxsupp : x ∈ c.support := by
      rw [SimpleGraph.Walk.support_eq_cons c]
      exact List.mem_cons_of_mem v hxs
    have hys : y ∈ c.support := by
      have hy1 : y ∈ (c.rotate hm).reverse.support := by
        rw [hcc2, SimpleGraph.Walk.support_cons]
        exact List.mem_cons_of_mem m (SimpleGraph.Walk.start_mem_support q)
      rw [SimpleGraph.Walk.support_reverse, List.mem_reverse] at hy1
      have hyne : y ≠ m := (SimpleGraph.Adj.ne h2).symm
      have hy2 : y ∈ (c.rotate hm).support.tail := by
        rw [SimpleGraph.Walk.support_eq_cons] at hy1
        rcases List.mem_cons.mp hy1 with h | h
        · exact absurd h hyne
        · exact h
      rw [SimpleGraph.Walk.support_eq_cons c]
      exact List.mem_cons_of_mem v (hrot.mem_iff.mp hy2)
    have hxy : x ≠ y := by
      intro hxyeq
      subst hxyeq
      have hE : (c.rotate hm).edges = s(m, x) :: p.edges := by
        rw [hcc, SimpleGraph.Walk.edges_cons]
      have hER : (c.rotate hm).edges.reverse = s(m, x) :: q.edges := by
        rw [← SimpleGraph.Walk.edges_reverse, hcc2, SimpleGraph.Walk.edges_cons]
      have hnodup : (c.rotate hm).edges.Nodup := hc2.edges_nodup
      rw [hE] at hnodup hER
      cases hpr : p.edges.reverse with
      | nil =>
        have hpe : p.edges = [] := by
          have hrr := congrArg List.reverse hpr
          rwa [List.reverse_reverse, List.reverse_nil] at hrr
        have hle := SimpleGraph.Walk.length_edges (c.rotate hm)
        have h3 := hc2.three_le_length
        rw [hE, hpe] at hle
        simp at hle
        omega
      | cons f rest2 =>
        rw [List.reverse_cons, hpr, List.cons_append] at hER
        simp only [List.cons.injEq] at hER
        have hmem : s(m, x) ∈ p.edges := by
          rw [← List.mem_reverse, hpr, hER.1]
          exact List.mem_cons_self _ _
        rw [List.nodup_cons] at hnodup
        exact hnodup.1 hmem
    have hmout : m.val ∈ out := hallsupp m hm
    have hlink1 := hadjlink m x h1 hmout
    have hlink2 := hadjlink m y h2 hmout
    have hdir : ∀ z : Fin (n * n), z ∈ c.support → parLinked par m.val z.val →
        (m.val, z.val) ∈ par := by
      intro z hzs hl
      rcases hl with hl | hl
      · exact hl
      · exfalso
        have hle := hmax z hzs
        have hord : List.indexOf m.val out < List.indexOf z.val out :=
          (hent (z.val, m.val) hl).2.1
        omega
    have he1 : (m.val, x.val) ∈ par := hdir x hxsupp hlink1.1
    have he2 : (m.val, y.val) ∈ par := hdir y hys hlink2.1
    exact hxy (Fin.val_injective (assoc_key_unique par m.val x.val y.val hkeysnd he1 he2))

/-- Structural facts about any assignmentHasCycle run: the visited list only
grows, and stays duplicate-free and on the grid. -/
theorem cyF_meta (n : Nat) (a : Assignment) (hn : 0 < n) (ha : a.length = n * n) :
    ∀ (fuel : Nat) (curr : Nat) (visited : List Nat) (prev : Option Nat)
      (b : Bool) (out : List Nat),
    cyF fuel a curr visited prev = some (b, out) → curr < n * n →
    visited.Nodup → (∀ v ∈ visited, v < n * n) →
    visited.IsPrefix out ∧ out.Nodup ∧ (∀ v ∈ out, v < n * n) := by
  intro fuel
  induction fuel with
  | zero =>
    intro curr visited prev b out h
    cases h
  | succ fuel ih =>
    intro curr visited prev b out h hcur hnd hb
    rw [cyF_succ] at h
    have hsq : Nat.sqrt a.length = n := by rw [ha]; exact sqrt_sq n
    rw [hsq] at h
    by_cases hvism : visited.contains curr = true
    · rw [if_pos hvism] at h
      simp only [Option.some.injEq, Prod.mk.injEq] at h
      rw [← h.2]
      exact ⟨List.prefix_refl _, hnd, hb⟩
    · rw [if_neg hvism] at h
      have hcni : curr ∉ visited := fun hm => hvism (List.elem_eq_true_of_mem hm)
      have hnd0 : (visited ++ [curr]).Nodup := by
        rw [List.nodup_append]
        exact ⟨hnd, List.nodup_singleton curr, by
          intro x hx hx2
          rw [List.mem_singleton] at hx2
          subst hx2
          exact hcni hx⟩
      have hb0 : ∀ v ∈ visited ++ [curr], v < n * n := by
        intro v hv
        rw [List.mem_append, List.mem_singleton] at hv
        rcases hv with hv | rfl
        · exact hb v hv
        · exact hcur
      have hfold : ∀ (ds : List Nat), (∀ d ∈ ds, d < 4) →
          ∀ (st : Bool) (vis : List Nat) (b2 : Bool) (out2 : List Nat),
          List.foldl
            (fun acc i =>
              match acc with
              | none => none
              | some (true, vis) => some (true, vis)
              | some (false, vis) =>
                if (checkConnections (a.getD curr default)
                      (adjPipes a (findAdj (Int.ofNat curr) (Int.ofNat n)))).get i &&
                    intNeqOpt ((findAdj (Int.ofNat curr) (Int.ofNat n)).get i) prev then
                  cyF fuel a ((findAdj (Int.ofNat curr) (Int.ofNat n)).get i).toNat vis
                    (some curr)
                else some (false, vis))
            (some (st, vis)) ds = some (b2, out2) →
          vis.Nodup → (∀ v ∈ vis, v < n * n) →
          vis.IsPrefix out2 ∧ out2.Nodup ∧ (∀ v ∈ out2, v < n * n) := by
        intro ds
        induction ds with
        | nil =>
          intro _ st vis b2 out2 hh hnd2 hb2
          simp only [List.foldl_nil, Option.some.injEq, Prod.mk.injEq] at hh
          rw [← hh.2]
          exact ⟨List.prefix_refl _, hnd2, hb2⟩
        | cons d ds ihds =>
          intro hds st vis b2 out2 hh hnd2 hb2
          have hd4 : d < 4 := hds d (List.mem_cons_self d ds)
          have hdst : ∀ x ∈ ds, x < 4 := fun x hx => hds x (List.mem_cons_of_mem d hx)
          cases st with
          | true =>
            rw [cy_fold_true _ vis (fun x => rfl)] at hh
            simp only [Option.some.injEq, Prod.mk.injEq] at hh
            rw [← hh.2]
            exact ⟨List.prefix_refl _, hnd2, hb2⟩
          | false =>
            have hh2 : List.foldl
                (fun acc i =>
                  match acc with
                  | none => none
                  | some (true, vis) => some (true, vis)
                  | some (false, vis) =>
                    if (checkConnections (a.getD curr default)
                          (adjPipes a (findAdj (Int.ofNat curr) (Int.ofNat n)))).get i &&
                        intNeqOpt ((findAdj (Int.ofNat curr) (Int.ofNat n)).get i) prev then
                      cyF fuel a ((findAdj (Int.ofNat curr) (Int.ofNat n)).get i).toNat vis
                        (some curr)
                    else some (false, vis))
                (if (checkConnections (a.getD curr default)
                      (adjPipes a (findAdj (Int.ofNat curr) (Int.ofNat n)))).get d &&
                    intNeqOpt ((findAdj (Int.ofNat curr) (Int.ofNat n)).get d) prev then
                  cyF fuel a ((findAdj (Int.ofNat curr) (Int.ofNat n)).get d).toNat vis
                    (some curr)
                else some (false, vis)) ds = some (b2, out2) := hh
            clear hh
            by_cases hcond : ((checkConnections (a.getD curr default)
                (adjPipes a (findAdj (Int.ofNat curr) (Int.ofNat n)))).get d &&
                intNeqOpt ((findAdj (Int.ofNat curr) (Int.ofNat n)).get d) prev) = true
            · rw [if_pos hcond] at hh2
              have hcg : (checkConnections (a.getD curr default)
                  (adjPipes a (findAdj (Int.ofNat curr) (Int.ofNat n)))).get d = true :=
                (Bool.and_eq_true _ _ |>.mp hcond).1
              obtain ⟨j, hsn, h1, h2⟩ := (conn_get_iff n a curr hn hcur d hd4).mp hcg
              have hfa := findAdj_eq_spec n curr hn hcur d hd4
              have hW : ((findAdj (Int.ofNat curr) (Int.ofNat n)).get d).toNat = j := by
                rw [hfa, hsn]
                simp only [Int.ofNat_eq_natCast, Int.toNat_ofNat]
              rw [hW] at hh2
              have hjb : j < n * n := specNeighbor_lt n curr d j hcur hsn
              cases hsub : cyF fuel a j vis (some curr) with
              | none =>
                rw [hsub, cy_fold_none _ (fun x => rfl)] at hh2
                cases hh2
              | some bv =>
                obtain ⟨bs, vis2⟩ := bv
                rw [hsub] at hh2
                obtain ⟨hpre2, hnd3, hb3⟩ := ih j vis (some curr) bs vis2 hsub hjb hnd2 hb2
                obtain ⟨hpre4, hnd4, hb4⟩ := ihds hdst bs vis2 b2 out2 hh2 hnd3 hb3
                exact ⟨hpre2.trans hpre4, hnd4, hb4⟩
            · rw [if_neg hcond] at hh2
              exact ihds hdst false vis b2 out2 hh2 hnd2 hb2
      obtain ⟨hpre, hndo, hbo⟩ := hfold [0, 1, 2, 3] (by decide) false
        (visited ++ [curr]) b out h hnd0 hb0
      exact ⟨(List.prefix_append visited [curr]).trans hpre, hndo, hbo⟩

/-- assignmentHasCycle always returns within fuel n * n + 2 when started on a
duplicate-free on-grid visited list. -/
theorem cyF_some (n : Nat) (a : Assignment) (hn : 0 < n) (ha : a.length = n * n) :
    ∀ (fuel : Nat) (curr : Nat) (visited : List Nat) (prev : Option Nat),
    curr < n * n → visited.Nodup → (∀ v ∈ visited, v < n * n) →
    n * n + 2 ≤ fuel + visited.length →
    ∃ res, cyF fuel a curr visited prev = some res := by
  intro fuel
  induction fuel with
  | zero =>
    intro curr visited prev hcur hnd hb hC
    exfalso
    have := nodup_bounded_length_le visited (n * n) hnd hb
    omega
  | succ fuel ih =>
    intro curr visited prev hcur hnd hb hC
    rw [cyF_succ]
    have hsq : Nat.sqrt a.length = n := by rw [ha]; exact sqrt_sq n
    rw [hsq]
    by_cases hvism : visited.contains curr = true
    · rw [if_pos hvism]
      exact ⟨(true, visited), rfl⟩
    · rw [if_neg hvism]
      have hcni : curr ∉ visited := fun hm => hvism (List.elem_eq_true_of_mem hm)
      have hnd0 : (visited ++ [curr]).Nodup := by
        rw [List.nodup_append]
        exact ⟨hnd, List.nodup_singleton curr, by
          intro x hx hx2
          rw [List.mem_singleton] at hx2
          subst hx2
          exact hcni hx⟩
      have hb0 : ∀ v ∈ visited ++ [curr], v < n * n := by
        intro v hv
        rw [List.mem_append, List.mem_singleton] at hv
        rcases hv with hv | rfl
        · exact hb v hv
        · exact hcur
      have hC0 : n * n + 2 ≤ fuel + (visited ++ [curr]).length := by
        rw [List.length_append, List.length_singleton]
        omega
      have hfold : ∀ (ds : List Nat), (∀ d ∈ ds, d < 4) →
          ∀ (st : Bool) (vis : List Nat),
          vis.Nodup → (∀ v ∈ vis, v < n * n) → n * n + 2 ≤ fuel + vis.length →
          ∃ res2, List.foldl
            (fun acc i =>
              match acc with
              | none => none
              | some (true, vis) => some (true, vis)
              | some (false, vis) =>
                if (checkConnections (a.getD curr default)
                      (adjPipes a (findAdj (Int.ofNat curr) (Int.ofNat n)))).get i &&
                    intNeqOpt ((findAdj (Int.ofNat curr) (Int.ofNat n)).get i) prev then
                  cyF fuel a ((findAdj (Int.ofNat curr) (Int.ofNat n)).get i).toNat vis
                    (some curr)
                else some (false, vis))
            (some (st, vis)) ds = some res2 := by
        intro ds
        induction ds with
        | nil =>
          intro _ st vis _ _ _
          exact ⟨(st, vis), rfl⟩
        | cons d ds ihds =>
          intro hds st vis hnd2 hb2 hC2
          have hd4 : d < 4 := hds d (List.mem_cons_self d ds)
          have hdst : ∀ x ∈ ds, x < 4 := fun x hx => hds x (List.mem_cons_of_mem d hx)
          cases st with
          | true =>
            exact ⟨(true, vis), cy_fold_true _ vis (fun x => rfl) (d :: ds)⟩
          | false =>
            by_cases hcond : ((checkConnections (a.getD curr default)
                (adjPipes a (findAdj (Int.ofNat curr) (Int.ofNat n)))).get d &&
                intNeqOpt ((findAdj (Int.ofNat curr) (Int.ofNat n)).get d) prev) = true
            · have hcg : (checkConnections (a.getD curr default)
                  (adjPipes a (findAdj (Int.ofNat curr) (Int.ofNat n)))).get d = true :=
                (Bool.and_eq_true _ _ |>.mp hcond).1
              obtain ⟨j, hsn, h1, h2⟩ := (conn_get_iff n a curr hn hcur d hd4).mp hcg
              have hfa := findAdj_eq_spec n curr hn hcur d hd4
              have hW : ((findAdj (Int.ofNat curr) (Int.ofNat n)).get d).toNat = j := by
                rw [hfa, hsn]
                simp only [Int.ofNat_eq_natCast, Int.toNat_ofNat]
              have hjb : j < n * n := specNeighbor_lt n curr d j hcur hsn
              obtain ⟨⟨bs, vis2⟩, hsub⟩ := ih j vis (some curr) hjb hnd2 hb2 (by omega)
              obtain ⟨hpre2, hnd3, hb3⟩ := cyF_meta n a hn ha fuel j vis (some curr)
                bs vis2 hsub hjb hnd2 hb2
              have hlen2 : vis.length ≤ vis2.length := hpre2.length_le
              obtain ⟨res2, hres2⟩ := ihds hdst bs vis2 hnd3 hb3 (by omega)
              refine ⟨res2, ?_⟩
              show List.foldl _
                (if (checkConnections (a.getD curr default)
                      (adjPipes a (findAdj (Int.ofNat curr) (Int.ofNat n)))).get d &&
                    intNeqOpt ((findAdj (Int.ofNat curr) (Int.ofNat n)).get d) prev then
                  cyF fuel a ((findAdj (Int.ofNat curr) (Int.ofNat n)).get d).toNat vis
                    (some curr)
                else some (false, vis)) ds = some res2
              rw [if_pos hcond, hW, hsub]
              exact hres2
            · obtain ⟨res2, hres2⟩ := ihds hdst false vis hnd2 hb2 hC2
              refine ⟨res2, ?_⟩
              show List.foldl _
                (if (checkConnections (a.getD curr default)
                      (adjPipes a (findAdj (Int.ofNat curr) (Int.ofNat n)))).get d &&
                    intNeqOpt ((findAdj (Int.ofNat curr) (Int.ofNat n)).get d) prev then
                  cyF fuel a ((findAdj (Int.ofNat curr) (Int.ofNat n)).get d).toNat vis
                    (some curr)
                else some (false, vis)) ds = some res2
              rw [if_neg hcond]
              exact hres2
      exact hfold [0, 1, 2, 3] (by decide) false (visited ++ [curr]) hnd0 hb0 hC0

/-- The all-closed pipe: no openings in any direction. -/
def p0 : PipeType := mkPipe false false false false

/-- A 3 by 3 assignment whose four lower-right cells form a closed loop while
cell 0 is isolated: the no_cycles validator never reaches the loop. -/
def cyCE : Assignment := [p0, p0, p0, p0, pRD, pDL, p0, pUR, pUL]

theorem dfsInv_nil (n : Nat) (a : Assignment) (root : Nat) :
    DfsInv n a root [] [] :=
  ⟨List.nodup_nil, fun v hv => absurd hv (List.not_mem_nil v), rfl,
   fun e he => absurd he (List.not_mem_nil e),
   fun v hv => absurd hv (List.not_mem_nil v)⟩

/-- The no_cycles validator decides exactly the acyclicity of the component
of cell 0. -/
theorem noCycles_validator_iff (n : Nat) (a : Assignment)
    (hn : 0 < n) (ha : a.length = n * n) (h0 : 0 < n * n) :
    noCyclesValidator a = true ↔ (reachGraph n a ⟨0, h0⟩).IsAcyclic := by
  constructor
  · intro hv
    rw [noCyclesValidator] at hv
    cases hrun : cyF (a.length + 2) a 0 [] none with
    | none =>
      rw [hrun] at hv
      simp at hv
    | some bv =>
      obtain ⟨b, out⟩ := bv
      rw [hrun] at hv
      simp only [Option.getD_some, Bool.not_eq_true'] at hv
      subst hv
      have hspec := cyF_spec n a 0 hn ha h0 (a.length + 2) 0 [] none [] false out
        hrun h0 (dfsInv_nil n a 0) ⟨rfl, rfl, rfl⟩
      obtain ⟨-, parNew, hpre, hinv, -, hchar⟩ := hspec.2 rfl
      rw [List.nil_append] at hinv
      refine par_forest_acyclic n a 0 h0 out parNew hinv ?_ ?_
      · exact hpre.subset (by simp)
      · intro v hvm j hconn
        have hres := hchar v hvm (List.not_mem_nil v) j hconn
        rw [List.nil_append] at hres
        exact hres
  · intro hac
    rw [noCyclesValidator]
    cases hrun : cyF (a.length + 2) a 0 [] none with
    | none =>
      exfalso
      obtain ⟨res, hres⟩ := cyF_some n a hn ha (a.length + 2) 0 [] none h0
        List.nodup_nil (fun v hv2 => absurd hv2 (List.not_mem_nil v))
        (by rw [ha]; simp)
      rw [hrun] at hres
      cases hres
    | some bv =>
      obtain ⟨b, out⟩ := bv
      cases b with
      | false => simp
      | true =>
        exfalso
        have hspec := cyF_spec n a 0 hn ha h0 (a.length + 2) 0 [] none [] true out
          hrun h0 (dfsInv_nil n a 0) ⟨rfl, rfl, rfl⟩
        exact (hspec.1 rfl) hac

/-- C3 (amended): the no_cycles validator returns true iff the subgraph
spanned by the component of cell 0 is acyclic.  It says nothing about cycles
in components the traversal from cell 0 never reaches. -/
theorem C3_validator_iff_component_acyclic (n : Nat) (a : Assignment)
    (hn : 0 < n) (ha : a.length = n * n) (h0 : 0 < n * n) :
    noCyclesValidator a = true ↔ (reachGraph n a ⟨0, h0⟩).IsAcyclic :=
  noCycles_validator_iff n a hn ha h0

/-- Closed statement discharging the amended C3 on the solved 2 by 2 board. -/
theorem C3_validator_iff_component_acyclic_witness :
    (0 : Nat) < 2 ∧ ([pRD, pL, pUR, pL] : Assignment).length = 2 * 2 ∧
    (0 : Nat) < 2 * 2 ∧
    (noCyclesValidator [pRD, pL, pUR, pL] = true ↔
      (reachGraph 2 [pRD, pL, pUR, pL] ⟨0, by decide⟩).IsAcyclic) :=
  ⟨by decide, by decide, by decide,
    C3_validator_iff_component_acyclic 2 [pRD, pL, pUR, pL]
      (by decide) (by decide) (by decide)⟩

/-- C3 (refuting the original claim): on the 3 by 3 board cyCE the validator
answers true although the connection graph contains a 4-cycle through cells
4, 5, 8, 7 — the cycle lies outside the component of cell 0, which the
depth-first traversal never leaves. -/
theorem C3_counterexample :
    noCyclesValidator cyCE = true ∧ cyCE.length = 3 * 3 ∧
    ¬ (pipesGraph 3 cyCE).IsAcyclic := by
  refine ⟨by decide, by decide, ?_⟩
  have h45 : (pipesGraph 3 cyCE).Adj 4 5 :=
    (pipesGraph_adj 3 cyCE 4 5).mpr ⟨1, by decide, by decide, by decide, by decide⟩
  have h58 : (pipesGraph 3 cyCE).Adj 5 8 :=
    (pipesGraph_adj 3 cyCE 5 8).mpr ⟨2, by decide, by decide, by decide, by decide⟩
  have h87 : (pipesGraph 3 cyCE).Adj 8 7 :=
    (pipesGraph_adj 3 cyCE 8 7).mpr ⟨3, by decide, by decide, by decide, by decide⟩
  have h74 : (pipesGraph 3 cyCE).Adj 7 4 :=
    (pipesGraph_adj 3 cyCE 7 4).mpr ⟨0, by decide, by decide, by decide, by decide⟩
  intro hac
  apply hac (SimpleGraph.Walk.cons h45 (SimpleGraph.Walk.cons h58
    (SimpleGraph.Walk.cons h87 (SimpleGraph.Walk.cons h74 SimpleGraph.Walk.nil))))
  rw [SimpleGraph.Walk.isCycle_def]
  refine ⟨?_, ?_, ?_⟩
  · rw [SimpleGraph.Walk.isTrail_def]
    show ([s(4, 5), s(5, 8), s(8, 7), s(7, 4)] : List (Sym2 (Fin (3 * 3)))).Nodup
    decide
  · simp
  · show ([5, 8, 7, 4] : List (Fin (3 * 3))).Nodup
    decide

theorem unassignVar_vars_length (g : GacState) (i : Nat) :
    ((unassignVar g i).2).vars.length = g.vars.length := by
  unfold unassignVar
  cases hu : (getV g.vars i).unassign with
  | mk ok v =>
    cases ok with
    | true => exact setV_length g.vars i v
    | false => rfl

theorem assignVar_vars_length (g : GacState) (i : Nat) (p : PipeType) :
    ((assignVar g i p).2).vars.length = g.vars.length := by
  unfold assignVar
  cases hu : (getV g.vars i).assign p with
  | mk ok v =>
    cases ok with
    | true => exact setV_length g.vars i v
    | false => rfl

theorem restore_vars_length (g : GacState) (log : PruneLog) :
    (restore g log).vars.length = g.vars.length := by
  unfold restore
  suffices hgen : ∀ (l : PruneLog) (vs : CSPState),
      (l.foldl (fun vs e =>
        setV vs e.1
          { getV vs e.1 with activeDomain := (getV vs e.1).activeDomain ++ e.2 })
        vs).length = vs.length from hgen log g.vars
  intro l
  induction l with
  | nil => intro vs; rfl
  | cons e rest ih =>
    intro vs
    rw [List.foldl_cons, ih]
    exact setV_length vs e.1 _

/-- ac3 preserves the number of variables. -/
theorem ac3F_length (cons : List Con) (hp : ∀ c ∈ cons, PrunerExact c.pruner) :
    ∀ (fuel : Nat) (s : CSPState) (queue : List Nat) (acc : PruneLog)
      (s2 : CSPState) (log : PruneLog),
    ac3F cons fuel s queue acc = .out s2 log → s2.length = s.length := by
  intro fuel
  induction fuel with
  | zero =>
    intro s queue acc s2 log h
    cases h
  | succ fuel ih =>
    intro s queue acc s2 log h
    rw [ac3F_succ] at h
    cases queue with
    | nil =>
      simp only [AC3Out.out.injEq] at h
      rw [← h.1]
    | cons con rest =>
      simp only at h
      have hpe : PrunerExact (cons.getD con default).pruner := by
        by_cases hlt : con < cons.length
        · apply hp
          rw [List.getD_eq_getElem?_getD, List.getElem?_eq_getElem hlt, Option.getD_some]
          exact List.getElem_mem hlt
        · rw [List.getD_eq_getElem?_getD,
            List.getElem?_eq_none (Nat.le_of_not_lt hlt), Option.getD_none]
          exact defaultCon_pruner_exact
      cases hpr : (cons.getD con default).pruner fuel s with
      | error e =>
        simp only [hpr] at h
        cases h
      | ok sp =>
        obtain ⟨s3, pruned⟩ := sp
        simp only [hpr] at h
        have hlen3 : s3.length = s.length := (hpe fuel s s3 pruned hpr).2.2.2.2.2.1
        cases hent : ac3Entries cons s3 pruned rest acc with
        | inl accF =>
          simp only [hent] at h
          simp only [AC3Out.out.injEq] at h
          rw [← h.1, hlen3]
        | inr qa =>
          obtain ⟨q2, acc2⟩ := qa
          simp only [hent] at h
          rw [ih s3 q2 acc2 s2 log h, hlen3]

/-- anyViolated returning false certifies every constraint unviolated. -/
theorem anyViolatedF_all (cons : List Con) (s : CSPState) :
    anyViolatedF cons s = .ok false → ∀ c ∈ cons, conViolated c s = .ok false := by
  induction cons with
  | nil =>
    intro _ c hc
    cases hc
  | cons c0 rest ih =>
    intro h c hc
    have h2 : (match conViolated c0 s with
      | .error e => (.error e : Except String Bool)
      | .ok true => .ok true
      | .ok false => anyViolatedF rest s) = .ok false := h
    cases hcv : conViolated c0 s with
    | error e =>
      rw [hcv] at h2
      cases h2
    | ok b =>
      cases b with
      | true =>
        rw [hcv] at h2
        simp at h2
      | false =>
        rw [hcv] at h2
        rcases List.mem_cons.mp hc with rfl | hcr
        · exact hcv
        · exact ih h2 c hcr

theorem conViolated_validator (c : Con) (s : CSPState)
    (h : conViolated c s = .ok false) :
    c.validator (c.scope.map (fun v => ((getV s v).getAssignment).getD default))
      = true := by
  unfold conViolated at h
  split at h
  · cases h
  · simp only [Except.ok.injEq] at h
    cases hb : c.validator
        (c.scope.map (fun v => ((getV s v).getAssignment).getD default)) with
    | true => rfl
    | false =>
      rw [hb] at h
      simp at h

theorem cspGetAssignment_eq (s : CSPState) (a : Assignment)
    (h : cspGetAssignment s = .ok a) :
    a = s.map (fun v => v.getAssignment.getD default) := by
  unfold cspGetAssignment at h
  split at h
  · simp only [Except.ok.injEq] at h
    exact h.symm
  · cases h

theorem range_map_getV (s : CSPState) (N : Nat) (hs : s.length = N)
    (f : Variable → PipeType) :
    (List.range N).map (fun v => f (getV s v)) = s.map f := by
  apply List.ext_getElem
  · rw [List.length_map, List.length_range, List.length_map, hs]
  · intro i h1 h2
    rw [List.getElem_map, List.getElem_map, List.getElem_range]
    have hi : i < s.length := by
      rw [List.length_map] at h2
      exact h2
    congr 1
    rw [getV, List.getD_eq_getElem?_getD, List.getElem?_eq_getElem hi, Option.getD_some]

/-- Where gacAll solutions come from: every assignment in the output list was
either already present, or was read off a fully assigned state of the same
size that no constraint flagged as violated. -/
theorem gacLoopF_solutions (cons : List Con) (hp : ∀ c ∈ cons, PrunerExact c.pruner)
    (N : Nat) :
    ∀ (fuel : Nat) (g : GacState) (stack : List SearchState)
      (solutions : List Assignment) (maxSolutions : Int) (randomStart : Bool)
      (rng : Rng) (out : List Assignment) (g2 : GacState),
    gacLoopF cons fuel g stack solutions maxSolutions randomStart rng =
      .ok (out, g2) →
    g.vars.length = N →
    ∀ a ∈ out, a ∈ solutions ∨ ∃ s : CSPState, s.length = N ∧
      cspGetAssignment s = .ok a ∧ anyViolatedF cons s = .ok false := by
  intro fuel
  induction fuel with
  | zero =>
    intro g stack solutions maxS rs rng out g2 h hlen a ha
    have h2 : (Except.ok (solutions, g) :
        Except String (List Assignment × GacState)) = .ok (out, g2) := h
    simp only [Except.ok.injEq, Prod.mk.injEq] at h2
    rw [← h2.1] at ha
    exact Or.inl ha
  | succ fuel ih =>
    intro g stack solutions maxS rs rng out g2 h hlen a ha
    rw [gacLoopF_succ] at h
    cases stack with
    | nil =>
      simp only [Except.ok.injEq, Prod.mk.injEq] at h
      rw [← h.1] at ha
      exact Or.inl ha
    | cons state stackRest =>
      simp only at h
      split at h
      · simp only [Except.ok.injEq, Prod.mk.injEq] at h
        rw [← h.1] at ha
        exact Or.inl ha
      · split at h
        · cases hga : cspGetAssignment g.vars with
          | error e =>
            simp only [hga] at h
            cases h
          | ok currA =>
            simp only [hga] at h
            split at h
            · rename_i e heq
              cases h
            · rename_i sols2 heq
              have hrec := ih _ _ _ _ _ _ _ _ h
                (by rw [restore_vars_length, unassignVar_vars_length]; exact hlen) a ha
              rcases hrec with hmem | hP
              · have hsols2 : sols2 = solutions ∨
                    (sols2 = solutions ++ [currA] ∧
                      anyViolatedF cons g.vars = .ok false) := by
                  split at heq
                  · simp only [Except.ok.injEq] at heq
                    exact Or.inl heq.symm
                  · split at heq
                    · cases heq
                    · simp only [Except.ok.injEq] at heq
                      exact Or.inl heq.symm
                    · rename_i hv
                      simp only [Except.ok.injEq] at heq
                      exact Or.inr ⟨heq.symm, hv⟩
                rcases hsols2 with rfl | ⟨rfl, hv⟩
                · exact Or.inl hmem
                · rw [List.mem_append, List.mem_singleton] at hmem
                  rcases hmem with hmem | rfl
                  · exact Or.inl hmem
                  · exact Or.inr ⟨g.vars, hlen, hga, hv⟩
              · exact Or.inr hP
        · split at h
          · cases stackRest with
            | nil => exact ih _ _ _ _ _ _ _ _ h hlen a ha
            | cons prevState rest =>
              exact ih _ _ _ _ _ _ _ _ h
                (by rw [restore_vars_length, unassignVar_vars_length]; exact hlen) a ha
          · split at h
            · cases h
            · simp only [Except.ok.injEq, Prod.mk.injEq] at h
              rw [← h.1] at ha
              exact Or.inl ha
            · rename_i vars pd hac
              have hvlen : vars.length = N := by
                rw [ac3F_length cons hp fuel _ _ _ _ _ hac,
                  assignVar_vars_length, unassignVar_vars_length]
                exact hlen
              split at h
              · exact ih _ _ _ _ _ _ _ _ h
                  (by rw [restore_vars_length]; exact hvlen) a ha
              · split at h
                · split at h
                  · simp only [Except.ok.injEq, Prod.mk.injEq] at h
                    rw [← h.1] at ha
                    exact Or.inl ha
                  · split at h
                    · exact ih _ _ _ _ _ _ _ _ h hvlen a ha
                    · exact ih _ _ _ _ _ _ _ _ h hvlen a ha
                · exact ih _ _ _ _ _ _ _ _ h hvlen a ha

theorem gacAll_solutions (cons : List Con) (hp : ∀ c ∈ cons, PrunerExact c.pruner)
    (N fuel : Nat) (g : GacState) (solutions : List Assignment) (maxSolutions : Int)
    (randomStart : Bool) (rng : Rng) (out : List Assignment) (g2 : GacState)
    (h : gacAll cons fuel g solutions maxSolutions randomStart rng = .ok (out, g2))
    (hlen : g.vars.length = N) :
    ∀ a ∈ out, a ∈ solutions ∨ ∃ s : CSPState, s.length = N ∧
      cspGetAssignment s = .ok a ∧ anyViolatedF cons s = .ok false := by
  intro a ha
  unfold gacAll at h
  split at h
  · split at h
    · exact gacLoopF_solutions cons hp N fuel g _ solutions maxSolutions randomStart
        _ out g2 h hlen a ha
    · split at h
      · exact gacLoopF_solutions cons hp N fuel g _ solutions maxSolutions randomStart
          _ out g2 h hlen a ha
      · exact gacLoopF_solutions cons hp N fuel g _ solutions maxSolutions randomStart
          _ out g2 h hlen a ha
  · exact gacLoopF_solutions cons hp N fuel g _ solutions maxSolutions randomStart
      _ out g2 h hlen a ha

/-- The tree (no_cycles) constraint of createPipesCSP, as it sits in
pipesCons. -/
def treeCon (n : Nat) : Con :=
  { name := "tree"
    scope := List.range (n * n)
    validator := noCyclesValidator
    pruner := noCyclesPruner }

/-- The connected constraint of createPipesCSP, as it sits in pipesCons. -/
def connCon (n : Nat) : Con :=
  { name := "connected"
    scope := List.range (n * n)
    validator := connectedValidator
    pruner := fun fuel s => .ok (connectedPruner fuel s) }

instance specConnDec (n : Nat) (a : Assignment) (i j : Nat) :
    Decidable (specConn n a i j) :=
  decidable_of_iff (∃ d ∈ Finset.range 4, specNeighbor n i d = some j ∧
      (a.getD i default).get d = true ∧ (a.getD j default).get ((d + 2) % 4) = true)
    (by
      constructor
      · rintro ⟨d, hd, h1, h2, h3⟩
        exact ⟨d, Finset.mem_range.mp hd, h1, h2, h3⟩
      · rintro ⟨d, hd, h1, h2, h3⟩
        exact ⟨d, Finset.mem_range.mpr hd, h1, h2, h3⟩)

instance pipesAdjDec (n : Nat) (a : Assignment) : DecidableRel (pipesGraph n a).Adj :=
  fun v w => decidable_of_iff (specConn n a v.val w.val) (pipesGraph_adj n a v w).symm

/-- Once the graph is connected, restricting to the component of any root
changes nothing. -/
theorem reachGraph_eq_of_connected (n : Nat) (a : Assignment) (root : Fin (n * n))
    (hc : (pipesGraph n a).Connected) :
    reachGraph n a root = pipesGraph n a := by
  ext v w
  constructor
  · intro h
    rw [reachGraph, SimpleGraph.fromRel_adj] at h
    obtain ⟨hne, hcase⟩ := h
    rcases hcase with ⟨h, -, -⟩ | ⟨h, -, -⟩
    · exact h
    · exact h.symm
  · intro h
    rw [reachGraph, SimpleGraph.fromRel_adj]
    exact ⟨h.ne, Or.inl ⟨h, hc.preconnected root v, hc.preconnected root w⟩⟩

/-- C5: every solution gacAll records on the freshly built pipes CSP decodes
to a full assignment whose connection graph is a tree on the n * n cells:
connected, acyclic, and with exactly n * n - 1 edges. -/
theorem C5_solutions_are_trees (n fuel : Nat) (hn : 0 < n) (maxSolutions : Int)
    (randomStart : Bool) (rng : Rng) (out : List Assignment) (g2 : GacState)
    (h : gacAll (pipesCons n) fuel (pipesInit n) [] maxSolutions randomStart rng =
      .ok (out, g2)) :
    ∀ a ∈ out, a.length = n * n ∧ (pipesGraph n a).Connected ∧
      (pipesGraph n a).IsAcyclic ∧ (pipesGraph n a).edgeFinset.card = n * n - 1 := by
  intro a ha
  have hlen0 : (pipesInit n).vars.length = n * n := by
    show (pipesVars n).length = n * n
    rw [pipesVars, List.length_map, List.length_range]
  rcases gacAll_solutions (pipesCons n) (pipesCons_pruner_exact n) (n * n) fuel
      (pipesInit n) [] maxSolutions randomStart rng out g2 h hlen0 a ha with
    hmem | ⟨s, hslen, hget, hviol⟩
  · cases hmem
  · have hall := anyViolatedF_all (pipesCons n) s hviol
    have htm : treeCon n ∈ pipesCons n := by
      unfold pipesCons treeCon
      exact List.mem_append_right _ (List.mem_cons_self _ _)
    have hcm : connCon n ∈ pipesCons n := by
      unfold pipesCons connCon
      exact List.mem_append_right _ (List.mem_cons_of_mem _ (List.mem_cons_self _ _))
    have haeq : a = s.map (fun v => v.getAssignment.getD default) :=
      cspGetAssignment_eq s a hget
    have hmapeq : (List.range (n * n)).map
        (fun v => ((getV s v).getAssignment).getD default) =
        s.map (fun v => v.getAssignment.getD default) :=
      range_map_getV s (n * n) hslen (fun v => v.getAssignment.getD default)
    have hnc : noCyclesValidator a = true := by
      have htv : noCyclesValidator ((List.range (n * n)).map
          (fun v => ((getV s v).getAssignment).getD default)) = true :=
        conViolated_validator _ s (hall _ htm)
      rw [hmapeq, ← haeq] at htv
      exact htv
    have hcc : connectedValidator a = true := by
      have htv : connectedValidator ((List.range (n * n)).map
          (fun v => ((getV s v).getAssignment).getD default)) = true :=
        conViolated_validator _ s (hall _ hcm)
      rw [hmapeq, ← haeq] at htv
      exact htv
    have halen : a.length = n * n := by
      rw [haeq, List.length_map, hslen]
    have hconn := (connectedValidator_iff_connected n a hn halen).mp hcc
    have hpos : 0 < n * n := Nat.mul_pos hn hn
    have hacy0 := (noCycles_validator_iff n a hn halen hpos).mp hnc
    have hEq : reachGraph n a ⟨0, hpos⟩ = pipesGraph n a :=
      reachGraph_eq_of_connected n a ⟨0, hpos⟩ hconn
    have hacy : (pipesGraph n a).IsAcyclic := by
      rw [← hEq]
      exact hacy0
    have htree : (pipesGraph n a).IsTree := ⟨hconn, hacy⟩
    have hcard := htree.card_edgeFinset
    rw [Fintype.card_fin] at hcard
    exact ⟨halen, hconn, hacy, by omega⟩

/-- Closed statement discharging C5 on a deterministic 2 by 2 run that
records one solution. -/
theorem C5_solutions_are_trees_witness :
    (0 : Nat) < 2 ∧
    gacAll (pipesCons 2) 50 (pipesInit 2) [] 1 false [] =
      .ok ([[pRD, pDL, pU, pU]],
        ⟨[⟨0, [pRD, pR, pD], [pRD, pR, pD], some pRD⟩,
          ⟨1, [pDL, pD, pL], [pDL, pL], some pDL⟩,
          ⟨2, [pUR, pU, pR], [pUR, pU], some pU⟩,
          ⟨3, [pUL, pU, pL], [pU], none⟩],
         [0, 1, 2], [3]⟩) ∧
    (∀ a ∈ [[pRD, pDL, pU, pU]], a.length = 2 * 2 ∧
      (pipesGraph 2 a).Connected ∧ (pipesGraph 2 a).IsAcyclic ∧
      (pipesGraph 2 a).edgeFinset.card = 2 * 2 - 1) := by
  have hrun : gacAll (pipesCons 2) 50 (pipesInit 2) [] 1 false [] =
      .ok ([[pRD, pDL, pU, pU]],
        ⟨[⟨0, [pRD, pR, pD], [pRD, pR, pD], some pRD⟩,
          ⟨1, [pDL, pD, pL], [pDL, pL], some pDL⟩,
          ⟨2, [pUR, pU, pR], [pUR, pU], some pU⟩,
          ⟨3, [pUL, pU, pL], [pU], none⟩],
         [0, 1, 2], [3]⟩) := by
    with_unfolding_all rfl
  exact ⟨by decide, hrun,
    C5_solutions_are_trees 2 50 (by decide) 1 false [] _ _ hrun⟩

/-- A 2 by 2 state in which all four cells are assigned pipes forming a
closed loop, and the duplicated-touch cell (cell 2) retains a leftover active
value that opens toward neither toucher.  On this state the no_cycles pruner
reports the removal map entry 2 maps-to empty-list without changing anything. -/
def cycleStuckState : CSPState :=
  [⟨0, [pRD, pR, pD], [pRD], some pRD⟩,
   ⟨1, [pDL, pD, pL], [pDL], some pDL⟩,
   ⟨2, [pUR, pU, pR], [pU], some pUR⟩,
   ⟨3, [pUL, pU, pL], [pUL], some pUL⟩]

/-- The per-call log that the looping ac3 run stabilizes on. -/
def stuckLog : PruneLog := [(2, [])]

theorem ac3F_step_err (cons : List Con) (fuel : Nat) (s : CSPState) (con : Nat)
    (rest : List Nat) (acc : PruneLog) (e : String)
    (hpr : (cons.getD con default).pruner fuel s = .error e) :
    ac3F cons (fuel + 1) s (con :: rest) acc = .err e := by
  rw [ac3F_succ]
  show (match (cons.getD con default).pruner fuel s with
    | .error e => AC3Out.err e
    | .ok (s3, pruned) =>
      match ac3Entries cons s3 pruned rest acc with
      | .inl accFinal => AC3Out.out s3 accFinal
      | .inr (q2, acc2) => ac3F cons fuel s3 q2 acc2) = _
  rw [hpr]

theorem ac3F_step_ok (cons : List Con) (fuel : Nat) (s : CSPState) (con : Nat)
    (rest : List Nat) (acc : PruneLog) (s3 : CSPState) (pruned : PruneLog)
    (q2 : List Nat) (acc2 : PruneLog)
    (hpr : (cons.getD con default).pruner fuel s = .ok (s3, pruned))
    (hent : ac3Entries cons s3 pruned rest acc = .inr (q2, acc2)) :
    ac3F cons (fuel + 1) s (con :: rest) acc = ac3F cons fuel s3 q2 acc2 := by
  rw [ac3F_succ]
  show (match (cons.getD con default).pruner fuel s with
    | .error e => AC3Out.err e
    | .ok (s3, pruned) =>
      match ac3Entries cons s3 pruned rest acc with
      | .inl accFinal => AC3Out.out s3 accFinal
      | .inr (q2, acc2) => ac3F cons fuel s3 q2 acc2) = _
  rw [hpr]
  show (match ac3Entries cons s3 pruned rest acc with
    | .inl accFinal => AC3Out.out s3 accFinal
    | .inr (q2, acc2) => ac3F cons fuel s3 q2 acc2) = _
  rw [hent]

/-- At every fuel, the tree pruner on the stuck state either runs out of fuel
or reports the empty-removal entry for cell 2 with the state unchanged. -/
theorem treeDich (f : Nat) :
    ((pipesCons 2).getD 4 default).pruner f cycleStuckState =
      .error "fuelExhausted" ∨
    ((pipesCons 2).getD 4 default).pruner f cycleStuckState =
      .ok (cycleStuckState, [(2, [])]) :=
  match f with
  | 0 => Or.inl (by with_unfolding_all rfl)
  | 1 => Or.inl (by with_unfolding_all rfl)
  | 2 => Or.inl (by with_unfolding_all rfl)
  | g + 3 => Or.inr (by with_unfolding_all rfl)

theorem connStuck (f : Nat) :
    ((pipesCons 2).getD 5 default).pruner f cycleStuckState =
      .ok (cycleStuckState, []) :=
  match f with
  | 0 => by with_unfolding_all rfl
  | 1 => by with_unfolding_all rfl
  | 2 => by with_unfolding_all rfl
  | 3 => by with_unfolding_all rfl
  | 4 => by with_unfolding_all rfl
  | 5 => by with_unfolding_all rfl
  | 6 => by with_unfolding_all rfl
  | 7 => by with_unfolding_all rfl
  | g + 8 => by with_unfolding_all rfl

theorem hStuck1 (f : Nat) :
    ((pipesCons 2).getD 1 default).pruner f cycleStuckState =
      .ok (cycleStuckState, []) := by
  with_unfolding_all rfl

theorem vStuck2 (f : Nat) :
    ((pipesCons 2).getD 2 default).pruner f cycleStuckState =
      .ok (cycleStuckState, []) := by
  with_unfolding_all rfl

/-- The ac3 worklist never drains on the stuck state: from the queue holding
the tree constraint, every configuration steps to another configuration of
the same finite family, with the state unchanged, because ac3 re-enqueues all
constraints of the logged variable even though the logged removal list is
empty.  No fuel makes the call return normally. -/
theorem ac3_requeue_forever :
    ∀ (fuel : Nat) (q : List Nat) (acc : PruneLog),
    (q, acc) ∈ [([4], ([] : PruneLog)), ([4], stuckLog), ([1, 2, 4, 5], stuckLog),
      ([2, 4, 5], stuckLog), ([4, 5], stuckLog), ([5, 1, 2, 4], stuckLog),
      ([1, 2, 4], stuckLog), ([2, 4], stuckLog)] →
    ∀ s2 log, ac3F (pipesCons 2) fuel cycleStuckState q acc ≠ .out s2 log := by
  intro fuel
  induction fuel with
  | zero =>
    intro q acc hmem s2 log h
    have h0 : ac3F (pipesCons 2) 0 cycleStuckState q acc = .spin := rfl
    rw [h0] at h
    cases h
  | succ fuel ih =>
    intro q acc hmem s2 log h
    simp only [List.mem_cons, List.not_mem_nil, or_false, Prod.mk.injEq] at hmem
    rcases hmem with hc | hc | hc | hc | hc | hc | hc | hc <;>
      obtain ⟨rfl, rfl⟩ := hc
    · rcases treeDich fuel with herr | hok
      · rw [ac3F_step_err (pipesCons 2) fuel cycleStuckState 4 [] [] _ herr] at h
        cases h
      · rw [ac3F_step_ok (pipesCons 2) fuel cycleStuckState 4 [] []
          cycleStuckState [(2, [])] [1, 2, 4, 5] stuckLog hok
          (by with_unfolding_all rfl)] at h
        exact ih [1, 2, 4, 5] stuckLog (by decide) s2 log h
    · rcases treeDich fuel with herr | hok
      · rw [ac3F_step_err (pipesCons 2) fuel cycleStuckState 4 [] stuckLog _ herr] at h
        cases h
      · rw [ac3F_step_ok (pipesCons 2) fuel cycleStuckState 4 [] stuckLog
          cycleStuckState [(2, [])] [1, 2, 4, 5] stuckLog hok
          (by with_unfolding_all rfl)] at h
        exact ih [1, 2, 4, 5] stuckLog (by decide) s2 log h
    · rw [ac3F_step_ok (pipesCons 2) fuel cycleStuckState 1 [2, 4, 5] stuckLog
        cycleStuckState [] [2, 4, 5] stuckLog (hStuck1 fuel) rfl] at h
      exact ih [2, 4, 5] stuckLog (by decide) s2 log h
    · rw [ac3F_step_ok (pipesCons 2) fuel cycleStuckState 2 [4, 5] stuckLog
        cycleStuckState [] [4, 5] stuckLog (vStuck2 fuel) rfl] at h
      exact ih [4, 5] stuckLog (by decide) s2 log h
    · rcases treeDich fuel with herr | hok
      · rw [ac3F_step_err (pipesCons 2) fuel cycleStuckState 4 [5] stuckLog _ herr] at h
        cases h
      · rw [ac3F_step_ok (pipesCons 2) fuel cycleStuckState 4 [5] stuckLog
          cycleStuckState [(2, [])] [5, 1, 2, 4] stuckLog hok
          (by with_unfolding_all rfl)] at h
        exact ih [5, 1, 2, 4] stuckLog (by decide) s2 log h
    · rw [ac3F_step_ok (pipesCons 2) fuel cycleStuckState 5 [1, 2, 4] stuckLog
        cycleStuckState [] [1, 2, 4] stuckLog (connStuck fuel) rfl] at h
      exact ih [1, 2, 4] stuckLog (by decide) s2 log h
    · rw [ac3F_step_ok (pipesCons 2) fuel cycleStuckState 1 [2, 4] stuckLog
        cycleStuckState [] [2, 4] stuckLog (hStuck1 fuel) rfl] at h
      exact ih [2, 4] stuckLog (by decide) s2 log h
    · rw [ac3F_step_ok (pipesCons 2) fuel cycleStuckState 2 [4] stuckLog
        cycleStuckState [] [4] stuckLog (vStuck2 fuel) rfl] at h
      exact ih [4] stuckLog (by decide) s2 log h

/-- On the stuck state, the ac3 call seeded with the tree constraint never
returns normally, whatever the fuel: the source loop would run forever. -/
theorem ac3_stuck_never_returns (fuel : Nat) (s2 : CSPState) (log : PruneLog) :
    ac3F (pipesCons 2) fuel cycleStuckState [4] [] ≠ .out s2 log :=
  ac3_requeue_forever fuel [4] [] (by decide) s2 log

end Pipes
